import Mathlib

/-!
Verification development for `src/src/json.rs` of the `json-rs` repository:
a JSON parser written with the `nom` combinator library, together with a
`Display` renderer.

The embedding works on `List Char` (Rust `&str` slices).  Every parser is a
function `List Char → Except PErr (List Char × α)`, mirroring nom's
`IResult<&str, α>`: on success it returns the remaining input and the parsed
value, on failure an error kind.  The nom combinators used by the source
(`tag`, `alt`, `take_while1`, `one_of`, `multispace0`, `escaped`,
`separated_list0`, `separated_pair`, `delimited`, `recognize_float`) are
modelled by their published semantics, inlined at each use site so the
structure of each Rust function stays visible.  All definitions are
structurally recursive, so concrete runs evaluate inside the kernel.
-/

set_option maxRecDepth 16384
set_option exponentiation.threshold 2000

namespace JsonRs

/-- Outcome kinds of a failed parse.
`error` models `nom::Err::Error` (recoverable: `alt` tries the next branch);
`failure` models `nom::Err::Failure` (produced by `cut`, not recovered by
`alt` or `opt`); `panicked` models a Rust `panic!`/`expect` abort (not a nom
error at all — used for the `expect` call in `parse_json_number`); `fuel` is
an artefact of the embedding: the mutually recursive value parser is defined
with a fuel parameter and reports `fuel` only when it runs out, which is
proved impossible for the exported entry points. -/
inductive PErr where
  | error
  | failure
  | fuel
  | panicked
deriving DecidableEq

instance {ε α : Type} [DecidableEq ε] [DecidableEq α] : DecidableEq (Except ε α) :=
  fun x y =>
    match x, y with
    | .ok a, .ok b => if h : a = b then .isTrue (by rw [h]) else .isFalse (by simp [h])
    | .error a, .error b => if h : a = b then .isTrue (by rw [h]) else .isFalse (by simp [h])
    | .ok _, .error _ => .isFalse (by simp)
    | .error _, .ok _ => .isFalse (by simp)

/-- Result type of a parser, mirroring nom's `IResult<&str, α>`. -/
abbrev PResult (α : Type) := Except PErr (List Char × α)

/-- Characters accepted by nom's `multispace0`: space, tab, newline,
carriage return. -/
def isNomSpace (c : Char) : Bool :=
  c = ' ' || c = '\t' || c = '\n' || c = '\r'

/-- nom's `multispace0`: consume the maximal run of whitespace.  It never
fails, so it is modelled as the function returning the remaining input. -/
def ws (s : List Char) : List Char := s.dropWhile isNomSpace

/-- nom's `bytes::complete::tag`: succeeds exactly when `t` is a literal
prefix of the input and consumes it. -/
def litP (t : List Char) (input : List Char) : PResult (List Char) :=
  if t.isPrefixOf input then .ok (input.drop t.length, t) else .error .error

/-! ## Number grammar

Rust `parse_json_number` calls `nom::number::complete::recognize_float`,
whose definition is
`recognize(tuple((opt(alt((char('+'), char('-')))),
alt((tuple((digit1, opt(tuple((char('.'), opt(digit1)))))),
tuple((char('.'), digit1)))),
opt(tuple((alt((char('e'), char('E'))), opt(alt((char('+'), char('-')))),
cut(digit1)))))))`.
The model splits the input into the consumed sign / body / exponent pieces;
`cut(digit1)` failing yields `PErr.failure`. -/

/-- Optional sign (`opt(alt((char('+'), char('-'))))`): the consumed prefix
(one sign character or nothing) and the rest. -/
def splitSign : List Char → List Char × List Char
  | c :: rest => if c = '+' || c = '-' then ([c], rest) else ([], c :: rest)
  | [] => ([], [])

/-- Maximal run of ASCII digits and the rest (`digit1` consumes this run and
fails if it is empty; `opt(digit1)` consumes it unconditionally). -/
def splitDigits (s : List Char) : List Char × List Char :=
  (s.takeWhile Char.isDigit, s.dropWhile Char.isDigit)

/-- Body of `recognize_float` after the sign:
`alt((tuple((digit1, opt(tuple((char('.'), opt(digit1)))))), tuple((char('.'), digit1))))`.
The consumed prefix and the rest, or `Err(Error)` when neither alternative
matches. -/
def splitBody (s : List Char) : Except PErr (List Char × List Char) :=
  match s with
  | c :: _ =>
    if c.isDigit then
      let (d, r1) := splitDigits s
      match r1 with
      | c2 :: r2 =>
        if c2 = '.' then
          let (f, r3) := splitDigits r2
          .ok (d ++ '.' :: f, r3)
        else .ok (d, c2 :: r2)
      | [] => .ok (d, [])
    else if c = '.' then
      match s with
      | _ :: r1 =>
        let (f, r2) := splitDigits r1
        if f.isEmpty then .error .error else .ok ('.' :: f, r2)
      | [] => .error .error
    else .error .error
  | [] => .error .error

/-- Exponent part of `recognize_float`:
`opt(tuple((alt((char('e'), char('E'))), opt(sign), cut(digit1))))`.
When an `e`/`E` is present the digits are mandatory: `cut` turns their
absence into `Err(Failure)`, which `opt` does not recover from. -/
def splitExp (s : List Char) : Except PErr (List Char × List Char) :=
  match s with
  | c :: r1 =>
    if c = 'e' || c = 'E' then
      let (sg, r2) := splitSign r1
      let (d, r3) := splitDigits r2
      if d.isEmpty then .error .failure else .ok (c :: (sg ++ d), r3)
    else .ok ([], c :: r1)
  | [] => .ok ([], [])

/-- nom's `recognize_float`: the recognized lexeme and the remaining input. -/
def recognize_float (input : List Char) : PResult (List Char) :=
  let (sg, s1) := splitSign input
  match splitBody s1 with
  | .error e => .error e
  | .ok (b, s2) =>
    match splitExp s2 with
    | .error e => .error e
    | .ok (ex, s3) => .ok (s3, sg ++ b ++ ex)

/-- Numeric value of a digit run, most significant digit first. -/
def digitsToNat : List Char → Nat
  | [] => 0
  | c :: rest => (c.toNat - 48) * 10 ^ rest.length + digitsToNat rest

/-- A decimal rational `m * 10 ^ e`.  This is the model of a finite Rust
`f64` produced by `f64::from_str` on a numeric lexeme: `from_str` rounds the
written decimal to the nearest double, and `Display` prints the shortest
decimal that reads back as the same double, so text-level parse/render
observations of the real program correspond to exact-decimal observations of
the model.  Producers only build canonical pairs (`m` not divisible by 10,
and `e = 0` when `m = 0`), making structural equality coincide with value
equality. -/
structure Dec10 where
  m : Int
  e : Int
deriving DecidableEq

/-- Canonicity of a decimal pair: the representation `⟨m, e⟩` of `m * 10^e`
with `10 ∤ m` (and `⟨0, 0⟩` for zero) is unique per value. -/
def Dec10.canonical (d : Dec10) : Prop :=
  (d.m = 0 → d.e = 0) ∧ (d.m ≠ 0 → d.m % 10 ≠ 0)

instance (d : Dec10) : Decidable d.canonical := by
  unfold Dec10.canonical; infer_instance

/-- Strip factors of 10 from `m` into the exponent (fuel-driven). -/
def canonGo : Nat → Int → Int → Dec10
  | 0, m, e => ⟨m, e⟩
  | fuel + 1, m, e => if m % 10 = 0 then canonGo fuel (m / 10) (e + 1) else ⟨m, e⟩

/-- Canonical decimal pair for the value `m * 10 ^ e`. -/
def canon (m e : Int) : Dec10 :=
  if m = 0 then ⟨0, 0⟩ else canonGo m.natAbs m e

/-- Model of a Rust `f64` (see `Dec10`): a finite double as a canonical
decimal pair, or an infinity. -/
inductive F64 where
  | finite : Dec10 → F64
  | inf : F64
  | neginf : F64
deriving DecidableEq

/-- Overflow threshold of IEEE-754 double round-to-nearest-even, as an
integer: decimal magnitudes at or above `2^1024 - 2^970` round to infinity
(it is the midpoint between the largest finite double and `2^1024`). -/
def f64Overflow : Int := ((2 ^ 970 * (2 ^ 54 - 1) : Nat) : Int)

/-- Does `m * 10 ^ e ≥ t` hold (with `t > 0`)?  Integer comparison obtained
by scaling both sides by `10 ^ |e|`. -/
def decAtLeast (d : Dec10) (t : Int) : Bool :=
  if 0 ≤ d.e then t ≤ d.m * ((10 ^ d.e.toNat : Nat) : Int)
  else t * ((10 ^ (-d.e).toNat : Nat) : Int) ≤ d.m

/-- Does `m * 10 ^ e ≤ t` hold (with `t < 0`)? -/
def decAtMost (d : Dec10) (t : Int) : Bool :=
  if 0 ≤ d.e then d.m * ((10 ^ d.e.toNat : Nat) : Int) ≤ t
  else d.m ≤ t * ((10 ^ (-d.e).toNat : Nat) : Int)

/-- Exact decimal value denoted by a numeric lexeme
(`sign? intDigits ('.' fracDigits)? ([eE] sign? expDigits)?`). -/
def lexToDec (lex : List Char) : Dec10 :=
  let (sg, s1) := splitSign lex
  let (d, r1) := splitDigits s1
  let (frac, r2) :=
    match r1 with
    | c1 :: rr => if c1 = '.' then splitDigits rr else ([], c1 :: rr)
    | [] => ([], [])
  let ev : Int :=
    match r2 with
    | c :: rr =>
      if c = 'e' || c = 'E' then
        let (es, r3) := splitSign rr
        let (ed, _) := splitDigits r3
        if es = ['-'] then -(digitsToNat ed : Int) else (digitsToNat ed : Int)
      else 0
    | [] => 0
  let mId : Int := (digitsToNat (d ++ frac) : Int)
  canon (if sg = ['-'] then -mId else mId) (ev - frac.length)

/-- Model of `f64::from_str` on a numeric lexeme: the exact decimal value,
except that magnitudes at or beyond the overflow threshold become
infinities, exactly as `from_str` returns `inf`/`-inf` there. -/
def f64OfLex (lex : List Char) : F64 :=
  let d := lexToDec lex
  if decAtLeast d f64Overflow then .inf
  else if decAtMost d (-f64Overflow) then .neginf
  else .finite d

/-- Acceptance grammar of Rust's `f64::FromStr` (the numeric production:
`sign? ((digits '.'? digits?) | ('.' digits)) (('e'|'E') sign? digits)?`,
the whole string matching; the additional `inf`/`infinity`/`nan` spellings
accepted by `from_str` are omitted — they only widen acceptance, so omitting
them strengthens the no-panic theorem). -/
def rfaFrac (r1 : List Char) : List Char × List Char :=
  match r1 with
  | c :: rr =>
    if c = '.' then (let (f, r) := splitDigits rr; ('.' :: f, r)) else ([], c :: rr)
  | [] => ([], [])

def rfaExp (r2 : List Char) : Bool :=
  match r2 with
  | c :: rr =>
    if c = 'e' || c = 'E' then
      let (_, r3) := splitSign rr
      let (ed, r4) := splitDigits r3
      !ed.isEmpty && r4.isEmpty
    else false
  | [] => true

def rustFloatAccepts (s : List Char) : Bool :=
  let (_, s1) := splitSign s
  let (d, r1) := splitDigits s1
  let (frac, r2) := rfaFrac r1
  -- without integer digits only the `. digits` form remains
  (if d.isEmpty then decide (frac.length ≥ 2) else true) && rfaExp r2

/-! ## String grammar

Rust `parse_json_string` is
`delimited(tag("\""), escaped(take_while1(|c| c != '\\' && c != '"'), '\\', one_of("\"nrt\\")), tag("\""))`.
nom's `escaped(normal, control, escapable)` scans the input: characters
accepted by `normal` (consumed in maximal nonempty runs, which is equivalent
to consuming them one at a time), or the control character followed by one
character accepted by `escapable`.  It stops before the first character that
fits neither — failing when that happens at offset 0, the `index == 0`
branch of nom's implementation — or at the end of input, and returns the raw
consumed slice: it does NOT decode the escapes. -/

/-- Characters allowed after a backslash: `one_of("\"nrt\\")`. -/
def escChars : List Char := ['"', 'n', 'r', 't', '\\']

/-- Characters matched by the `normal` parser of `escaped`:
`take_while1(|c| c != '\\' && c != '"')`. -/
def isStrNormal (c : Char) : Bool := c ≠ '\\' && c ≠ '"'

/-- Scan of nom's `escaped`: given the input and the number of characters
already consumed, the total number of consumed characters, or the error nom
reports. -/
def escapedGo : List Char → Nat → Except PErr Nat
  | [], n => .ok n
  | c :: rest, n =>
    if isStrNormal c then escapedGo rest (n + 1)
    else if c = '\\' then
      match rest with
      | [] => .error .error
      | e :: rest2 => if e ∈ escChars then escapedGo rest2 (n + 2) else .error .error
    else
      -- an unescaped `"`: stop here, unless nothing was consumed yet
      if n = 0 then .error .error else .ok n

/-- Rust `parse_json_string` (see the section comment): opening quote,
`escaped(...)`, closing quote; the produced `String` is the RAW consumed
slice, escape sequences included. -/
def parse_json_string (input : List Char) : PResult (List Char) :=
  match input with
  | c :: inner =>
    if c = '"' then
      match escapedGo inner 0 with
      | .error e => .error e
      | .ok n =>
        match inner.drop n with
        | c2 :: r2 => if c2 = '"' then .ok (r2, inner.take n) else .error .error
        | [] => .error .error
    else .error .error
  | [] => .error .error

/-! ## Data model

Rust:
`enum JSONObject { Null, Bool(bool), Number(f64), String(String), Array(Vec<JSONObject>), Map(HashMap<String, JSONObject>) }`.
`Map`'s payload is a `std::collections::HashMap`.  The model represents it
as an association list whose keys are pairwise distinct, maintained with
insert-overwrite semantics.  The iteration order of the real `HashMap` is
unspecified (and seed-dependent); the model fixes first-insertion order as
its iteration order.  `HashMap`'s `PartialEq` compares key/value sets, so
equality of the model lists soundly refines equality of the Rust values. -/

inductive JSONObject where
  | null : JSONObject
  | bool : Bool → JSONObject
  | number : F64 → JSONObject
  | str : List Char → JSONObject
  | array : List JSONObject → JSONObject
  | map : List (List Char × JSONObject) → JSONObject

mutual

/-- Structural equality test on values (Rust `PartialEq` for `JSONObject`,
up to the association-list refinement of `HashMap` noted above). -/
def beqJ : JSONObject → JSONObject → Bool
  | .null, .null => true
  | .bool a, .bool b => a = b
  | .number a, .number b => a = b
  | .str a, .str b => a = b
  | .array a, .array b => beqL a b
  | .map a, .map b => beqM a b
  | _, _ => false

def beqL : List JSONObject → List JSONObject → Bool
  | [], [] => true
  | a :: as1, b :: bs => beqJ a b && beqL as1 bs
  | _, _ => false

def beqM : List (List Char × JSONObject) → List (List Char × JSONObject) → Bool
  | [], [] => true
  | (ka, va) :: as1, (kb, vb) :: bs => decide (ka = kb) && beqJ va vb && beqM as1 bs
  | _, _ => false

end

mutual

theorem beqJ_iff : ∀ a b, beqJ a b = true ↔ a = b
  | .null, b => by cases b <;> simp [beqJ]
  | .bool x, b => by cases b <;> simp [beqJ]
  | .number x, b => by cases b <;> simp [beqJ]
  | .str x, b => by cases b <;> simp [beqJ]
  | .array xs, b => by cases b <;> simp [beqJ, beqL_iff xs]
  | .map xs, b => by cases b <;> simp [beqJ, beqM_iff xs]

theorem beqL_iff : ∀ a b, beqL a b = true ↔ a = b
  | [], b => by cases b <;> simp [beqL]
  | x :: xs, b => by cases b <;> simp [beqL, beqJ_iff x, beqL_iff xs]

theorem beqM_iff : ∀ a b, beqM a b = true ↔ a = b
  | [], b => by cases b <;> simp [beqM]
  | (k, v) :: xs, b => by
    cases b with
    | nil => simp [beqM]
    | cons y ys =>
      obtain ⟨ky, vy⟩ := y
      simp [beqM, beqJ_iff v, beqM_iff xs]

end

instance : DecidableEq JSONObject :=
  fun a b => decidable_of_iff _ (beqJ_iff a b)

instance : Nonempty JSONObject := ⟨.null⟩

/-- Model of `HashMap::insert`: replace the value of an existing key,
otherwise append the new entry. -/
def hmInsert (m : List (List Char × JSONObject)) (k : List Char)
    (v : JSONObject) : List (List Char × JSONObject) :=
  match m with
  | [] => [(k, v)]
  | (k', v') :: rest => if k' = k then (k', v) :: rest else (k', v') :: hmInsert rest k v

/-- The `for (k, v) in parsed { ... map.insert(key, v) ... }` loop of Rust
`parse_json_map`: fold the parsed pairs into the map; a non-`String` key
aborts (Rust returns `Err(Error)` there). -/
def buildMapGo : List (JSONObject × JSONObject) → List (List Char × JSONObject) →
    Option (List (List Char × JSONObject))
  | [], acc => some acc
  | (k, v) :: rest, acc =>
    match k with
    | .str s => buildMapGo rest (hmInsert acc s v)
    | _ => none

def buildMap (ps : List (JSONObject × JSONObject)) :
    Option (List (List Char × JSONObject)) :=
  buildMapGo ps []

/-- Association-list lookup (the observable content of the `HashMap` model). -/
def alook : List (List Char × JSONObject) → List Char → Option JSONObject
  | [], _ => none
  | (k', v) :: rest, k => if k' = k then some v else alook rest k

/-- The value of the last pair of `ps` whose key is the string `k`, in source
order (`none` when no pair has that key). -/
def lastVal : List (JSONObject × JSONObject) → List Char → Option JSONObject
  | [], _ => none
  | (key, v) :: rest, k =>
    match lastVal rest k with
    | some w => some w
    | none => if key = .str k then some v else none

/-! ## Non-recursive parsers -/

/-- Rust `parse_json_null`: `tag("null")` mapped to `JSONObject::Null`. -/
def parse_json_null (input : List Char) : PResult JSONObject :=
  match litP "null".toList input with
  | .ok (rest, _) => .ok (rest, .null)
  | .error e => .error e

/-- Rust `parse_json_bool`: `alt((tag("true"), tag("false")))`, the value
being the comparison `parsed == "true"`. -/
def parse_json_bool (input : List Char) : PResult JSONObject :=
  match litP "true".toList input with
  | .ok (rest, parsed) => .ok (rest, .bool (parsed = "true".toList))
  | .error .error =>
    match litP "false".toList input with
    | .ok (rest, parsed) => .ok (rest, .bool (parsed = "true".toList))
    | .error e => .error e
  | .error e => .error e

/-- Rust `parse_json_number`: `recognize_float`, then
`parsed.parse().expect("Error during Float Parsing")`.  The `expect` is
modelled by the `panicked` outcome on the (unreachable) branch where the
lexeme is not accepted by `f64::from_str`. -/
def parse_json_number (input : List Char) : PResult JSONObject :=
  match recognize_float input with
  | .error e => .error e
  | .ok (rest, lex) =>
    if rustFloatAccepts lex then .ok (rest, .number (f64OfLex lex))
    else .error .panicked

/-- Rust `parse_json_string` wrapped into a `JSONObject::String` value. -/
def parse_json_string_value (input : List Char) : PResult JSONObject :=
  match parse_json_string input with
  | .ok (rest, s) => .ok (rest, .str s)
  | .error e => .error e

/-! ## Recursive parsers

`parse_json_value`, `parse_json_array` and `parse_json_map` are mutually
recursive in Rust.  The model threads a fuel parameter to define the
recursion; the exported wrappers below instantiate it with `stdFuel`, which
is proved sufficient (the `fuel` outcome never occurs), so the fuel is an
artefact of the embedding and not of the modelled program.

`separated_list0(sep, elem)` (nom): first try `elem`; a recoverable error
yields the empty list.  Then repeatedly try `sep` followed by `elem`; a
recoverable error of either ends the list before that separator.  An
iteration that consumes nothing is reported as `Err(Error)` (nom's
infinite-loop protection), and `Err(Failure)` of `sep` or `elem` is
propagated. -/

/-- One step of nom's `alt`: take the first result if it is a success or a
non-recoverable error, otherwise move to the next branch. -/
def altStep (x : PResult JSONObject) (q : PResult JSONObject) : PResult JSONObject :=
  match x with
  | .ok a => .ok a
  | .error .error => q
  | .error e => .error e

/-- The array/object separator `delimited(multispace0, char(','), multispace0)`. -/
def sepComma (input : List Char) : PResult Unit :=
  match ws input with
  | c :: r => if c = ',' then .ok (ws r, ()) else .error .error
  | [] => .error .error

mutual

/-- Rust `parse_json_value`:
`delimited(multispace0, alt((parse_json_null, parse_json_bool, parse_json_number, parse_json_string, parse_json_array, parse_json_map)), multispace0)`.
`alt` moves to the next branch only on `Err(Error)`, always restarting from
the same input; `Err(Failure)` is returned immediately. -/
def parseValueF : Nat → List Char → PResult JSONObject
  | 0, _ => .error .fuel
  | f + 1, input =>
    let t := ws input
    match altStep (parse_json_null t) (altStep (parse_json_bool t)
      (altStep (parse_json_number t) (altStep (parse_json_string_value t)
        (altStep (parseArrayF f t) (parseMapF f t))))) with
    | .ok (rest, v) => .ok (ws rest, v)
    | .error e => .error e
termination_by structural f _ => f

/-- Rust `parse_json_array`:
`delimited(delimited(multispace0, char('['), multispace0), separated_list0(sep, parse_json_value), delimited(multispace0, char(']'), multispace0))`. -/
def parseArrayF : Nat → List Char → PResult JSONObject
  | 0, _ => .error .fuel
  | f + 1, input =>
    match ws input with
    | c :: r1 =>
      if c = '[' then
        match parseElems0 f (ws r1) with
        | .error e => .error e
        | .ok (r2, vs) =>
          match ws r2 with
          | c2 :: r3 => if c2 = ']' then .ok (ws r3, .array vs) else .error .error
          | [] => .error .error
      else .error .error
    | [] => .error .error
termination_by structural f _ => f

/-- First-element step of `separated_list0(sep, parse_json_value)`. -/
def parseElems0 : Nat → List Char → PResult (List JSONObject)
  | 0, _ => .error .fuel
  | f + 1, input =>
    match parseValueF f input with
    | .error .error => .ok (input, [])
    | .error e => .error e
    | .ok (i1, v) =>
      match parseElemsLoop f i1 with
      | .error e => .error e
      | .ok (i2, vs) => .ok (i2, v :: vs)
termination_by structural f _ => f

/-- Iteration step of `separated_list0(sep, parse_json_value)`. -/
def parseElemsLoop : Nat → List Char → PResult (List JSONObject)
  | 0, _ => .error .fuel
  | f + 1, input =>
    match sepComma input with
    | .error .error => .ok (input, [])
    | .error e => .error e
    | .ok (i1, _) =>
      match parseValueF f i1 with
      | .error .error => .ok (input, [])
      | .error e => .error e
      | .ok (i2, v) =>
        if i2.length = input.length then .error .error
        else
          match parseElemsLoop f i2 with
          | .error e => .error e
          | .ok (i3, vs) => .ok (i3, v :: vs)
termination_by structural f _ => f

/-- Rust `parse_json_map`:
`delimited(delimited(multispace0, char('{'), multispace0), separated_list0(sep, key_value), delimited(multispace0, char('}'), multispace0))`,
then the fold of the parsed pairs into a `HashMap` (`buildMap`). -/
def parseMapF : Nat → List Char → PResult JSONObject
  | 0, _ => .error .fuel
  | f + 1, input =>
    match ws input with
    | c :: r1 =>
      if c = '{' then
        match parsePairs0 f (ws r1) with
        | .error e => .error e
        | .ok (r2, ps) =>
          match ws r2 with
          | c2 :: r3 =>
            if c2 = '}' then
              match buildMap ps with
              | some m => .ok (ws r3, .map m)
              | none => .error .error
            else .error .error
          | [] => .error .error
      else .error .error
    | [] => .error .error
termination_by structural f _ => f

/-- Rust `key_value`:
`separated_pair(delimited(multispace0, parse_json_string, multispace0), delimited(multispace0, char(':'), multispace0), parse_json_value)`.
Adjacent `multispace0` are merged (the combinator is idempotent). -/
def parseKV : Nat → List Char → PResult (JSONObject × JSONObject)
  | 0, _ => .error .fuel
  | f + 1, input =>
    match parse_json_string_value (ws input) with
    | .error e => .error e
    | .ok (r1, k) =>
      match ws r1 with
      | c :: r3 =>
        if c = ':' then
          match parseValueF f (ws r3) with
          | .error e => .error e
          | .ok (r4, v) => .ok (r4, (k, v))
        else .error .error
      | [] => .error .error
termination_by structural f _ => f

/-- First-element step of `separated_list0(sep, key_value)`. -/
def parsePairs0 : Nat → List Char → PResult (List (JSONObject × JSONObject))
  | 0, _ => .error .fuel
  | f + 1, input =>
    match parseKV f input with
    | .error .error => .ok (input, [])
    | .error e => .error e
    | .ok (i1, kv) =>
      match parsePairsLoop f i1 with
      | .error e => .error e
      | .ok (i2, kvs) => .ok (i2, kv :: kvs)
termination_by structural f _ => f

/-- Iteration step of `separated_list0(sep, key_value)`. -/
def parsePairsLoop : Nat → List Char → PResult (List (JSONObject × JSONObject))
  | 0, _ => .error .fuel
  | f + 1, input =>
    match sepComma input with
    | .error .error => .ok (input, [])
    | .error e => .error e
    | .ok (i1, _) =>
      match parseKV f i1 with
      | .error .error => .ok (input, [])
      | .error e => .error e
      | .ok (i2, kv) =>
        if i2.length = input.length then .error .error
        else
          match parsePairsLoop f i2 with
          | .error e => .error e
          | .ok (i3, kvs) => .ok (i3, kv :: kvs)
termination_by structural f _ => f

end

/-- Fuel that is sufficient for any input of this length (proved below: with
this much fuel the `fuel` outcome cannot occur). -/
def stdFuel (input : List Char) : Nat := 3 * input.length + 2

/-- Exported `parse_json_value` (Rust signature `&str -> IResult<&str, JSONObject>`). -/
def parse_json_value (input : List Char) : PResult JSONObject :=
  parseValueF (stdFuel input) input

/-- Exported `parse_json_array`. -/
def parse_json_array (input : List Char) : PResult JSONObject :=
  parseArrayF (stdFuel input) input

/-- Exported `parse_json_map`. -/
def parse_json_map (input : List Char) : PResult JSONObject :=
  parseMapF (stdFuel input) input

/-! ## Renderer

Rust `impl Display for JSONObject`:
`Null → "null"`, `Bool(b) → "{}"` of the bool, `Number(n) → "{}"` of the
`f64`, `String(s) → "\"{}\""` with the stored text emitted raw (no
re-escaping), `Array → "[" + join(", ") + "]"`,
`Map → "{" + join(", ") of "\"{}\": {}" entries + "}"`.

Rust's `Display` for a finite `f64` prints the shortest plain decimal (never
exponent notation) that reads back as the same double; under the
exact-decimal reading of finite doubles (see `Dec10`) this is the exact
decimal expansion of `m * 10 ^ e`.  Infinities print as `inf`/`-inf`
exactly as in Rust. -/

/-- Decimal digit character of `d < 10`. -/
def natDigitChar (d : Nat) : Char := Char.ofNat (48 + d)

/-- Decimal digits of `n`, least significant first (fuel-driven; empty for
`n = 0`, callers pad). -/
def natDigitsRev : Nat → Nat → List Char
  | 0, _ => []
  | fuel + 1, n =>
    if n = 0 then [] else natDigitChar (n % 10) :: natDigitsRev fuel (n / 10)

/-- Decimal digit string of a natural number (empty for `0`, callers pad). -/
def renderNat (n : Nat) : List Char := (natDigitsRev n n).reverse

/-- Plain-decimal rendering of a finite double `m * 10 ^ e`: sign, integer
digits, and — when `e < 0` — a fractional part of `-e` digits. -/
def renderFinite (d : Dec10) : List Char :=
  let k := (-d.e).toNat
  let mag := d.m.natAbs * 10 ^ d.e.toNat
  let ds0 := renderNat mag
  let ds := if ds0.length < k + 1 then List.replicate (k + 1 - ds0.length) '0' ++ ds0 else ds0
  (if d.m < 0 then ['-'] else []) ++
    ds.take (ds.length - k) ++ (if k = 0 then [] else '.' :: ds.drop (ds.length - k))

/-- Rust `Display` of an `f64` (model). -/
def renderF64 : F64 → List Char
  | .inf => "inf".toList
  | .neginf => "-inf".toList
  | .finite d => renderFinite d

/-- Rust `Vec<String>::join(", ")`. -/
def joinSep (sep : List Char) : List (List Char) → List Char
  | [] => []
  | [x] => x
  | x :: xs => x ++ sep ++ joinSep sep xs

mutual

/-- Rust `impl Display for JSONObject` (its `to_string`). -/
def render : JSONObject → List Char
  | .null => "null".toList
  | .bool b => (if b then "true" else "false").toList
  | .number x => renderF64 x
  | .str s => '"' :: s ++ ['"']
  | .array vs => '[' :: joinSep ", ".toList (renderList vs) ++ [']']
  | .map es => '{' :: joinSep ", ".toList (renderPairs es) ++ ['}']

/-- The `arr.iter().map(|v| v.to_string()).collect()` of the `Array` arm. -/
def renderList : List JSONObject → List (List Char)
  | [] => []
  | v :: vs => render v :: renderList vs

/-- The `map.iter().map(|(k, v)| format!("\"{}\": {}", k, v)).collect()` of
the `Map` arm, in the stored entry order of the model. -/
def renderPairs : List (List Char × JSONObject) → List (List Char)
  | [] => []
  | (k, v) :: es => ('"' :: k ++ '"' :: ':' :: ' ' :: render v) :: renderPairs es

end

/-! ## List and whitespace toolkit -/

/-- The head of a list fails the predicate (vacuously true for `[]`). -/
def headFails (p : Char → Bool) : List Char → Prop
  | c :: _ => p c = false
  | [] => True

theorem ws_length_le (s : List Char) : (ws s).length ≤ s.length :=
  (List.dropWhile_sublist _).length_le

theorem ws_head_not_space : ∀ s c r, ws s = c :: r → isNomSpace c = false := by
  intro s
  induction s with
  | nil => intro c r h; simp [ws] at h
  | cons x xs ih =>
    intro c r h
    by_cases hx : isNomSpace x
    · exact ih c r (by simpa [ws, List.dropWhile_cons, hx] using h)
    · simp [ws, List.dropWhile_cons, hx] at h
      simp [← h.1, hx]

theorem ws_eq_self (s : List Char) (h : headFails isNomSpace s) : ws s = s := by
  cases s with
  | nil => rfl
  | cons c r => simp [headFails] at h; simp [ws, List.dropWhile_cons, h]

theorem ws_idem (s : List Char) : ws (ws s) = ws s := by
  cases hw : ws s with
  | nil => rfl
  | cons c r =>
    have := ws_head_not_space s c r hw
    rw [← hw]
    exact ws_eq_self _ (by rw [hw]; simpa [headFails])

theorem takeWhile_app (p : Char → Bool) :
    ∀ d r, (∀ c ∈ d, p c = true) → headFails p r →
      (d ++ r).takeWhile p = d ∧ (d ++ r).dropWhile p = r := by
  intro d
  induction d with
  | nil =>
    intro r _ hr
    cases r with
    | nil => simp
    | cons c cr => simp [headFails] at hr; simp [List.takeWhile_cons, List.dropWhile_cons, hr]
  | cons x xs ih =>
    intro r hall hr
    have hx : p x = true := hall x (by simp)
    have := ih r (fun c hc => hall c (by simp [hc])) hr
    simp [List.takeWhile_cons, List.dropWhile_cons, hx, this.1, this.2]

theorem takeWhile_longest (p : Char → Bool) :
    ∀ (pre rest : List Char), (∀ c ∈ pre, p c = true) →
      pre.length ≤ ((pre ++ rest).takeWhile p).length := by
  intro pre
  induction pre with
  | nil => simp
  | cons x xs ih =>
    intro rest hall
    have hx : p x = true := hall x (by simp)
    have := ih rest (fun c hc => hall c (by simp [hc]))
    simpa [List.takeWhile_cons, hx] using Nat.succ_le_succ this

theorem takeWhile_all (p : Char → Bool) (s : List Char) :
    ∀ c ∈ s.takeWhile p, p c = true := fun _ hc => List.mem_takeWhile_imp hc

theorem takeWhile_app_dropWhile (p : Char → Bool) (s : List Char) :
    s.takeWhile p ++ s.dropWhile p = s := List.takeWhile_append_dropWhile p s

theorem dropWhile_headFails (p : Char → Bool) : ∀ s : List Char, headFails p (s.dropWhile p) := by
  intro s
  induction s with
  | nil => simp [headFails]
  | cons x xs ih =>
    by_cases hx : p x
    · simpa [List.dropWhile_cons, hx] using ih
    · simp [List.dropWhile_cons, hx, headFails]

/-! ## Number grammar: specification shapes and split characterizations -/

/-- A sign character. -/
def isSign (c : Char) : Bool := c = '+' || c = '-'

/-- An exponent marker. -/
def isExpChar (c : Char) : Bool := c = 'e' || c = 'E'

/-- The head of the list differs from `x` (vacuously true for `[]`). -/
def headNe (x : Char) : List Char → Prop
  | c :: _ => c ≠ x
  | [] => True

/-- An optional sign: the empty string, `+`, or `-`. -/
def SignOpt (sg : List Char) : Prop := sg = [] ∨ sg = ['+'] ∨ sg = ['-']

/-- Every character is an ASCII digit. -/
def allDigits (d : List Char) : Prop := ∀ c ∈ d, Char.isDigit c = true

instance (d : List Char) : Decidable (allDigits d) := by
  unfold allDigits
  infer_instance

/-- The numeric body of the grammar:
`digits | digits '.' digits? | '.' digits`. -/
def BodyShape (b : List Char) : Prop :=
  (b ≠ [] ∧ allDigits b) ∨
  (∃ d f, b = d ++ '.' :: f ∧ d ≠ [] ∧ allDigits d ∧ allDigits f) ∨
  (∃ f, b = '.' :: f ∧ f ≠ [] ∧ allDigits f)

/-- An optional exponent: empty, or `e`/`E`, an optional sign, and digits. -/
def ExpShape (ex : List Char) : Prop :=
  ex = [] ∨
  ∃ c sg d, ex = c :: (sg ++ d) ∧ isExpChar c = true ∧ SignOpt sg ∧ d ≠ [] ∧ allDigits d

/-- A full numeric lexeme:
`[+-]? (digits ['.' digits?]? | '.' digits) [(e|E) [+-]? digits]?`. -/
def NumShape (s : List Char) : Prop :=
  ∃ sg b ex, s = sg ++ b ++ ex ∧ SignOpt sg ∧ BodyShape b ∧ ExpShape ex

theorem splitSign_app (s : List Char) :
    (splitSign s).1 ++ (splitSign s).2 = s ∧ SignOpt (splitSign s).1 := by
  cases s with
  | nil => simp [splitSign, SignOpt]
  | cons c r =>
    by_cases h : c = '+' || c = '-'
    · rcases Bool.or_eq_true_iff.mp h with h1 | h1 <;>
        simp_all [splitSign, SignOpt, decide_eq_true_iff]
    · simp [splitSign, h, SignOpt]

theorem splitSign_of_headFails (s : List Char) (h : headFails isSign s) :
    splitSign s = ([], s) := by
  cases s with
  | nil => rfl
  | cons c r => simp [headFails, isSign] at h; simp [splitSign, h]

theorem splitSign_cons_sign (c : Char) (r : List Char) (h : isSign c = true) :
    splitSign (c :: r) = ([c], r) := by
  simp [isSign] at h
  simp [splitSign, h]

theorem splitSign_nil_headFails (s : List Char) (h : (splitSign s).1 = []) :
    headFails isSign (splitSign s).2 := by
  cases s with
  | nil => simp [splitSign, headFails]
  | cons c r =>
    by_cases hc : c = '+' || c = '-'
    · simp [splitSign, hc] at h
    · simp [splitSign, hc, headFails, isSign]

theorem splitDigits_spec (s : List Char) :
    (splitDigits s).1 ++ (splitDigits s).2 = s ∧ allDigits (splitDigits s).1 ∧
      headFails Char.isDigit (splitDigits s).2 := by
  refine ⟨takeWhile_app_dropWhile _ s, ?_, dropWhile_headFails _ s⟩
  exact fun c hc => takeWhile_all _ s c hc

theorem splitDigits_of (d r : List Char) (hd : allDigits d)
    (hr : headFails Char.isDigit r) : splitDigits (d ++ r) = (d, r) := by
  have := takeWhile_app Char.isDigit d r hd hr
  simp [splitDigits, this.1, this.2]

/-- Two decompositions of a list into a maximal digit run and a rest agree. -/
theorem digits_run_eq {p q run rest : List Char} (h : p ++ q = run ++ rest)
    (hp : allDigits p) (hq : headFails Char.isDigit q)
    (hrun : allDigits run) (hrest : headFails Char.isDigit rest) :
    p = run ∧ q = rest := by
  have h1 := splitDigits_of p q hp hq
  have h2 := splitDigits_of run rest hrun hrest
  rw [h] at h1
  rw [h2] at h1
  exact ⟨(Prod.mk.injEq _ _ _ _ ▸ h1).1.symm, (Prod.mk.injEq _ _ _ _ ▸ h1).2.symm⟩

/-- A digit prefix never reaches past the maximal digit run. -/
theorem digits_run_le {p q run rest : List Char} (h : p ++ q = run ++ rest)
    (hp : allDigits p) (hrun : allDigits run)
    (hrest : headFails Char.isDigit rest) : p.length ≤ run.length := by
  have hmax := takeWhile_longest Char.isDigit p q (fun c hc => hp c hc)
  rw [h] at hmax
  have := takeWhile_app Char.isDigit run rest hrun hrest
  rw [this.1] at hmax
  exact hmax

/-- Signs at the border of two decompositions agree. -/
theorem sign_match {sg r sg' r' : List Char} (h : sg ++ r = sg' ++ r')
    (h1 : SignOpt sg) (h2 : SignOpt sg')
    (hr : headFails isSign r) (hr' : headFails isSign r') :
    sg = sg' ∧ r = r' := by
  rcases h1 with h1 | h1 | h1 <;> rcases h2 with h2 | h2 | h2 <;>
    subst h1 <;> subst h2 <;> simp_all <;>
    first
      | rfl
      | (subst h; simp_all [headFails, isSign])

theorem splitBody_ok {s b r : List Char} (h : splitBody s = .ok (b, r)) :
    b ++ r = s ∧ b ≠ [] ∧ headFails Char.isDigit r ∧
    ((allDigits b ∧ headNe '.' r) ∨
     (∃ d f, b = d ++ '.' :: f ∧ d ≠ [] ∧ allDigits d ∧ allDigits f) ∨
     (∃ f, b = '.' :: f ∧ f ≠ [] ∧ allDigits f)) := by
  cases s with
  | nil => simp [splitBody] at h
  | cons c s' =>
    by_cases hc : c.isDigit
    · have hsd := splitDigits_spec (c :: s')
      have hdh : (splitDigits (c :: s')).1 = c :: List.takeWhile Char.isDigit s' := by
        simp [splitDigits, List.takeWhile_cons, hc]
      simp only [splitBody, hc, if_true] at h
      rcases hr1 : (splitDigits (c :: s')).2 with _ | ⟨c2, r2⟩
      · rw [hr1] at h hsd
        simp at h
        obtain ⟨hb, hr⟩ := h
        subst hr; subst hb
        refine ⟨by simpa using hsd.1, by rw [hdh]; simp, by simp [headFails], ?_⟩
        exact Or.inl ⟨hsd.2.1, by simp [headNe]⟩
      · by_cases hdot : c2 = '.'
        · subst hdot
          rw [hr1] at h hsd
          have hfd := splitDigits_spec r2
          rcases hff : splitDigits r2 with ⟨f, r3⟩
          rw [hff] at hfd
          simp [hff] at h
          obtain ⟨hb, hrr⟩ := h
          subst hb; subst hrr
          constructor
          · rw [List.append_assoc, List.cons_append, hfd.1]
            exact hsd.1
          · refine ⟨by rw [hdh]; simp, hfd.2.2, Or.inr (Or.inl ?_)⟩
            exact ⟨(splitDigits (c :: s')).1, f, rfl, by rw [hdh]; simp, hsd.2.1, hfd.2.1⟩
        · rw [hr1] at h hsd
          simp [hdot] at h
          obtain ⟨hb, hrr⟩ := h
          subst hb; subst hrr
          refine ⟨hsd.1, by rw [hdh]; simp, hsd.2.2, ?_⟩
          exact Or.inl ⟨hsd.2.1, by simp [headNe, hdot]⟩
    · by_cases hdot : c = '.'
      · subst hdot
        simp only [splitBody, hc] at h
        have hfd := splitDigits_spec s'
        rcases hff : splitDigits s' with ⟨f, r2⟩
        rw [hff] at h hfd
        by_cases hfe : f.isEmpty
        · simp [hfe] at h
        · simp [hfe] at h
          obtain ⟨hb, hrr⟩ := h
          subst hb; subst hrr
          have hfne : f ≠ [] := by simpa [List.isEmpty_iff] using hfe
          refine ⟨by simpa using hfd.1, by simp, hfd.2.2, Or.inr (Or.inr ⟨f, rfl, hfne, hfd.2.1⟩)⟩
      · simp [splitBody, hc, hdot] at h

theorem splitBody_err {s : List Char} {e : PErr} (h : splitBody s = .error e) :
    e = .error ∧
    (s = [] ∨ ∃ c s', s = c :: s' ∧ c.isDigit = false ∧
      (c ≠ '.' ∨ headFails Char.isDigit s')) := by
  cases s with
  | nil => simp [splitBody] at h; simp [h]
  | cons c s' =>
    by_cases hc : c.isDigit
    · simp only [splitBody, hc, if_true] at h
      rcases hr1 : (splitDigits (c :: s')).2 with _ | ⟨c2, r2⟩ <;> rw [hr1] at h
      · simp at h
      · by_cases hdot : c2 = '.'
        · subst hdot
          rcases hff : splitDigits r2 with ⟨f, r3⟩
          simp [hff] at h
        · simp [hdot] at h
    · by_cases hdot : c = '.'
      · subst hdot
        simp only [splitBody, hc] at h
        rcases hff : splitDigits s' with ⟨f, r2⟩
        rw [hff] at h
        by_cases hfe : f.isEmpty
        · simp [hfe] at h
          refine ⟨h.symm, Or.inr ⟨'.', s', rfl, by simp, Or.inr ?_⟩⟩
          have := splitDigits_spec s'
          rw [hff] at this
          have hf : f = [] := by simpa [List.isEmpty_iff] using hfe
          subst hf
          have hr2 : r2 = s' := by simpa using this.1
          exact hr2 ▸ this.2.2
        · simp [hfe] at h
      · simp [splitBody, hc, hdot] at h
        exact ⟨h.symm, Or.inr ⟨c, s', rfl, by simpa using hc, Or.inl hdot⟩⟩

theorem splitExp_ok {s ex r : List Char} (h : splitExp s = .ok (ex, r)) :
    ex ++ r = s ∧
    ((ex = [] ∧ r = s ∧ headFails isExpChar s) ∨
     (∃ c sg d, ex = c :: (sg ++ d) ∧ isExpChar c = true ∧ SignOpt sg ∧ d ≠ [] ∧
        allDigits d ∧ headFails Char.isDigit r)) := by
  cases s with
  | nil =>
    simp [splitExp] at h
    obtain ⟨h1, h2⟩ := h
    subst h1; subst h2
    simp [headFails]
  | cons c r1 =>
    by_cases hc : c = 'e' || c = 'E'
    · simp only [splitExp, hc, if_true] at h
      have hsg := splitSign_app r1
      rcases hss : splitSign r1 with ⟨sg, r2⟩
      rw [hss] at h hsg
      have hfd := splitDigits_spec r2
      rcases hff : splitDigits r2 with ⟨d, r3⟩
      rw [hff] at h hfd
      by_cases hde : d.isEmpty
      · simp [hde] at h
      · simp [hde] at h
        obtain ⟨h1, h2⟩ := h
        subst h1; subst h2
        have hdne : d ≠ [] := by simpa [List.isEmpty_iff] using hde
        constructor
        · simp only [List.cons_append, List.append_assoc]
          rw [hfd.1, hsg.1]
        · exact Or.inr ⟨c, sg, d, rfl, by simpa [isExpChar] using hc, hsg.2, hdne,
            hfd.2.1, hfd.2.2⟩
    · simp only [splitExp, hc] at h
      simp at h
      obtain ⟨h1, h2⟩ := h
      subst h1; subst h2
      simp [headFails, isExpChar]
      simpa [isExpChar] using hc

theorem splitExp_err {s : List Char} {e : PErr} (h : splitExp s = .error e) :
    e = .failure ∧ ∃ c sg r2, s = c :: (sg ++ r2) ∧ isExpChar c = true ∧ SignOpt sg ∧
      headFails Char.isDigit r2 := by
  cases s with
  | nil => simp [splitExp] at h
  | cons c r1 =>
    by_cases hc : c = 'e' || c = 'E'
    · simp only [splitExp, hc, if_true] at h
      have hsg := splitSign_app r1
      rcases hss : splitSign r1 with ⟨sg, r2⟩
      rw [hss] at h hsg
      have hfd := splitDigits_spec r2
      rcases hff : splitDigits r2 with ⟨d, r3⟩
      rw [hff] at h hfd
      by_cases hde : d.isEmpty
      · simp [hde] at h
        have hd : d = [] := by simpa [List.isEmpty_iff] using hde
        subst hd
        refine ⟨h.symm, c, sg, r2, by rw [hsg.1], by simpa [isExpChar] using hc, hsg.2, ?_⟩
        have hr3 : r3 = r2 := by simpa using hfd.1
        exact hr3 ▸ hfd.2.2
      · simp [hde] at h
    · simp [splitExp, hc] at h

/-- Success characterization of `recognize_float`: the input splits into
sign, body, exponent and rest, with maximality witnessed by the head facts
(`rest` extends neither a digit run nor an absent dot/exponent). -/
theorem rf_ok_strong {input rest lex : List Char}
    (h : recognize_float input = .ok (rest, lex)) :
    ∃ sg b ex, input = sg ++ (b ++ (ex ++ rest)) ∧ lex = sg ++ (b ++ ex) ∧
      SignOpt sg ∧ b ≠ [] ∧ headFails Char.isDigit (ex ++ rest) ∧
      ((allDigits b ∧ headNe '.' (ex ++ rest)) ∨
       (∃ d f, b = d ++ '.' :: f ∧ d ≠ [] ∧ allDigits d ∧ allDigits f) ∨
       (∃ f, b = '.' :: f ∧ f ≠ [] ∧ allDigits f)) ∧
      ((ex = [] ∧ headFails isExpChar rest) ∨
       (∃ c sg2 d2, ex = c :: (sg2 ++ d2) ∧ isExpChar c = true ∧ SignOpt sg2 ∧ d2 ≠ [] ∧
          allDigits d2 ∧ headFails Char.isDigit rest)) := by
  have hsg := splitSign_app input
  rcases hss : splitSign input with ⟨sg, s1⟩
  rw [hss] at hsg
  dsimp only at hsg
  simp only [recognize_float, hss] at h
  rcases hsb : splitBody s1 with e | ⟨b, s2⟩ <;> rw [hsb] at h
  · simp at h
  dsimp only at h
  rcases hse : splitExp s2 with e | ⟨ex, s3⟩ <;> rw [hse] at h
  · simp at h
  simp at h
  obtain ⟨hrest, hlex⟩ := h
  subst hrest
  obtain ⟨hb1, hb2, hb3, hb4⟩ := splitBody_ok hsb
  obtain ⟨he1, he2⟩ := splitExp_ok hse
  refine ⟨sg, b, ex, ?_, hlex.symm, hsg.2, hb2, ?_, ?_, ?_⟩
  · rw [he1, hb1, hsg.1]
  · rw [he1]; exact hb3
  · rcases hb4 with h4 | h4 | h4
    · exact Or.inl ⟨h4.1, he1 ▸ h4.2⟩
    · exact Or.inr (Or.inl h4)
    · exact Or.inr (Or.inr h4)
  · rcases he2 with ⟨hex, hs3, hhd⟩ | h5
    · subst hs3; exact Or.inl ⟨hex, hhd⟩
    · exact Or.inr h5

/-- Error characterization of `recognize_float`: a recoverable error means
no numeric body starts after the optional sign; a failure means a body was
read and an `e`/`E` followed with no digits after its optional sign (nom's
`cut`). -/
theorem rf_err {input : List Char} {e : PErr}
    (h : recognize_float input = .error e) :
    (e = .error ∧ ∃ sg s1, input = sg ++ s1 ∧ SignOpt sg ∧
        (sg = [] → headFails isSign s1) ∧
        (s1 = [] ∨ ∃ c s', s1 = c :: s' ∧ c.isDigit = false ∧
          (c ≠ '.' ∨ headFails Char.isDigit s'))) ∨
    (e = .failure ∧ ∃ sg b c sg2 r2, input = sg ++ (b ++ (c :: (sg2 ++ r2))) ∧
        SignOpt sg ∧ BodyShape b ∧ isExpChar c = true ∧ SignOpt sg2 ∧
        headFails Char.isDigit r2) := by
  have hsg := splitSign_app input
  rcases hss : splitSign input with ⟨sg, s1⟩
  rw [hss] at hsg
  dsimp only at hsg
  simp only [recognize_float, hss] at h
  rcases hsb : splitBody s1 with e' | ⟨b, s2⟩ <;> rw [hsb] at h
  · simp at h
    obtain ⟨he', hnb⟩ := splitBody_err hsb
    subst h
    refine Or.inl ⟨he', sg, s1, hsg.1.symm, hsg.2, ?_, hnb⟩
    intro hsg0
    have := splitSign_nil_headFails input
    rw [hss] at this
    exact this hsg0
  dsimp only at h
  rcases hse : splitExp s2 with e' | ⟨ex, s3⟩ <;> rw [hse] at h
  · simp at h
    subst h
    obtain ⟨he', c, sg2, r2, hs2, hc, hsg2, hr2⟩ := splitExp_err hse
    obtain ⟨hb1, hb2, hb3, hb4⟩ := splitBody_ok hsb
    refine Or.inr ⟨he', sg, b, c, sg2, r2, ?_, hsg.2, ?_, hc, hsg2, hr2⟩
    · rw [← hs2, hb1, hsg.1]
    · rcases hb4 with h4 | h4 | h4
      · exact Or.inl ⟨hb2, h4.1⟩
      · exact Or.inr (Or.inl h4)
      · exact Or.inr (Or.inr h4)
  · simp at h

theorem digit_ne {c : Char} (h : c.isDigit = true) :
    isSign c = false ∧ isExpChar c = false ∧ c ≠ '.' ∧ isNomSpace c = false := by
  refine ⟨?_, ?_, fun hc => by subst hc; exact absurd h (by decide), ?_⟩
  · cases hs : isSign c
    · rfl
    · simp [isSign] at hs
      rcases hs with rfl | rfl <;> exact absurd h (by decide)
  · cases hs : isExpChar c
    · rfl
    · simp [isExpChar] at hs
      rcases hs with rfl | rfl <;> exact absurd h (by decide)
  · cases hs : isNomSpace c
    · rfl
    · have hc : c = ' ' ∨ c = '\t' ∨ c = '\n' ∨ c = '\r' := by
        simpa [isNomSpace, or_assoc] using hs
      rcases hc with rfl | rfl | rfl | rfl <;> exact absurd h (by decide)

theorem bodyShape_head {b : List Char} (hb : BodyShape b) :
    ∃ c bb, b = c :: bb ∧ (Char.isDigit c = true ∨ c = '.') := by
  rcases hb with ⟨hne, hall⟩ | ⟨d, f, hb, hdne, hd, _⟩ | ⟨f, hb, _, _⟩
  · cases b with
    | nil => exact absurd rfl hne
    | cons c bb => exact ⟨c, bb, rfl, Or.inl (hall c (by simp))⟩
  · cases d with
    | nil => exact absurd rfl hdne
    | cons c dd => exact ⟨c, dd ++ '.' :: f, by simp [hb], Or.inl (hd c (by simp))⟩
  · exact ⟨'.', f, hb, Or.inr rfl⟩

theorem bodyShape_sign_headFails {b : List Char} (hb : BodyShape b) (r : List Char) :
    headFails isSign (b ++ r) := by
  obtain ⟨c, bb, hbc, hc⟩ := bodyShape_head hb
  subst hbc
  rcases hc with hc | hc
  · simpa [headFails] using (digit_ne hc).1
  · subst hc; simp [headFails, isSign]

/-- Comparison of the parsed body with any grammar body reading the same
text: the parsed one is never shorter, and on equal length they coincide. -/
theorem body_le {b r b' r' : List Char} (heq : b ++ r = b' ++ r')
    (hdigr : headFails Char.isDigit r) (hne : b ≠ [])
    (hb : (allDigits b ∧ headNe '.' r) ∨
      (∃ d f, b = d ++ '.' :: f ∧ d ≠ [] ∧ allDigits d ∧ allDigits f) ∨
      (∃ f, b = '.' :: f ∧ f ≠ [] ∧ allDigits f))
    (hb' : BodyShape b') :
    b' = b ∨ b'.length < b.length := by
  rcases hb with ⟨hall, hdot⟩ | ⟨d, f, hbdf, hdne, hd, hf⟩ | ⟨f, hbf, hfne, hf⟩
  · -- code body: pure digits, not followed by a digit or a dot
    rcases hb' with ⟨hne', hall'⟩ | ⟨d', f', hb', hdne', hd', hf'⟩ | ⟨f', hb', hfne', hf'⟩
    · have hle := digits_run_le (heq.symm) hall' hall hdigr
      rcases Nat.lt_or_ge b'.length b.length with hlt | hge
      · exact Or.inr hlt
      · exact Or.inl (List.append_inj heq.symm (Nat.le_antisymm hle hge)).1
    · subst hb'
      have heq2 : d' ++ ('.' :: (f' ++ r')) = b ++ r := by simpa using heq.symm
      obtain ⟨hde, hre⟩ := digits_run_eq heq2 hd' (by simp [headFails]) hall hdigr
      rw [← hre] at hdot
      simp [headNe] at hdot
    · subst hb'
      cases b with
      | nil => exact absurd rfl hne
      | cons c bb =>
        have hcd : c.isDigit = true := hall c (by simp)
        have hcdot : c = '.' := by simpa using congrArg List.head? heq
        exact absurd hcdot (digit_ne hcd).2.2.1
  · -- code body: digits, dot, digits
    subst hbdf
    rcases hb' with ⟨hne', hall'⟩ | ⟨d', f', hb', hdne', hd', hf'⟩ | ⟨f', hb', hfne', hf'⟩
    · have heq2 : b' ++ r' = d ++ ('.' :: (f ++ r)) := by simpa using heq.symm
      have hle := digits_run_le heq2 hall' hd (by simp [headFails])
      refine Or.inr (lt_of_le_of_lt hle ?_)
      simp
    · subst hb'
      have heq2 : d' ++ ('.' :: (f' ++ r')) = d ++ ('.' :: (f ++ r)) := by
        simpa using heq.symm
      obtain ⟨hde, hre⟩ := digits_run_eq heq2 hd' (by simp [headFails]) hd (by simp [headFails])
      have hre2 : f' ++ r' = f ++ r := by simpa using hre
      have hfle := digits_run_le hre2 hf' hf hdigr
      rcases Nat.lt_or_ge f'.length f.length with hlt | hge
      · refine Or.inr ?_
        subst hde
        simp [hlt]
      · obtain ⟨hfe, _⟩ := List.append_inj hre2 (Nat.le_antisymm hfle hge)
        subst hde; subst hfe
        exact Or.inl rfl
    · subst hb'
      cases d with
      | nil => exact absurd rfl hdne
      | cons c dd =>
        have hcd : c.isDigit = true := hd c (by simp)
        have hcdot : c = '.' := by simpa using congrArg List.head? heq
        exact absurd hcdot (digit_ne hcd).2.2.1
  · -- code body: dot then digits
    subst hbf
    rcases hb' with ⟨hne', hall'⟩ | ⟨d', f', hb', hdne', hd', hf'⟩ | ⟨f', hb', hfne', hf'⟩
    · cases b' with
      | nil => exact absurd rfl hne'
      | cons c bb =>
        have hcd : c.isDigit = true := hall' c (by simp)
        have hcdot : c = '.' := by simpa using (congrArg List.head? heq).symm
        exact absurd hcdot (digit_ne hcd).2.2.1
    · subst hb'
      cases d' with
      | nil => exact absurd rfl hdne'
      | cons c dd =>
        have hcd : c.isDigit = true := hd' c (by simp)
        have hcdot : c = '.' := by simpa using (congrArg List.head? heq).symm
        exact absurd hcdot (digit_ne hcd).2.2.1
    · subst hb'
      have heq2 : f' ++ r' = f ++ r := by simpa using heq.symm
      have hfle := digits_run_le heq2 hf' hf hdigr
      rcases Nat.lt_or_ge f'.length f.length with hlt | hge
      · exact Or.inr (by simpa using Nat.succ_lt_succ hlt)
      · obtain ⟨hfe, _⟩ := List.append_inj heq2 (Nat.le_antisymm hfle hge)
        subst hfe
        exact Or.inl rfl

theorem digits_sign_headFails {d : List Char} (hdne : d ≠ []) (hd : allDigits d)
    (r : List Char) : headFails isSign (d ++ r) := by
  cases d with
  | nil => exact absurd rfl hdne
  | cons c dd => simpa [headFails] using (digit_ne (hd c (by simp))).1

theorem bodyChars {b r : List Char}
    (hb : (allDigits b ∧ headNe '.' r) ∨
      (∃ d f, b = d ++ '.' :: f ∧ d ≠ [] ∧ allDigits d ∧ allDigits f) ∨
      (∃ f, b = '.' :: f ∧ f ≠ [] ∧ allDigits f)) :
    ∀ c ∈ b, c.isDigit = true ∨ c = '.' := by
  rcases hb with ⟨hall, _⟩ | ⟨d, f, hbdf, _, hd, hf⟩ | ⟨f, hbf, _, hf⟩
  · exact fun c hc => Or.inl (hall c hc)
  · subst hbdf
    intro c hc
    simp at hc
    rcases hc with hc | hc | hc
    · exact Or.inl (hd c hc)
    · exact Or.inr hc
    · exact Or.inl (hf c hc)
  · subst hbf
    intro c hc
    simp at hc
    rcases hc with hc | hc
    · exact Or.inr hc
    · exact Or.inl (hf c hc)

/-- Maximal-munch property of `recognize_float`: no longer prefix of the
input matches the numeric grammar than the recognized lexeme. -/
theorem rf_maximal {input rest lex : List Char}
    (h : recognize_float input = .ok (rest, lex)) :
    ∀ p t, p ++ t = input → NumShape p → p.length ≤ lex.length := by
  obtain ⟨sg, b, ex, hin, hlex, hsg, hbne, hdig, hbody, hexp⟩ := rf_ok_strong h
  intro p t hpt hnum
  obtain ⟨sg', b', ex', hp, hsg', hbody', hexp'⟩ := hnum
  subst hp
  have heq0 : sg' ++ (b' ++ (ex' ++ t)) = sg ++ (b ++ (ex ++ rest)) := by
    rw [← hin, ← hpt]; simp
  have hbodyB : BodyShape b := by
    rcases hbody with h1 | h1 | h1
    · exact Or.inl ⟨hbne, h1.1⟩
    · exact Or.inr (Or.inl h1)
    · exact Or.inr (Or.inr h1)
  obtain ⟨hsgeq, hreq⟩ := sign_match heq0 hsg' hsg
    (bodyShape_sign_headFails hbody' _) (bodyShape_sign_headFails hbodyB _)
  rw [hlex, hsgeq]
  simp only [List.length_append]
  have hgoal : b'.length + ex'.length ≤ b.length + ex.length := by
    rcases body_le hreq.symm hdig hbne hbody hbody' with hbeq | hblt
    · -- equal bodies: compare the exponents
      subst hbeq
      have hexeq : ex' ++ t = ex ++ rest := by simpa using hreq
      rcases hexp' with hex0 | ⟨c', sg2', d2', hex', hc', hsg2', hd2ne', hd2'⟩
      · subst hex0; simp
      · rcases hexp with ⟨hex0, hnoexp⟩ | ⟨c, sg2, d2, hex, hc, hsg2, hd2ne, hd2, hrestd⟩
        · subst hex0; subst hex'
          simp at hexeq
          rw [← hexeq] at hnoexp
          simp [headFails] at hnoexp
          rw [hnoexp] at hc'
          exact Bool.noConfusion hc'
        · subst hex; subst hex'
          have hceq : c' = c := by simpa using congrArg List.head? hexeq
          subst hceq
          have htail : sg2' ++ (d2' ++ t) = sg2 ++ (d2 ++ rest) := by
            simpa using hexeq
          obtain ⟨hsg2eq, hd2eq⟩ := sign_match htail hsg2' hsg2
            (digits_sign_headFails hd2ne' hd2' _) (digits_sign_headFails hd2ne hd2 _)
          have hd2le := digits_run_le hd2eq hd2' hd2 hrestd
          subst hsg2eq
          simp only [List.length_cons, List.length_append]
          omega
    · -- shorter body: the spec exponent cannot start inside the code body
      rcases hexp' with hex0 | ⟨c', sg2', d2', hex', hc', hsg2', hd2ne', hd2'⟩
      · subst hex0
        simp only [List.length_nil]
        omega
      · exfalso
        have heq2 : b' ++ (ex' ++ t) = b.take b'.length ++ (b.drop b'.length ++ (ex ++ rest)) := by
          conv_rhs => rw [← List.append_assoc, List.take_append_drop]
          exact hreq
        have hlen : b'.length = (b.take b'.length).length := by
          simp [List.length_take, Nat.min_eq_left (Nat.le_of_lt hblt)]
        obtain ⟨hb'eq, hrest2⟩ := List.append_inj heq2 hlen
        rcases hdrop : b.drop b'.length with _ | ⟨c0, dd0⟩
        · have : b.length - b'.length = 0 := by
            have := congrArg List.length hdrop
            simpa using this
          omega
        · have hc0 : c0 ∈ b := by
            have hmem : c0 ∈ b.drop b'.length := by rw [hdrop]; simp
            exact List.mem_of_mem_drop hmem
          have hc0' : c0 = c' := by
            rw [hdrop, hex'] at hrest2
            simpa using (congrArg List.head? hrest2).symm
          rcases bodyChars hbody c0 hc0 with hcd | hcd
          · rw [hc0'] at hcd
            rw [(digit_ne hcd).2.1] at hc'
            exact Bool.noConfusion hc'
          · rw [hc0'] at hcd
            rw [hcd] at hc'
            exact absurd hc' (by decide)
  omega

/-- When `recognize_float` reports a recoverable error, no prefix of the
input matches the numeric grammar at all. -/
theorem rf_no_prefix {input : List Char}
    (h : recognize_float input = .error .error) :
    ∀ p t, p ++ t = input → ¬ NumShape p := by
  intro p t hpt hnum
  rcases rf_err h with ⟨_, sg, s1, hin, hsg, hsgf, hs1⟩ | ⟨hf, _⟩
  swap
  · exact PErr.noConfusion hf
  obtain ⟨sg', b', ex', hp, hsg', hb', hex'⟩ := hnum
  obtain ⟨c0, bb0, hb0, hc0⟩ := bodyShape_head hb'
  have heq : sg' ++ (b' ++ (ex' ++ t)) = sg ++ s1 := by
    rw [← hin, ← hpt, hp]; simp
  have hbsign : headFails isSign (b' ++ (ex' ++ t)) := bodyShape_sign_headFails hb' _
  have hmain : ∃ rest2, b' ++ rest2 = s1 := by
    rcases hsg with rfl | rfl | rfl
    · obtain ⟨-, hre⟩ := sign_match (by simpa using heq) hsg' (Or.inl rfl)
        hbsign (hsgf rfl)
      exact ⟨ex' ++ t, hre⟩
    · rcases hsg' with rfl | rfl | rfl
      · exfalso
        simp at heq
        rw [hb0] at heq
        have hch : c0 = '+' := by simpa using congrArg List.head? heq
        rcases hc0 with hcd | hcd
        · rw [hch] at hcd; exact absurd hcd (by decide)
        · rw [hch] at hcd; exact absurd hcd (by decide)
      · simp at heq
        exact ⟨ex' ++ t, heq⟩
      · exfalso
        have : '-' = '+' := by simpa using congrArg List.head? heq
        exact absurd this (by decide)
    · rcases hsg' with rfl | rfl | rfl
      · exfalso
        simp at heq
        rw [hb0] at heq
        have hch : c0 = '-' := by simpa using congrArg List.head? heq
        rcases hc0 with hcd | hcd
        · rw [hch] at hcd; exact absurd hcd (by decide)
        · rw [hch] at hcd; exact absurd hcd (by decide)
      · exfalso
        have : '+' = '-' := by simpa using congrArg List.head? heq
        exact absurd this (by decide)
      · simp at heq
        exact ⟨ex' ++ t, heq⟩
  obtain ⟨rest2, hmain⟩ := hmain
  rcases hs1 with hnil | ⟨c2, s2, hs1c, hc2d, hc2r⟩
  · rw [hnil, hb0] at hmain
    simp at hmain
  · rw [hs1c, hb0] at hmain
    simp at hmain
    obtain ⟨hc0eq, hrest⟩ := hmain
    rcases hc0 with hcd | hcd
    · rw [hc0eq] at hcd
      rw [hcd] at hc2d
      exact Bool.noConfusion hc2d
    · subst hcd
      rcases hc2r with hne | hfd
      · exact hne hc0eq.symm
      · rcases hb' with ⟨hne', hall'⟩ | ⟨d', f', hbs, hdne', hd', hf'⟩ | ⟨f', hbs, hfne', hf'⟩
        · have := hall' '.' (by rw [hb0]; simp)
          exact absurd this (by decide)
        · cases d' with
          | nil => exact absurd rfl hdne'
          | cons x xs =>
            have hx : '.' = x := by
              rw [hb0] at hbs
              simpa using congrArg List.head? hbs
            have := hd' x (by simp)
            rw [← hx] at this
            exact absurd this (by decide)
        · have hbb0 : bb0 = f' := by
            rw [hb0] at hbs
            simpa using hbs
          have hs2 : f' ++ rest2 = s2 := by rw [← hbb0]; exact hrest
          cases f' with
          | nil => exact absurd rfl hfne'
          | cons y ys =>
            have hyd := hf' y (by simp)
            rw [← hs2] at hfd
            simp [headFails] at hfd
            rw [hyd] at hfd
            exact Bool.noConfusion hfd

theorem headFails_append_left {p : Char → Bool} {x y : List Char}
    (h : headFails p (x ++ y)) : headFails p x := by
  cases x with
  | nil => trivial
  | cons c r => simpa [headFails] using h

theorem headNe_append_left {a : Char} {x y : List Char}
    (h : headNe a (x ++ y)) : headNe a x := by
  cases x with
  | nil => trivial
  | cons c r => simpa [headNe] using h

theorem splitSign_shape {sg : List Char} (r : List Char) (hsg : SignOpt sg)
    (hr : headFails isSign r) : splitSign (sg ++ r) = (sg, r) := by
  rcases hsg with rfl | rfl | rfl
  · simpa using splitSign_of_headFails r hr
  · exact splitSign_cons_sign '+' r (by decide)
  · exact splitSign_cons_sign '-' r (by decide)

theorem rfaFrac_noDot {r1 : List Char} (h : headNe '.' r1) : rfaFrac r1 = ([], r1) := by
  cases r1 with
  | nil => rfl
  | cons c rr =>
    simp [headNe] at h
    simp [rfaFrac, h]

theorem rfaExp_ok {ex : List Char}
    (hexp : ex = [] ∨ ∃ c sg2 d2, ex = c :: (sg2 ++ d2) ∧ isExpChar c = true ∧
      SignOpt sg2 ∧ d2 ≠ [] ∧ allDigits d2) :
    rfaExp ex = true := by
  rcases hexp with rfl | ⟨c, sg2, d2, rfl, hc, hsg2, hd2ne, hd2⟩
  · rfl
  · have hss : splitSign (sg2 ++ d2) = (sg2, d2) :=
      splitSign_shape d2 hsg2 (by simpa using digits_sign_headFails hd2ne hd2 [])
    have hsd : splitDigits d2 = (d2, []) := by
      simpa using splitDigits_of d2 [] hd2 (by trivial)
    have hce : c = 'e' ∨ c = 'E' := by simpa [isExpChar] using hc
    simp [rfaExp, hss, hsd, hd2ne]
    rcases hce with rfl | rfl <;> simp

/-- Every lexeme recognized by `recognize_float` is accepted by the
`f64::from_str` grammar, so the `expect` in `parse_json_number` cannot
fire. -/
theorem rf_accepts {input rest lex : List Char}
    (h : recognize_float input = .ok (rest, lex)) :
    rustFloatAccepts lex = true := by
  obtain ⟨sg, b, ex, hin, hlex, hsg, hbne, hdig, hbody, hexp⟩ := rf_ok_strong h
  subst hlex
  have hdigex : headFails Char.isDigit ex := headFails_append_left hdig
  have hbodyB : BodyShape b := by
    rcases hbody with h1 | h1 | h1
    · exact Or.inl ⟨hbne, h1.1⟩
    · exact Or.inr (Or.inl h1)
    · exact Or.inr (Or.inr h1)
  have hexp' : ex = [] ∨ ∃ c sg2 d2, ex = c :: (sg2 ++ d2) ∧ isExpChar c = true ∧
      SignOpt sg2 ∧ d2 ≠ [] ∧ allDigits d2 := by
    rcases hexp with ⟨h1, _⟩ | ⟨c, sg2, d2, h1, h2, h3, h4, h5, _⟩
    · exact Or.inl h1
    · exact Or.inr ⟨c, sg2, d2, h1, h2, h3, h4, h5⟩
  have hss : splitSign (sg ++ (b ++ ex)) = (sg, b ++ ex) :=
    splitSign_shape _ hsg (bodyShape_sign_headFails hbodyB ex)
  have hexNoDot : headNe '.' ex := by
    rcases hexp' with rfl | ⟨c, sg2, d2, rfl, hc, _, _, _⟩
    · trivial
    · have : c = 'e' ∨ c = 'E' := by simpa [isExpChar] using hc
      rcases this with rfl | rfl <;> simp [headNe]
  rcases hbody with ⟨hall, hdot⟩ | ⟨d, f, rfl, hdne, hd, hf⟩ | ⟨f, rfl, hfne, hf⟩
  · -- digits only
    have hsd : splitDigits (b ++ ex) = (b, ex) := splitDigits_of b ex hall hdigex
    have hfr : rfaFrac ex = ([], ex) := rfaFrac_noDot hexNoDot
    simp [rustFloatAccepts, hss, hsd, hfr, hbne, rfaExp_ok hexp']
  · -- digits, dot, digits
    have hss2 : splitSign (sg ++ (d ++ ('.' :: (f ++ ex)))) = (sg, d ++ ('.' :: (f ++ ex))) := by
      simpa using hss
    have hsd : splitDigits (d ++ ('.' :: (f ++ ex))) = (d, '.' :: (f ++ ex)) :=
      splitDigits_of d ('.' :: (f ++ ex)) hd (by simp [headFails])
    have hsf : splitDigits (f ++ ex) = (f, ex) := splitDigits_of f ex hf hdigex
    simp [rustFloatAccepts, hss2, hsd, rfaFrac, hsf, hdne, rfaExp_ok hexp']
  · -- dot, digits
    have hss2 : splitSign (sg ++ ('.' :: (f ++ ex))) = (sg, '.' :: (f ++ ex)) := by
      simpa using hss
    have hsd : splitDigits ('.' :: (f ++ ex)) = ([], '.' :: (f ++ ex)) := by
      have := splitDigits_of [] ('.' :: (f ++ ex)) (by intro c hc; cases hc) (by simp [headFails])
      simpa using this
    have hsf : splitDigits (f ++ ex) = (f, ex) := splitDigits_of f ex hf hdigex
    have hfl : f.length + 1 ≥ 2 := by
      cases f with
      | nil => exact absurd rfl hfne
      | cons y ys => simp
    simp [rustFloatAccepts, hss2, hsd, rfaFrac, hsf, rfaExp_ok hexp', hfl]

/-- `recognize_float` only fails with `Error` or `Failure`. -/
theorem rf_err_kind {input : List Char} {e : PErr}
    (h : recognize_float input = .error e) : e = .error ∨ e = .failure := by
  rcases rf_err h with ⟨h1, _⟩ | ⟨h1, _⟩
  · exact Or.inl h1
  · exact Or.inr h1

/-! ## Computation rules for clean numeric inputs -/

theorem splitBody_digits_sfx {d suffix : List Char} (hdne : d ≠ []) (hd : allDigits d)
    (h1 : headFails Char.isDigit suffix) (h2 : headNe '.' suffix) :
    splitBody (d ++ suffix) = .ok (d, suffix) := by
  cases d with
  | nil => exact absurd rfl hdne
  | cons c dd =>
    have hc := hd c (by simp)
    have hsd : splitDigits ((c :: dd) ++ suffix) = (c :: dd, suffix) :=
      splitDigits_of _ _ hd h1
    rw [List.cons_append] at hsd ⊢
    cases suffix with
    | nil =>
      simp at hsd
      simp [splitBody, hc, hsd]
    | cons c2 r2 =>
      simp [headNe] at h2
      simp [splitBody, hc, hsd, h2]

theorem splitBody_frac_sfx {d f suffix : List Char} (hdne : d ≠ []) (hd : allDigits d)
    (hf : allDigits f) (h1 : headFails Char.isDigit suffix) :
    splitBody (d ++ ('.' :: (f ++ suffix))) = .ok (d ++ '.' :: f, suffix) := by
  cases d with
  | nil => exact absurd rfl hdne
  | cons c dd =>
    have hc := hd c (by simp)
    have hsd : splitDigits ((c :: dd) ++ ('.' :: (f ++ suffix))) =
        (c :: dd, '.' :: (f ++ suffix)) :=
      splitDigits_of _ _ hd (by simp [headFails])
    have hsf : splitDigits (f ++ suffix) = (f, suffix) := splitDigits_of _ _ hf h1
    rw [List.cons_append] at hsd ⊢
    simp [splitBody, hc, hsd, hsf]

theorem splitExp_none {suffix : List Char} (h3 : headFails isExpChar suffix) :
    splitExp suffix = .ok ([], suffix) := by
  cases suffix with
  | nil => rfl
  | cons c r =>
    simp [headFails, isExpChar] at h3
    simp [splitExp, h3]

/-- `recognize_float` on a signed digit run followed by a non-numeric
suffix. -/
theorem rf_int {sg d suffix : List Char} (hsg : SignOpt sg) (hdne : d ≠ [])
    (hd : allDigits d) (h1 : headFails Char.isDigit suffix) (h2 : headNe '.' suffix)
    (h3 : headFails isExpChar suffix) :
    recognize_float (sg ++ (d ++ suffix)) = .ok (suffix, sg ++ d) := by
  have hss : splitSign (sg ++ (d ++ suffix)) = (sg, d ++ suffix) :=
    splitSign_shape _ hsg (digits_sign_headFails hdne hd suffix)
  simp [recognize_float, hss, splitBody_digits_sfx hdne hd h1 h2, splitExp_none h3]

/-- `recognize_float` on a signed decimal with a fractional part followed by
a non-numeric suffix. -/
theorem rf_frac {sg d f suffix : List Char} (hsg : SignOpt sg) (hdne : d ≠ [])
    (hd : allDigits d) (hf : allDigits f) (h1 : headFails Char.isDigit suffix)
    (h3 : headFails isExpChar suffix) :
    recognize_float (sg ++ (d ++ ('.' :: (f ++ suffix)))) =
      .ok (suffix, sg ++ (d ++ '.' :: f)) := by
  have hss : splitSign (sg ++ (d ++ ('.' :: (f ++ suffix)))) = (sg, d ++ ('.' :: (f ++ suffix))) :=
    splitSign_shape _ hsg (digits_sign_headFails hdne hd _)
  simp [recognize_float, hss, splitBody_frac_sfx hdne hd hf h1, splitExp_none h3]

/-- Sign applied to a digit value. -/
def signVal (sg : List Char) (n : Nat) : Int := if sg = ['-'] then -(n : Int) else (n : Int)

theorem lexToDec_int {sg d : List Char} (hsg : SignOpt sg) (hdne : d ≠ [])
    (hd : allDigits d) :
    lexToDec (sg ++ d) = canon (signVal sg (digitsToNat d)) 0 := by
  have hss : splitSign (sg ++ d) = (sg, d) :=
    splitSign_shape d hsg (by simpa using digits_sign_headFails hdne hd [])
  have hsd : splitDigits d = (d, []) := by
    simpa using splitDigits_of d [] hd (by trivial)
  simp [lexToDec, hss, hsd, signVal]

theorem lexToDec_frac {sg d f : List Char} (hsg : SignOpt sg) (hdne : d ≠ [])
    (hd : allDigits d) (hf : allDigits f) :
    lexToDec (sg ++ (d ++ '.' :: f)) =
      canon (signVal sg (digitsToNat (d ++ f))) (-(f.length : Int)) := by
  have hss : splitSign (sg ++ (d ++ '.' :: f)) = (sg, d ++ '.' :: f) := by
    exact splitSign_shape _ hsg (digits_sign_headFails hdne hd _)
  have hsd : splitDigits (d ++ '.' :: f) = (d, '.' :: f) :=
    splitDigits_of _ _ hd (by simp [headFails])
  have hsf : splitDigits f = (f, []) := by
    simpa using splitDigits_of f [] hf (by trivial)
  simp [lexToDec, hss, hsd, hsf, signVal]

/-- `parse_json_number` on a successful recognition: the `expect` cannot
fire, so the parsed double is returned. -/
theorem pjn_ok {input rest lex : List Char}
    (hrf : recognize_float input = .ok (rest, lex)) :
    parse_json_number input = .ok (rest, .number (f64OfLex lex)) := by
  simp [parse_json_number, hrf, rf_accepts hrf]

/-! ## String lemmas -/

/-- Texts accepted by the loop of `escaped`: runs of characters other than
`\` and `"`, interleaved with two-character escapes `\c` for
`c ∈ {", n, r, t, \}`. -/
def wellEscaped : List Char → Bool
  | [] => true
  | c :: rest =>
    if c = '\\' then
      match rest with
      | e :: r2 => decide (e ∈ escChars) && wellEscaped r2
      | [] => false
    else decide (c ≠ '"') && wellEscaped rest

theorem escapedGo_run : ∀ (s : List Char) (n : Nat) (rest : List Char),
    wellEscaped s = true → (s = [] → n ≠ 0) →
    escapedGo (s ++ '"' :: rest) n = .ok (n + s.length)
  | [], n, rest => by
    intro _ hn
    have h1 : isStrNormal '"' = false := by decide
    have h2 : ('"' : Char) ≠ '\\' := by decide
    rw [List.nil_append, escapedGo.eq_def]
    simp [h1, h2, hn rfl]
  | c :: s', n, rest => by
    intro hwe hn
    by_cases hc : c = '\\'
    · subst hc
      cases s' with
      | nil => simp [wellEscaped] at hwe
      | cons e r2 =>
        simp [wellEscaped] at hwe
        have ih := escapedGo_run r2 (n + 2) rest hwe.2 (fun _ => by omega)
        have h1 : isStrNormal '\\' = false := by decide
        have hstep : escapedGo ((('\\' : Char) :: e :: r2) ++ '"' :: rest) n =
            escapedGo (r2 ++ '"' :: rest) (n + 2) := by
          rw [List.cons_append, escapedGo.eq_def]
          simp [h1, hwe.1]
        rw [hstep, ih]
        simp only [List.length_cons, Except.ok.injEq]
        omega
    · rw [wellEscaped.eq_def] at hwe
      simp [hc] at hwe
      have ih := escapedGo_run s' (n + 1) rest hwe.2 (fun _ => by omega)
      have hnorm : isStrNormal c = true := by simp [isStrNormal, hc, hwe.1]
      have hstep : escapedGo ((c :: s') ++ '"' :: rest) n =
          escapedGo (s' ++ '"' :: rest) (n + 1) := by
        rw [List.cons_append, escapedGo.eq_def]
        simp [hnorm]
      rw [hstep, ih]
      simp only [List.length_cons, Except.ok.injEq]
      omega

/-- The string parser on a well-escaped quoted input returns the RAW inner
text and the remainder after the closing quote. -/
theorem pjs_wellEscaped (s rest : List Char) (hne : s ≠ [])
    (hwe : wellEscaped s = true) :
    parse_json_string ('"' :: (s ++ '"' :: rest)) = .ok (rest, s) := by
  have hgo := escapedGo_run s 0 rest hwe (fun h => absurd h hne)
  rw [Nat.zero_add] at hgo
  simp [parse_json_string, hgo, List.drop_left, List.take_left]

theorem pjs_head {input rest : List Char} {sv : List Char}
    (h : parse_json_string input = .ok (rest, sv)) :
    ∃ inner, input = '"' :: inner := by
  cases input with
  | nil => simp [parse_json_string] at h
  | cons c inner =>
    by_cases hc : c = '"'
    · exact ⟨inner, by rw [hc]⟩
    · simp [parse_json_string, hc] at h

theorem pjs_consume {input rest : List Char} {sv : List Char}
    (h : parse_json_string input = .ok (rest, sv)) :
    rest.length + 2 ≤ input.length := by
  obtain ⟨inner, rfl⟩ := pjs_head h
  rcases hgo : escapedGo inner 0 with e | n
  · simp [parse_json_string, hgo] at h
  simp only [parse_json_string, hgo, if_pos rfl] at h
  rcases hdrop : inner.drop n with _ | ⟨c2, r2⟩ <;> rw [hdrop] at h
  · simp at h
  by_cases hc2 : c2 = '"'
  · simp [hc2] at h
    obtain ⟨hr, -⟩ := h
    have hlen := congrArg List.length hdrop
    simp [List.length_drop] at hlen
    simp [← hr]
    omega
  · simp [hc2] at h

/-! ## Inversion and consumption lemmas for the recursive parsers -/

theorem altStep_ok {x q : PResult JSONObject} {a : List Char × JSONObject} :
    altStep x q = .ok a ↔ (x = .ok a ∨ (x = .error .error ∧ q = .ok a)) := by
  rcases x with e | b
  · rcases e <;> simp [altStep]
  · simp [altStep]

theorem altStep_err {x q : PResult JSONObject} {e : PErr} :
    altStep x q = .error e ↔
      ((x = .error e ∧ e ≠ .error) ∨ (x = .error .error ∧ q = .error e)) := by
  rcases x with e' | b
  · rcases e' <;> rcases e <;> simp [altStep]
  · simp [altStep]

theorem ws_cons_length {input : List Char} {c : Char} {r : List Char}
    (h : ws input = c :: r) : r.length < input.length := by
  have := ws_length_le input
  rw [h] at this
  simp at this
  omega

theorem litP_consume {tok input r out : List Char} (hne : tok ≠ [])
    (h : litP tok input = .ok (r, out)) : r.length < input.length := by
  unfold litP at h
  by_cases hp : tok.isPrefixOf input
  · simp [hp] at h
    have hle : tok.length ≤ input.length :=
      List.IsPrefix.length_le (List.isPrefixOf_iff_prefix.mp hp)
    have hpos : 0 < tok.length := List.length_pos.mpr hne
    rw [← h.1, List.length_drop]
    omega
  · simp [hp] at h

theorem rf_consume {input rest lex : List Char}
    (h : recognize_float input = .ok (rest, lex)) : rest.length < input.length := by
  obtain ⟨sg, b, ex, hin, hlex, _, hbne, _, _, _⟩ := rf_ok_strong h
  rw [hin]
  have hpos : 0 < b.length := List.length_pos.mpr hbne
  simp
  omega

theorem sepComma_consume {input r : List Char} (h : sepComma input = .ok (r, ())) :
    r.length < input.length := by
  unfold sepComma at h
  rcases hws : ws input with _ | ⟨c, rr⟩ <;> rw [hws] at h
  · simp at h
  by_cases hc : c = ','
  · simp [hc] at h
    have h1 : rr.length < input.length := ws_cons_length hws
    have h2 := ws_length_le rr
    rw [← h]
    omega
  · simp [hc] at h

theorem parse_json_null_consume {input r : List Char} {v : JSONObject}
    (h : parse_json_null input = .ok (r, v)) : r.length < input.length := by
  unfold parse_json_null at h
  rcases hl : litP "null".toList input with e | ⟨r', out⟩ <;> rw [hl] at h
  · simp at h
  · simp at h
    exact h.1 ▸ litP_consume (by decide) hl

theorem parse_json_bool_consume {input r : List Char} {v : JSONObject}
    (h : parse_json_bool input = .ok (r, v)) : r.length < input.length := by
  unfold parse_json_bool at h
  rcases hl : litP "true".toList input with e | ⟨r', out⟩ <;> rw [hl] at h
  · cases e with
    | error =>
      rcases hl2 : litP "false".toList input with e2 | ⟨r2, out2⟩ <;> rw [hl2] at h
      · simp at h
      · simp at h
        exact h.1 ▸ litP_consume (by decide) hl2
    | failure => simp at h
    | fuel => simp at h
    | panicked => simp at h
  · simp at h
    exact h.1 ▸ litP_consume (by decide) hl

theorem parse_json_number_consume {input r : List Char} {v : JSONObject}
    (h : parse_json_number input = .ok (r, v)) : r.length < input.length := by
  unfold parse_json_number at h
  rcases hl : recognize_float input with e | ⟨r', lex⟩ <;> rw [hl] at h
  · simp at h
  · by_cases ha : rustFloatAccepts lex
    · simp [ha] at h
      exact h.1 ▸ rf_consume hl
    · simp [ha] at h

theorem pjsv_consume {input r : List Char} {v : JSONObject}
    (h : parse_json_string_value input = .ok (r, v)) : r.length < input.length := by
  unfold parse_json_string_value at h
  rcases hl : parse_json_string input with e | ⟨r', sv⟩ <;> rw [hl] at h
  · simp at h
  · simp at h
    have hc := pjs_consume hl
    rw [← h.1]
    omega

theorem parseValueF_succ (f : Nat) (input : List Char) :
    parseValueF (f + 1) input =
      match altStep (parse_json_null (ws input)) (altStep (parse_json_bool (ws input))
        (altStep (parse_json_number (ws input)) (altStep (parse_json_string_value (ws input))
          (altStep (parseArrayF f (ws input)) (parseMapF f (ws input)))))) with
      | .ok (rest, v) => .ok (ws rest, v)
      | .error e => .error e := rfl

theorem parseArrayF_succ (f : Nat) (input : List Char) :
    parseArrayF (f + 1) input =
      match ws input with
      | c :: r1 =>
        if c = '[' then
          match parseElems0 f (ws r1) with
          | .error e => .error e
          | .ok (r2, vs) =>
            match ws r2 with
            | c2 :: r3 => if c2 = ']' then .ok (ws r3, .array vs) else .error .error
            | [] => .error .error
        else .error .error
      | [] => .error .error := rfl

theorem parseElems0_succ (f : Nat) (input : List Char) :
    parseElems0 (f + 1) input =
      match parseValueF f input with
      | .error .error => .ok (input, [])
      | .error e => .error e
      | .ok (i1, v) =>
        match parseElemsLoop f i1 with
        | .error e => .error e
        | .ok (i2, vs) => .ok (i2, v :: vs) := rfl

theorem parseElemsLoop_succ (f : Nat) (input : List Char) :
    parseElemsLoop (f + 1) input =
      match sepComma input with
      | .error .error => .ok (input, [])
      | .error e => .error e
      | .ok (i1, _) =>
        match parseValueF f i1 with
        | .error .error => .ok (input, [])
        | .error e => .error e
        | .ok (i2, v) =>
          if i2.length = input.length then .error .error
          else
            match parseElemsLoop f i2 with
            | .error e => .error e
            | .ok (i3, vs) => .ok (i3, v :: vs) := rfl

theorem parseMapF_succ (f : Nat) (input : List Char) :
    parseMapF (f + 1) input =
      match ws input with
      | c :: r1 =>
        if c = '{' then
          match parsePairs0 f (ws r1) with
          | .error e => .error e
          | .ok (r2, ps) =>
            match ws r2 with
            | c2 :: r3 =>
              if c2 = '}' then
                match buildMap ps with
                | some m => .ok (ws r3, .map m)
                | none => .error .error
              else .error .error
            | [] => .error .error
        else .error .error
      | [] => .error .error := rfl

theorem parseKV_succ (f : Nat) (input : List Char) :
    parseKV (f + 1) input =
      match parse_json_string_value (ws input) with
      | .error e => .error e
      | .ok (r1, k) =>
        match ws r1 with
        | c :: r3 =>
          if c = ':' then
            match parseValueF f (ws r3) with
            | .error e => .error e
            | .ok (r4, v) => .ok (r4, (k, v))
          else .error .error
        | [] => .error .error := rfl

theorem parsePairs0_succ (f : Nat) (input : List Char) :
    parsePairs0 (f + 1) input =
      match parseKV f input with
      | .error .error => .ok (input, [])
      | .error e => .error e
      | .ok (i1, kv) =>
        match parsePairsLoop f i1 with
        | .error e => .error e
        | .ok (i2, kvs) => .ok (i2, kv :: kvs) := rfl

theorem parsePairsLoop_succ (f : Nat) (input : List Char) :
    parsePairsLoop (f + 1) input =
      match sepComma input with
      | .error .error => .ok (input, [])
      | .error e => .error e
      | .ok (i1, _) =>
        match parseKV f i1 with
        | .error .error => .ok (input, [])
        | .error e => .error e
        | .ok (i2, kv) =>
          if i2.length = input.length then .error .error
          else
            match parsePairsLoop f i2 with
            | .error e => .error e
            | .ok (i3, kvs) => .ok (i3, kv :: kvs) := rfl

theorem parseArrayF_ok_inv {f : Nat} {input r : List Char} {v : JSONObject}
    (h : parseArrayF (f + 1) input = .ok (r, v)) :
    ∃ r1 r2 vs r3, ws input = '[' :: r1 ∧ parseElems0 f (ws r1) = .ok (r2, vs) ∧
      ws r2 = ']' :: r3 ∧ r = ws r3 ∧ v = .array vs := by
  rw [parseArrayF_succ] at h
  rcases hws : ws input with _ | ⟨c, r1⟩ <;> rw [hws] at h
  · simp at h
  dsimp only at h
  by_cases hc : c = '['
  · subst hc
    rw [if_pos rfl] at h
    rcases he : parseElems0 f (ws r1) with e | ⟨r2, vs⟩ <;> rw [he] at h
    · simp at h
    dsimp only at h
    rcases hw2 : ws r2 with _ | ⟨c2, r3⟩ <;> rw [hw2] at h
    · simp at h
    dsimp only at h
    by_cases hc2 : c2 = ']'
    · subst hc2
      rw [if_pos rfl] at h
      simp at h
      exact ⟨r1, r2, vs, r3, rfl, he, hw2, h.1.symm, h.2.symm⟩
    · simp [hc2] at h
  · simp [hc] at h

theorem parseMapF_ok_inv {f : Nat} {input r : List Char} {v : JSONObject}
    (h : parseMapF (f + 1) input = .ok (r, v)) :
    ∃ r1 r2 ps r3 m, ws input = '{' :: r1 ∧ parsePairs0 f (ws r1) = .ok (r2, ps) ∧
      ws r2 = '}' :: r3 ∧ buildMap ps = some m ∧ r = ws r3 ∧ v = .map m := by
  rw [parseMapF_succ] at h
  rcases hws : ws input with _ | ⟨c, r1⟩ <;> rw [hws] at h
  · simp at h
  dsimp only at h
  by_cases hc : c = '{'
  · subst hc
    rw [if_pos rfl] at h
    rcases he : parsePairs0 f (ws r1) with e | ⟨r2, ps⟩ <;> rw [he] at h
    · simp at h
    dsimp only at h
    rcases hw2 : ws r2 with _ | ⟨c2, r3⟩ <;> rw [hw2] at h
    · simp at h
    dsimp only at h
    by_cases hc2 : c2 = '}'
    · subst hc2
      rw [if_pos rfl] at h
      rcases hb : buildMap ps with _ | m <;> rw [hb] at h
      · simp at h
      · simp at h
        exact ⟨r1, r2, ps, r3, m, rfl, he, hw2, hb, h.1.symm, h.2.symm⟩
    · simp [hc2] at h
  · simp [hc] at h

theorem parseKV_ok_inv {f : Nat} {input r : List Char} {kv : JSONObject × JSONObject}
    (h : parseKV (f + 1) input = .ok (r, kv)) :
    ∃ r1 k r3 r4 v, parse_json_string_value (ws input) = .ok (r1, k) ∧
      ws r1 = ':' :: r3 ∧ parseValueF f (ws r3) = .ok (r4, v) ∧
      r = r4 ∧ kv = (k, v) := by
  rw [parseKV_succ] at h
  rcases hs : parse_json_string_value (ws input) with e | ⟨r1, k⟩ <;> rw [hs] at h
  · simp at h
  dsimp only at h
  rcases hw : ws r1 with _ | ⟨c, r3⟩ <;> rw [hw] at h
  · simp at h
  dsimp only at h
  by_cases hc : c = ':'
  · subst hc
    rw [if_pos rfl] at h
    rcases hv : parseValueF f (ws r3) with e | ⟨r4, v⟩ <;> rw [hv] at h
    · simp at h
    · simp at h
      exact ⟨r1, k, r3, r4, v, rfl, hw, hv, h.1.symm, h.2.symm⟩
  · simp [hc] at h

theorem parseValueF_ok_inv {f : Nat} {input r : List Char} {v : JSONObject}
    (h : parseValueF (f + 1) input = .ok (r, v)) :
    ∃ rest, r = ws rest ∧
      (parse_json_null (ws input) = .ok (rest, v) ∨
       parse_json_bool (ws input) = .ok (rest, v) ∨
       parse_json_number (ws input) = .ok (rest, v) ∨
       parse_json_string_value (ws input) = .ok (rest, v) ∨
       parseArrayF f (ws input) = .ok (rest, v) ∨
       parseMapF f (ws input) = .ok (rest, v)) := by
  rw [parseValueF_succ] at h
  rcases ha : altStep (parse_json_null (ws input)) (altStep (parse_json_bool (ws input))
      (altStep (parse_json_number (ws input)) (altStep (parse_json_string_value (ws input))
        (altStep (parseArrayF f (ws input)) (parseMapF f (ws input)))))) with e | ⟨rest, v'⟩ <;>
    rw [ha] at h
  · simp at h
  simp at h
  refine ⟨rest, h.1.symm, ?_⟩
  rw [altStep_ok] at ha
  rcases ha with h1 | ⟨-, ha⟩
  · exact Or.inl (h.2 ▸ h1)
  rw [altStep_ok] at ha
  rcases ha with h1 | ⟨-, ha⟩
  · exact Or.inr (Or.inl (h.2 ▸ h1))
  rw [altStep_ok] at ha
  rcases ha with h1 | ⟨-, ha⟩
  · exact Or.inr (Or.inr (Or.inl (h.2 ▸ h1)))
  rw [altStep_ok] at ha
  rcases ha with h1 | ⟨-, ha⟩
  · exact Or.inr (Or.inr (Or.inr (Or.inl (h.2 ▸ h1))))
  rw [altStep_ok] at ha
  rcases ha with h1 | ⟨-, ha⟩
  · exact Or.inr (Or.inr (Or.inr (Or.inr (Or.inl (h.2 ▸ h1)))))
  · exact Or.inr (Or.inr (Or.inr (Or.inr (Or.inr (h.2 ▸ ha)))))

theorem parseValueF_zero (input : List Char) : parseValueF 0 input = .error .fuel := rfl

theorem parseArrayF_zero (input : List Char) : parseArrayF 0 input = .error .fuel := rfl

theorem parseMapF_zero (input : List Char) : parseMapF 0 input = .error .fuel := rfl

theorem parseKV_zero (input : List Char) : parseKV 0 input = .error .fuel := rfl

theorem parseElems0_zero (input : List Char) : parseElems0 0 input = .error .fuel := rfl

theorem parseElemsLoop_zero (input : List Char) :
    parseElemsLoop 0 input = .error .fuel := rfl

theorem parsePairs0_zero (input : List Char) : parsePairs0 0 input = .error .fuel := rfl

theorem parsePairsLoop_zero (input : List Char) :
    parsePairsLoop 0 input = .error .fuel := rfl

theorem consumeAll (f : Nat) :
    (∀ input r v, parseValueF f input = .ok (r, v) → r.length < input.length) ∧
    (∀ input r v, parseArrayF f input = .ok (r, v) → r.length < input.length) ∧
    (∀ input r v, parseMapF f input = .ok (r, v) → r.length < input.length) ∧
    (∀ input r kv, parseKV f input = .ok (r, kv) → r.length < input.length) ∧
    (∀ input r vs, parseElems0 f input = .ok (r, vs) → r.length ≤ input.length) ∧
    (∀ input r vs, parseElemsLoop f input = .ok (r, vs) → r.length ≤ input.length) ∧
    (∀ input r ps, parsePairs0 f input = .ok (r, ps) → r.length ≤ input.length) ∧
    (∀ input r ps, parsePairsLoop f input = .ok (r, ps) → r.length ≤ input.length) := by
  induction f with
  | zero =>
    refine ⟨?_, ?_, ?_, ?_, ?_, ?_, ?_, ?_⟩ <;> intro input r x h <;>
      simp [parseValueF_zero, parseArrayF_zero, parseMapF_zero, parseKV_zero,
        parseElems0_zero, parseElemsLoop_zero, parsePairs0_zero, parsePairsLoop_zero] at h
  | succ f ih =>
    obtain ⟨ihv, iha, ihm, ihk, ihe0, ihel, ihp0, ihpl⟩ := ih
    refine ⟨?_, ?_, ?_, ?_, ?_, ?_, ?_, ?_⟩
    · intro input r v h
      obtain ⟨rest, hr, hcase⟩ := parseValueF_ok_inv h
      have h1 : rest.length < (ws input).length := by
        rcases hcase with h' | h' | h' | h' | h' | h'
        · exact parse_json_null_consume h'
        · exact parse_json_bool_consume h'
        · exact parse_json_number_consume h'
        · exact pjsv_consume h'
        · exact iha _ _ _ h'
        · exact ihm _ _ _ h'
      have h2 := ws_length_le input
      have h3 := ws_length_le rest
      subst hr
      omega
    · intro input r v h
      obtain ⟨r1, r2, vs, r3, hws, he, hw2, hr, -⟩ := parseArrayF_ok_inv h
      have a1 : r1.length < input.length := ws_cons_length hws
      have a2 := ws_length_le r1
      have a3 : r2.length ≤ (ws r1).length := ihe0 _ _ _ he
      have a4 : r3.length < r2.length := ws_cons_length hw2
      have a5 := ws_length_le r3
      subst hr
      omega
    · intro input r v h
      obtain ⟨r1, r2, ps, r3, m, hws, he, hw2, -, hr, -⟩ := parseMapF_ok_inv h
      have a1 : r1.length < input.length := ws_cons_length hws
      have a2 := ws_length_le r1
      have a3 : r2.length ≤ (ws r1).length := ihp0 _ _ _ he
      have a4 : r3.length < r2.length := ws_cons_length hw2
      have a5 := ws_length_le r3
      subst hr
      omega
    · intro input r kv h
      obtain ⟨r1, k, r3, r4, v, hs, hw, hv, hr, -⟩ := parseKV_ok_inv h
      have b1 : r1.length < (ws input).length := pjsv_consume hs
      have b2 := ws_length_le input
      have b3 : r3.length < r1.length := ws_cons_length hw
      have b4 : r4.length < (ws r3).length := ihv _ _ _ hv
      have b5 := ws_length_le r3
      subst hr
      omega
    · intro input r vs h
      rw [parseElems0_succ] at h
      rcases hv : parseValueF f input with e | ⟨i1, v⟩ <;> rw [hv] at h
      · cases e with
        | error =>
          simp at h
          obtain ⟨h1, -⟩ := h
          subst h1
          exact le_rfl
        | failure => simp at h
        | fuel => simp at h
        | panicked => simp at h
      · dsimp only at h
        rcases hl : parseElemsLoop f i1 with e | ⟨i2, vs2⟩ <;> rw [hl] at h
        · simp at h
        · simp at h
          have c1 : i1.length < input.length := ihv _ _ _ hv
          have c2 : i2.length ≤ i1.length := ihel _ _ _ hl
          rw [← h.1]
          omega
    · intro input r vs h
      rw [parseElemsLoop_succ] at h
      rcases hs : sepComma input with e | ⟨i1, u⟩ <;> rw [hs] at h
      · cases e with
        | error =>
          simp at h
          obtain ⟨h1, -⟩ := h
          subst h1
          exact le_rfl
        | failure => simp at h
        | fuel => simp at h
        | panicked => simp at h
      · cases u
        dsimp only at h
        rcases hv : parseValueF f i1 with e | ⟨i2, v⟩ <;> rw [hv] at h
        · cases e with
          | error =>
            simp at h
            obtain ⟨h1, -⟩ := h
            subst h1
            exact le_rfl
          | failure => simp at h
          | fuel => simp at h
          | panicked => simp at h
        · dsimp only at h
          by_cases hlen : i2.length = input.length
          · simp [hlen] at h
          · rw [if_neg hlen] at h
            rcases hl : parseElemsLoop f i2 with e | ⟨i3, vs3⟩ <;> rw [hl] at h
            · simp at h
            · simp at h
              have c1 : i1.length < input.length := sepComma_consume hs
              have c2 : i2.length < i1.length := ihv _ _ _ hv
              have c3 : i3.length ≤ i2.length := ihel _ _ _ hl
              rw [← h.1]
              omega
    · intro input r ps h
      rw [parsePairs0_succ] at h
      rcases hv : parseKV f input with e | ⟨i1, kv⟩ <;> rw [hv] at h
      · cases e with
        | error =>
          simp at h
          obtain ⟨h1, -⟩ := h
          subst h1
          exact le_rfl
        | failure => simp at h
        | fuel => simp at h
        | panicked => simp at h
      · dsimp only at h
        rcases hl : parsePairsLoop f i1 with e | ⟨i2, kvs⟩ <;> rw [hl] at h
        · simp at h
        · simp at h
          have c1 : i1.length < input.length := ihk _ _ _ hv
          have c2 : i2.length ≤ i1.length := ihpl _ _ _ hl
          rw [← h.1]
          omega
    · intro input r ps h
      rw [parsePairsLoop_succ] at h
      rcases hs : sepComma input with e | ⟨i1, u⟩ <;> rw [hs] at h
      · cases e with
        | error =>
          simp at h
          obtain ⟨h1, -⟩ := h
          subst h1
          exact le_rfl
        | failure => simp at h
        | fuel => simp at h
        | panicked => simp at h
      · cases u
        dsimp only at h
        rcases hv : parseKV f i1 with e | ⟨i2, kv⟩ <;> rw [hv] at h
        · cases e with
          | error =>
            simp at h
            obtain ⟨h1, -⟩ := h
            subst h1
            exact le_rfl
          | failure => simp at h
          | fuel => simp at h
          | panicked => simp at h
        · dsimp only at h
          by_cases hlen : i2.length = input.length
          · simp [hlen] at h
          · rw [if_neg hlen] at h
            rcases hl : parsePairsLoop f i2 with e | ⟨i3, kvs2⟩ <;> rw [hl] at h
            · simp at h
            · simp at h
              have c1 : i1.length < input.length := sepComma_consume hs
              have c2 : i2.length < i1.length := ihk _ _ _ hv
              have c3 : i3.length ≤ i2.length := ihpl _ _ _ hl
              rw [← h.1]
              omega

theorem parseValueF_consume {f : Nat} {input r : List Char} {v : JSONObject}
    (h : parseValueF f input = .ok (r, v)) : r.length < input.length :=
  (consumeAll f).1 _ _ _ h

theorem parseArrayF_consume {f : Nat} {input r : List Char} {v : JSONObject}
    (h : parseArrayF f input = .ok (r, v)) : r.length < input.length :=
  (consumeAll f).2.1 _ _ _ h

theorem parseMapF_consume {f : Nat} {input r : List Char} {v : JSONObject}
    (h : parseMapF f input = .ok (r, v)) : r.length < input.length :=
  (consumeAll f).2.2.1 _ _ _ h

theorem parseKV_consume {f : Nat} {input r : List Char} {kv : JSONObject × JSONObject}
    (h : parseKV f input = .ok (r, kv)) : r.length < input.length :=
  (consumeAll f).2.2.2.1 _ _ _ h

theorem parseElems0_consume {f : Nat} {input r : List Char} {vs : List JSONObject}
    (h : parseElems0 f input = .ok (r, vs)) : r.length ≤ input.length :=
  (consumeAll f).2.2.2.2.1 _ _ _ h

theorem parseElemsLoop_consume {f : Nat} {input r : List Char} {vs : List JSONObject}
    (h : parseElemsLoop f input = .ok (r, vs)) : r.length ≤ input.length :=
  (consumeAll f).2.2.2.2.2.1 _ _ _ h

theorem parsePairs0_consume {f : Nat} {input r : List Char}
    {ps : List (JSONObject × JSONObject)}
    (h : parsePairs0 f input = .ok (r, ps)) : r.length ≤ input.length :=
  (consumeAll f).2.2.2.2.2.2.1 _ _ _ h

theorem parsePairsLoop_consume {f : Nat} {input r : List Char}
    {ps : List (JSONObject × JSONObject)}
    (h : parsePairsLoop f input = .ok (r, ps)) : r.length ≤ input.length :=
  (consumeAll f).2.2.2.2.2.2.2 _ _ _ h

theorem stableAll (f : Nat) : ∀ g, f ≤ g → ∀ t : List Char,
    (3 * t.length + 2 ≤ f → parseValueF g t = parseValueF f t) ∧
    (3 * t.length + 1 ≤ f → parseArrayF g t = parseArrayF f t) ∧
    (3 * t.length + 1 ≤ f → parseMapF g t = parseMapF f t) ∧
    (3 * t.length + 2 ≤ f → parseKV g t = parseKV f t) ∧
    (3 * t.length + 3 ≤ f → parseElems0 g t = parseElems0 f t) ∧
    (3 * t.length + 3 ≤ f → parseElemsLoop g t = parseElemsLoop f t) ∧
    (3 * t.length + 3 ≤ f → parsePairs0 g t = parsePairs0 f t) ∧
    (3 * t.length + 3 ≤ f → parsePairsLoop g t = parsePairsLoop f t) := by
  induction f with
  | zero =>
    intro g hg t
    refine ⟨?_, ?_, ?_, ?_, ?_, ?_, ?_, ?_⟩ <;> intro hreq <;> omega
  | succ f ih =>
    intro g hg t
    obtain ⟨g', rfl⟩ : ∃ g', g = g' + 1 := ⟨g - 1, by omega⟩
    have hg' : f ≤ g' := by omega
    refine ⟨?_, ?_, ?_, ?_, ?_, ?_, ?_, ?_⟩
    · intro hreq
      rw [parseValueF_succ, parseValueF_succ]
      have hw := ws_length_le t
      have harr : parseArrayF g' (ws t) = parseArrayF f (ws t) :=
        (ih g' hg' (ws t)).2.1 (by omega)
      have hmap : parseMapF g' (ws t) = parseMapF f (ws t) :=
        (ih g' hg' (ws t)).2.2.1 (by omega)
      rw [harr, hmap]
    · intro hreq
      rw [parseArrayF_succ, parseArrayF_succ]
      rcases hws : ws t with _ | ⟨c, r1⟩
      · rfl
      · dsimp only
        have hlt : r1.length < t.length := ws_cons_length hws
        have hw1 := ws_length_le r1
        have he0 : parseElems0 g' (ws r1) = parseElems0 f (ws r1) :=
          (ih g' hg' (ws r1)).2.2.2.2.1 (by omega)
        rw [he0]
    · intro hreq
      rw [parseMapF_succ, parseMapF_succ]
      rcases hws : ws t with _ | ⟨c, r1⟩
      · rfl
      · dsimp only
        have hlt : r1.length < t.length := ws_cons_length hws
        have hw1 := ws_length_le r1
        have hp0 : parsePairs0 g' (ws r1) = parsePairs0 f (ws r1) :=
          (ih g' hg' (ws r1)).2.2.2.2.2.2.1 (by omega)
        rw [hp0]
    · intro hreq
      rw [parseKV_succ, parseKV_succ]
      rcases hs : parse_json_string_value (ws t) with e | ⟨r1, k⟩
      · rfl
      · dsimp only
        rcases hw : ws r1 with _ | ⟨c, r3⟩
        · rfl
        · dsimp only
          have h1 : r1.length < (ws t).length := pjsv_consume hs
          have h2 := ws_length_le t
          have h3 : r3.length < r1.length := ws_cons_length hw
          have h4 := ws_length_le r3
          have hv : parseValueF g' (ws r3) = parseValueF f (ws r3) :=
            (ih g' hg' (ws r3)).1 (by omega)
          rw [hv]
    · intro hreq
      rw [parseElems0_succ, parseElems0_succ]
      have hv : parseValueF g' t = parseValueF f t :=
        (ih g' hg' t).1 (by omega)
      rw [hv]
      rcases hv0 : parseValueF f t with e | ⟨i1, v⟩
      · cases e <;> rfl
      · dsimp only
        have hc : i1.length < t.length := parseValueF_consume hv0
        have hl : parseElemsLoop g' i1 = parseElemsLoop f i1 :=
          (ih g' hg' i1).2.2.2.2.2.1 (by omega)
        rw [hl]
    · intro hreq
      rw [parseElemsLoop_succ, parseElemsLoop_succ]
      rcases hs : sepComma t with e | ⟨i1, u⟩
      · cases e <;> rfl
      · cases u
        dsimp only
        have hc1 : i1.length < t.length := sepComma_consume hs
        have hv : parseValueF g' i1 = parseValueF f i1 :=
          (ih g' hg' i1).1 (by omega)
        rw [hv]
        rcases hv0 : parseValueF f i1 with e | ⟨i2, v⟩
        · cases e <;> rfl
        · dsimp only
          have hc2 : i2.length < i1.length := parseValueF_consume hv0
          have hl : parseElemsLoop g' i2 = parseElemsLoop f i2 :=
            (ih g' hg' i2).2.2.2.2.2.1 (by omega)
          rw [hl]
    · intro hreq
      rw [parsePairs0_succ, parsePairs0_succ]
      have hv : parseKV g' t = parseKV f t :=
        (ih g' hg' t).2.2.2.1 (by omega)
      rw [hv]
      rcases hv0 : parseKV f t with e | ⟨i1, kv⟩
      · cases e <;> rfl
      · dsimp only
        have hc : i1.length < t.length := parseKV_consume hv0
        have hl : parsePairsLoop g' i1 = parsePairsLoop f i1 :=
          (ih g' hg' i1).2.2.2.2.2.2.2 (by omega)
        rw [hl]
    · intro hreq
      rw [parsePairsLoop_succ, parsePairsLoop_succ]
      rcases hs : sepComma t with e | ⟨i1, u⟩
      · cases e <;> rfl
      · cases u
        dsimp only
        have hc1 : i1.length < t.length := sepComma_consume hs
        have hv : parseKV g' i1 = parseKV f i1 :=
          (ih g' hg' i1).2.2.2.1 (by omega)
        rw [hv]
        rcases hv0 : parseKV f i1 with e | ⟨i2, kv⟩
        · cases e <;> rfl
        · dsimp only
          have hc2 : i2.length < i1.length := parseKV_consume hv0
          have hl : parsePairsLoop g' i2 = parsePairsLoop f i2 :=
            (ih g' hg' i2).2.2.2.2.2.2.2 (by omega)
          rw [hl]

theorem parseValueF_stable {f : Nat} {input : List Char}
    (h : 3 * input.length + 2 ≤ f) :
    parseValueF f input = parse_json_value input :=
  (stableAll (3 * input.length + 2) f h input).1 le_rfl

theorem parseArrayF_stable {f : Nat} {input : List Char}
    (h : 3 * input.length + 1 ≤ f) :
    parseArrayF f input = parse_json_array input := by
  have h1 := (stableAll (3 * input.length + 1) f h input).2.1 le_rfl
  have h2 := (stableAll (3 * input.length + 1) (stdFuel input)
    (by unfold stdFuel; omega) input).2.1 le_rfl
  rw [h1, parse_json_array, ← h2]

theorem parseMapF_stable {f : Nat} {input : List Char}
    (h : 3 * input.length + 1 ≤ f) :
    parseMapF f input = parse_json_map input := by
  have h1 := (stableAll (3 * input.length + 1) f h input).2.2.1 le_rfl
  have h2 := (stableAll (3 * input.length + 1) (stdFuel input)
    (by unfold stdFuel; omega) input).2.2.1 le_rfl
  rw [h1, parse_json_map, ← h2]

theorem parse_json_value_eq_alt (input : List Char) :
    parse_json_value input =
      match altStep (parse_json_null (ws input)) (altStep (parse_json_bool (ws input))
        (altStep (parse_json_number (ws input)) (altStep (parse_json_string_value (ws input))
          (altStep (parse_json_array (ws input)) (parse_json_map (ws input)))))) with
      | .ok (rest, v) => .ok (ws rest, v)
      | .error e => .error e := by
  have hw := ws_length_le input
  show parseValueF (3 * input.length + 1 + 1) input = _
  rw [parseValueF_succ]
  rw [parseArrayF_stable (by omega), parseMapF_stable (by omega)]

theorem pjn_no_panic (input : List Char) :
    parse_json_number input ≠ .error .panicked := by
  intro h
  unfold parse_json_number at h
  rcases hrf : recognize_float input with e | ⟨rest, lex⟩ <;> rw [hrf] at h
  · simp at h
    rcases rf_err_kind hrf with rfl | rfl <;> simp at h
  · simp [rf_accepts hrf] at h

theorem rf_lex_shape {input rest lex : List Char}
    (h : recognize_float input = .ok (rest, lex)) :
    input = lex ++ rest ∧ NumShape lex := by
  obtain ⟨sg, b, ex, hin, hlex, hsg, hbne, hdig, hbody, hexp⟩ := rf_ok_strong h
  constructor
  · rw [hin, hlex]
    simp
  · refine ⟨sg, b, ex, by rw [hlex]; simp, hsg, ?_, ?_⟩
    · rcases hbody with h1 | h1 | h1
      · exact Or.inl ⟨hbne, h1.1⟩
      · exact Or.inr (Or.inl h1)
      · exact Or.inr (Or.inr h1)
    · rcases hexp with ⟨h1, -⟩ | ⟨c, sg2, d2, h1, h2, h3, h4, h5, -⟩
      · exact Or.inl h1
      · exact Or.inr ⟨c, sg2, d2, h1, h2, h3, h4, h5⟩

theorem signVal_plus (n : Nat) : signVal ['+'] n = signVal [] n := by
  simp [signVal]

theorem pjn_plus {d : List Char} (hdne : d ≠ []) (hd : allDigits d) :
    parse_json_number ('+' :: d) = .ok ([], .number (f64OfLex ('+' :: d))) ∧
    parse_json_number d = .ok ([], .number (f64OfLex d)) ∧
    f64OfLex ('+' :: d) = f64OfLex d := by
  have hrfp : recognize_float (['+'] ++ (d ++ [])) = .ok ([], ['+'] ++ d) :=
    rf_int (Or.inr (Or.inl rfl)) hdne hd (by trivial) (by trivial) (by trivial)
  have hrf0 : recognize_float ([] ++ (d ++ [])) = .ok ([], [] ++ d) :=
    rf_int (Or.inl rfl) hdne hd (by trivial) (by trivial) (by trivial)
  simp only [List.append_nil, List.nil_append] at hrfp hrf0
  refine ⟨pjn_ok hrfp, pjn_ok hrf0, ?_⟩
  have h1 : lexToDec (['+'] ++ d) = canon (signVal ['+'] (digitsToNat d)) 0 :=
    lexToDec_int (Or.inr (Or.inl rfl)) hdne hd
  have h2 : lexToDec ([] ++ d) = canon (signVal [] (digitsToNat d)) 0 :=
    lexToDec_int (Or.inl rfl) hdne hd
  simp only [List.nil_append] at h2
  unfold f64OfLex
  rw [show ('+' :: d) = ['+'] ++ d from rfl, h1, h2, signVal_plus]

/-! ## Renderer structure lemmas -/

theorem joinSep_eq_intercalate (sep : List Char) :
    ∀ xs, joinSep sep xs = List.intercalate sep xs := by
  intro xs
  induction xs with
  | nil => simp [joinSep, List.intercalate, List.intersperse]
  | cons x xs ih =>
    cases xs with
    | nil => simp [joinSep, List.intercalate, List.intersperse]
    | cons y ys =>
      rw [show joinSep sep (x :: y :: ys) = x ++ sep ++ joinSep sep (y :: ys) from rfl, ih]
      simp [List.intercalate, List.intersperse]

theorem renderList_eq_map (vs : List JSONObject) : renderList vs = vs.map render := by
  induction vs with
  | nil => rw [renderList]; rfl
  | cons v vs ih => rw [renderList, ih]; rfl

theorem renderPairs_eq_map (es : List (List Char × JSONObject)) :
    renderPairs es = es.map (fun p => '"' :: p.1 ++ '"' :: ':' :: ' ' :: render p.2) := by
  induction es with
  | nil => rw [renderPairs]; rfl
  | cons e es ih =>
    rcases e with ⟨k, v⟩
    rw [renderPairs, ih]
    rfl

theorem render_map_eq (es : List (List Char × JSONObject)) :
    render (.map es) =
      '{' :: List.intercalate ", ".toList
        (es.map (fun p => '"' :: p.1 ++ '"' :: ':' :: ' ' :: render p.2)) ++ ['}'] := by
  rw [render, renderPairs_eq_map, joinSep_eq_intercalate]

theorem render_array_eq (vs : List JSONObject) :
    render (.array vs) =
      '[' :: List.intercalate ", ".toList (vs.map render) ++ [']'] := by
  rw [render, renderList_eq_map, joinSep_eq_intercalate]

/-! ## HashMap-fold lemmas -/

theorem alook_hmInsert (m : List (List Char × JSONObject)) (k : List Char)
    (v : JSONObject) (k' : List Char) :
    alook (hmInsert m k v) k' = if k = k' then some v else alook m k' := by
  induction m with
  | nil =>
    by_cases h : k = k' <;> simp [hmInsert, alook, h]
  | cons e rest ih =>
    rcases e with ⟨k0, v0⟩
    by_cases h0 : k0 = k
    · subst h0
      by_cases h : k0 = k' <;> simp [hmInsert, alook, h]
    · by_cases h : k0 = k'
      · subst h
        have hkk : ¬ k = k0 := fun he => h0 he.symm
        simp [hmInsert, alook, h0, hkk]
      · simp [hmInsert, alook, h0, h, ih]

theorem keys_hmInsert (m : List (List Char × JSONObject)) (k : List Char)
    (v : JSONObject) :
    (hmInsert m k v).map Prod.fst =
      if k ∈ m.map Prod.fst then m.map Prod.fst else m.map Prod.fst ++ [k] := by
  induction m with
  | nil => simp [hmInsert]
  | cons e rest ih =>
    rcases e with ⟨k0, v0⟩
    by_cases h0 : k0 = k
    · subst h0
      rw [hmInsert, if_pos rfl]
      simp
    · have hne : ¬ k = k0 := fun he => h0 he.symm
      rw [hmInsert, if_neg h0]
      by_cases hmem : k ∈ rest.map Prod.fst <;>
        simp [hmem, hne, ih]

theorem nodup_hmInsert (m : List (List Char × JSONObject)) (k : List Char)
    (v : JSONObject) (h : (m.map Prod.fst).Nodup) :
    ((hmInsert m k v).map Prod.fst).Nodup := by
  rw [keys_hmInsert]
  by_cases hmem : k ∈ m.map Prod.fst
  · simpa [hmem] using h
  · simp only [hmem, if_neg, ite_false]
    refine h.append (List.nodup_singleton k) ?_
    intro a ha hb
    simp at hb
    exact hmem (hb ▸ ha)

theorem buildMapGo_spec : ∀ (ps : List (JSONObject × JSONObject))
    (acc m : List (List Char × JSONObject)), buildMapGo ps acc = some m →
    ((acc.map Prod.fst).Nodup → (m.map Prod.fst).Nodup) ∧
    ∀ k, alook m k =
      match lastVal ps k with
      | some w => some w
      | none => alook acc k := by
  intro ps
  induction ps with
  | nil =>
    intro acc m h
    rw [buildMapGo] at h
    simp at h
    subst h
    exact ⟨id, fun k => by rw [lastVal]⟩
  | cons p rest ih =>
    intro acc m h
    rcases p with ⟨key, v⟩
    cases key with
    | str s =>
      replace h : buildMapGo rest (hmInsert acc s v) = some m := h
      obtain ⟨hnd, hlook⟩ := ih (hmInsert acc s v) m h
      refine ⟨fun hacc => hnd (nodup_hmInsert acc s v hacc), fun k => ?_⟩
      rw [hlook k, lastVal]
      rcases hl : lastVal rest k with _ | w
      · dsimp only
        rw [alook_hmInsert]
        by_cases hsk : s = k
        · subst hsk
          simp
        · have hne : ¬ (JSONObject.str s = JSONObject.str k) := by
            intro he
            exact hsk (JSONObject.str.inj he)
          simp [hsk, hne]
      · rfl
    | null => exact Option.noConfusion h
    | bool b => exact Option.noConfusion h
    | number x => exact Option.noConfusion h
    | array vs => exact Option.noConfusion h
    | map es => exact Option.noConfusion h

/-! ## Head-failure lemmas: which first characters each alternative rejects -/

theorem litP_pref (tok rest : List Char) : litP tok (tok ++ rest) = .ok (rest, tok) := by
  unfold litP
  rw [if_pos (List.isPrefixOf_iff_prefix.mpr (List.prefix_append tok rest))]
  simp

theorem litP_head_err {t0 c : Char} {tr r : List Char} (hc : c ≠ t0) :
    litP (t0 :: tr) (c :: r) = .error .error := by
  unfold litP
  have hbe : (t0 == c) = false := beq_eq_false_iff_ne.mpr fun h => hc h.symm
  simp [List.isPrefixOf, hbe]

theorem ws_cons {c : Char} {r : List Char} (h : isNomSpace c = false) :
    ws (c :: r) = c :: r :=
  ws_eq_self _ h

theorem null_head_err {c : Char} {r : List Char} (hc : c ≠ 'n') :
    parse_json_null (c :: r) = .error .error := by
  unfold parse_json_null
  have h1 : litP "null".toList (c :: r) = .error .error := litP_head_err hc
  rw [h1]

theorem bool_head_err {c : Char} {r : List Char} (hct : c ≠ 't') (hcf : c ≠ 'f') :
    parse_json_bool (c :: r) = .error .error := by
  unfold parse_json_bool
  have h1 : litP "true".toList (c :: r) = .error .error := litP_head_err hct
  have h2 : litP "false".toList (c :: r) = .error .error := litP_head_err hcf
  rw [h1, h2]

theorem rf_head_err {c : Char} {r : List Char} (hs : isSign c = false)
    (hd : c.isDigit = false) (hdot : c ≠ '.') :
    recognize_float (c :: r) = .error .error := by
  have hsp : splitSign (c :: r) = ([], c :: r) := by
    unfold splitSign
    simp only [isSign, Bool.or_eq_false_iff, decide_eq_false_iff_not] at hs
    simp [hs.1, hs.2]
  have hb : splitBody (c :: r) = .error .error := by
    unfold splitBody
    simp [hd, hdot]
  simp [recognize_float, hsp, hb]

theorem number_head_err {c : Char} {r : List Char} (hs : isSign c = false)
    (hd : c.isDigit = false) (hdot : c ≠ '.') :
    parse_json_number (c :: r) = .error .error := by
  unfold parse_json_number
  rw [rf_head_err hs hd hdot]

theorem string_head_err {c : Char} {r : List Char} (hc : c ≠ '"') :
    parse_json_string_value (c :: r) = .error .error := by
  unfold parse_json_string_value parse_json_string
  simp [hc]

theorem array_head_err {f : Nat} {c : Char} {r : List Char}
    (hsp : isNomSpace c = false) (hc : c ≠ '[') :
    parseArrayF (f + 1) (c :: r) = .error .error := by
  rw [parseArrayF_succ, ws_cons hsp]
  simp [hc]

theorem map_head_err {f : Nat} {c : Char} {r : List Char}
    (hsp : isNomSpace c = false) (hc : c ≠ '{') :
    parseMapF (f + 1) (c :: r) = .error .error := by
  rw [parseMapF_succ, ws_cons hsp]
  simp [hc]

/-- The suffixes a value meets inside rendered output: end of input, or a
separator / closing bracket. -/
def SuffOk (s : List Char) : Prop :=
  s = [] ∨ (∃ r, s = ',' :: r) ∨ (∃ r, s = ']' :: r) ∨ (∃ r, s = '}' :: r)

theorem suffOk_ws {s : List Char} (h : SuffOk s) : ws s = s := by
  rcases h with rfl | ⟨r, rfl⟩ | ⟨r, rfl⟩ | ⟨r, rfl⟩
  · rfl
  · exact ws_cons (by decide)
  · exact ws_cons (by decide)
  · exact ws_cons (by decide)

theorem suffOk_digit {s : List Char} (h : SuffOk s) : headFails Char.isDigit s := by
  rcases h with rfl | ⟨r, rfl⟩ | ⟨r, rfl⟩ | ⟨r, rfl⟩
  · trivial
  · exact (by decide : Char.isDigit ',' = false)
  · exact (by decide : Char.isDigit ']' = false)
  · exact (by decide : Char.isDigit '}' = false)

theorem suffOk_dot {s : List Char} (h : SuffOk s) : headNe '.' s := by
  rcases h with rfl | ⟨r, rfl⟩ | ⟨r, rfl⟩ | ⟨r, rfl⟩
  · trivial
  · exact (by decide : ',' ≠ '.')
  · exact (by decide : ']' ≠ '.')
  · exact (by decide : '}' ≠ '.')

theorem suffOk_exp {s : List Char} (h : SuffOk s) : headFails isExpChar s := by
  rcases h with rfl | ⟨r, rfl⟩ | ⟨r, rfl⟩ | ⟨r, rfl⟩
  · trivial
  · exact (by decide : isExpChar ',' = false)
  · exact (by decide : isExpChar ']' = false)
  · exact (by decide : isExpChar '}' = false)

theorem value_close_err {c : Char} {r : List Char} {f : Nat}
    (hc : c = ']' ∨ c = '}' ∨ c = ',') (hf : 2 ≤ f) :
    parseValueF f (c :: r) = .error .error := by
  obtain ⟨g, rfl⟩ : ∃ g, f = g + 1 + 1 := ⟨f - 2, by omega⟩
  have hsp : isNomSpace c = false := by rcases hc with rfl | rfl | rfl <;> decide
  have hws : ws (c :: r) = c :: r := ws_eq_self _ hsp
  rw [parseValueF_succ, hws]
  rw [null_head_err (by rcases hc with rfl | rfl | rfl <;> decide)]
  rw [bool_head_err (by rcases hc with rfl | rfl | rfl <;> decide)
    (by rcases hc with rfl | rfl | rfl <;> decide)]
  rw [number_head_err (by rcases hc with rfl | rfl | rfl <;> decide)
    (by rcases hc with rfl | rfl | rfl <;> decide)
    (by rcases hc with rfl | rfl | rfl <;> decide)]
  rw [string_head_err (by rcases hc with rfl | rfl | rfl <;> decide)]
  rw [array_head_err hsp (by rcases hc with rfl | rfl | rfl <;> decide)]
  rw [map_head_err hsp (by rcases hc with rfl | rfl | rfl <;> decide)]
  rfl

/-! ## Decimal rendering arithmetic -/

theorem digitsToNat_append_digit (xs : List Char) (c : Char) :
    digitsToNat (xs ++ [c]) = digitsToNat xs * 10 + (c.toNat - 48) := by
  induction xs with
  | nil => simp [digitsToNat]
  | cons x xs ih =>
    rw [List.cons_append, digitsToNat, ih, digitsToNat]
    simp [pow_succ]
    ring

theorem natDigitChar_toNat {d : Nat} (h : d < 10) : (natDigitChar d).toNat = 48 + d := by
  interval_cases d <;> decide

theorem natDigitChar_isDigit {d : Nat} (h : d < 10) : (natDigitChar d).isDigit = true := by
  interval_cases d <;> decide

theorem natDigitsRev_all_digits : ∀ fuel n c, c ∈ natDigitsRev fuel n →
    c.isDigit = true := by
  intro fuel
  induction fuel with
  | zero => intro n c hc; simp [natDigitsRev] at hc
  | succ f ih =>
    intro n c hc
    rw [natDigitsRev] at hc
    by_cases hn : n = 0
    · simp [hn] at hc
    · rw [if_neg hn] at hc
      rcases List.mem_cons.mp hc with rfl | hc2
      · exact natDigitChar_isDigit (Nat.mod_lt n (by norm_num))
      · exact ih _ _ hc2

theorem digitsToNat_rev_natDigitsRev : ∀ fuel n, n ≤ fuel →
    digitsToNat (natDigitsRev fuel n).reverse = n := by
  intro fuel
  induction fuel with
  | zero =>
    intro n h
    interval_cases n
    rfl
  | succ f ih =>
    intro n h
    rw [natDigitsRev]
    by_cases hn : n = 0
    · simp [hn, digitsToNat]
    · rw [if_neg hn, List.reverse_cons, digitsToNat_append_digit]
      have hd : n / 10 ≤ f := by omega
      rw [ih _ hd, natDigitChar_toNat (Nat.mod_lt n (by norm_num))]
      omega

theorem digitsToNat_renderNat (n : Nat) : digitsToNat (renderNat n) = n :=
  digitsToNat_rev_natDigitsRev n n le_rfl

theorem renderNat_all_digits (n : Nat) : allDigits (renderNat n) := by
  intro c hc
  rw [renderNat, List.mem_reverse] at hc
  exact natDigitsRev_all_digits n n c hc

theorem renderNat_ne_nil {n : Nat} (h : n ≠ 0) : renderNat n ≠ [] := by
  obtain ⟨f, rfl⟩ : ∃ f, n = f + 1 := ⟨n - 1, by omega⟩
  rw [renderNat, natDigitsRev, if_neg h]
  simp

theorem digitsToNat_zeros (z : Nat) (ds : List Char) :
    digitsToNat (List.replicate z '0' ++ ds) = digitsToNat ds := by
  induction z with
  | zero => simp
  | succ z ih =>
    rw [List.replicate_succ, List.cons_append, digitsToNat, ih]
    simp [show ('0'.toNat - 48) = 0 from rfl]

theorem zeros_all_digits (z : Nat) : allDigits (List.replicate z '0') := by
  intro c hc
  rw [List.mem_replicate] at hc
  rw [hc.2]
  decide

theorem canonGo_exact : ∀ fuel (m0 : Int) (j : Nat) (e : Int), m0 ≠ 0 → m0 % 10 ≠ 0 →
    (m0 * 10 ^ j).natAbs ≤ fuel → canonGo fuel (m0 * 10 ^ j) e = ⟨m0, e + j⟩ := by
  intro fuel
  induction fuel with
  | zero =>
    intro m0 j e hm0 _ hle
    exfalso
    have hne : (m0 * 10 ^ j).natAbs ≠ 0 := by
      simp only [ne_eq, Int.natAbs_eq_zero]
      exact mul_ne_zero hm0 (pow_ne_zero _ (by norm_num))
    omega
  | succ f ih =>
    intro m0 j e hm0 h10 hle
    cases j with
    | zero =>
      rw [pow_zero, mul_one, canonGo, if_neg h10]
      simp
    | succ k =>
      have hfac : m0 * 10 ^ (k + 1) = (m0 * 10 ^ k) * 10 := by ring
      have hmod : (m0 * 10 ^ (k + 1)) % 10 = 0 := by
        rw [hfac]
        exact Int.mul_emod_left _ _
      rw [canonGo, if_pos hmod]
      have hdiv : (m0 * 10 ^ (k + 1)) / 10 = m0 * 10 ^ k := by
        rw [hfac]
        exact Int.mul_ediv_cancel _ (by norm_num)
      rw [hdiv]
      have h1 : (m0 * 10 ^ (k + 1)).natAbs = (m0 * 10 ^ k).natAbs * 10 := by
        rw [hfac, Int.natAbs_mul]
        rfl
      have h2 : (m0 * 10 ^ k).natAbs ≠ 0 := by
        simp only [ne_eq, Int.natAbs_eq_zero]
        exact mul_ne_zero hm0 (pow_ne_zero _ (by norm_num))
      have hle2 : (m0 * 10 ^ k).natAbs ≤ f := by omega
      rw [ih m0 k (e + 1) hm0 h10 hle2]
      simp only [Dec10.mk.injEq, true_and]
      push_cast
      ring

theorem canon_exact {m0 : Int} (hm0 : m0 ≠ 0) (h10 : m0 % 10 ≠ 0) (j : Nat) (e : Int) :
    canon (m0 * 10 ^ j) e = ⟨m0, e + j⟩ := by
  unfold canon
  rw [if_neg (mul_ne_zero hm0 (pow_ne_zero _ (by norm_num)))]
  exact canonGo_exact _ m0 j e hm0 h10 le_rfl

theorem canon_self {m0 : Int} (hm0 : m0 ≠ 0) (h10 : m0 % 10 ≠ 0) (e : Int) :
    canon m0 e = ⟨m0, e⟩ := by
  have h := canon_exact hm0 h10 0 e
  simpa using h

theorem signVal_natAbs (m : Int) (n : Nat) :
    signVal (if m < 0 then ['-'] else []) ((m.natAbs * n : Nat)) = m * n := by
  by_cases hm : m < 0
  · rw [if_pos hm]
    unfold signVal
    rw [if_pos rfl]
    have habs : |m| = -m := abs_of_neg hm
    push_cast
    rw [habs]
    ring
  · rw [if_neg hm]
    unfold signVal
    rw [if_neg (by decide : ¬ (([] : List Char) = ['-']))]
    have habs : |m| = m := abs_of_nonneg (le_of_not_lt hm)
    push_cast
    rw [habs]

theorem renderFinite_form (d : Dec10) :
    ∃ intD fracD,
      intD ≠ [] ∧ allDigits intD ∧ allDigits fracD ∧
      renderFinite d =
        (if d.m < 0 then ['-'] else []) ++
          (intD ++ (if fracD.isEmpty then [] else '.' :: fracD)) ∧
      digitsToNat (intD ++ fracD) = d.m.natAbs * 10 ^ d.e.toNat ∧
      (fracD.length : Int) = (-d.e).toNat := by
  set mag := d.m.natAbs * 10 ^ d.e.toNat with hmagdef
  set ds0 := renderNat mag with hds0def
  set k := (-d.e).toNat with hkdef
  set dsE := if ds0.length < k + 1 then List.replicate (k + 1 - ds0.length) '0' ++ ds0
    else ds0 with hdsdef
  have hrf : renderFinite d =
      (if d.m < 0 then ['-'] else []) ++
        (dsE.take (dsE.length - k) ++
          (if k = 0 then [] else '.' :: dsE.drop (dsE.length - k))) := by
    rw [hdsdef, hkdef, hds0def, hmagdef, ← List.append_assoc]
    exact rfl
  have hallds : allDigits dsE := by
    rw [hdsdef]
    by_cases hpad : ds0.length < k + 1
    · rw [if_pos hpad]
      intro c hc
      rcases List.mem_append.mp hc with h | h
      · exact zeros_all_digits _ c h
      · exact renderNat_all_digits mag c h
    · rw [if_neg hpad]
      exact renderNat_all_digits mag
  have hvalds : digitsToNat dsE = mag := by
    rw [hdsdef]
    by_cases hpad : ds0.length < k + 1
    · rw [if_pos hpad, digitsToNat_zeros]
      exact digitsToNat_renderNat mag
    · rw [if_neg hpad]
      exact digitsToNat_renderNat mag
  have hlends : k + 1 ≤ dsE.length := by
    rw [hdsdef]
    by_cases hpad : ds0.length < k + 1
    · rw [if_pos hpad]
      simp [List.length_append, List.length_replicate]
      omega
    · rw [if_neg hpad]
      omega
  refine ⟨dsE.take (dsE.length - k), dsE.drop (dsE.length - k), ?_, ?_, ?_, ?_, ?_, ?_⟩
  · intro hnil
    have hl := congrArg List.length hnil
    simp [List.length_take] at hl
    omega
  · exact fun c hc => hallds c (List.mem_of_mem_take hc)
  · exact fun c hc => hallds c (List.mem_of_mem_drop hc)
  · rw [hrf]
    by_cases hk : k = 0
    · simp [hk]
    · rcases hdrop : dsE.drop (dsE.length - k) with _ | ⟨c0, r0⟩
      · exfalso
        have h0l := congrArg List.length hdrop
        simp [List.length_drop] at h0l
        omega
      · simp [hk, hdrop]
  · rw [List.take_append_drop]
    exact hvalds
  · simp [List.length_drop]
    omega

theorem renderFinite_rt {d : Dec10} (hcan : d.canonical)
    (h1 : decAtLeast d f64Overflow = false) (h2 : decAtMost d (-f64Overflow) = false)
    (suffix : List Char) (hs : SuffOk suffix) :
    parse_json_number (renderFinite d ++ suffix) = .ok (suffix, .number (.finite d)) := by
  obtain ⟨m, e⟩ := d
  obtain ⟨intD, fracD, hne, hdi, hdf, heq, hval, hflen⟩ := renderFinite_form ⟨m, e⟩
  dsimp only at heq hval hflen
  have hsg : SignOpt (if m < 0 then ['-'] else []) := by
    by_cases hm : m < 0
    · rw [if_pos hm]
      exact Or.inr (Or.inr rfl)
    · rw [if_neg hm]
      exact Or.inl rfl
  by_cases hfe : fracD = []
  · subst hfe
    simp only [List.isEmpty_nil, ite_true, List.append_nil] at heq hval
    have hk0 : ((-e).toNat : Nat) = 0 := by exact_mod_cast hflen.symm
    have he0 : 0 ≤ e := by omega
    rw [heq, List.append_assoc]
    have hrf := rf_int hsg hne hdi (suffOk_digit hs) (suffOk_dot hs) (suffOk_exp hs)
    rw [pjn_ok hrf]
    have hlex : lexToDec ((if m < 0 then ['-'] else []) ++ intD) = ⟨m, e⟩ := by
      rw [lexToDec_int hsg hne hdi, hval]
      by_cases hm0 : m = 0
      · subst hm0
        have he' : e = 0 := hcan.1 rfl
        subst he'
        simp [signVal, canon]
      · rw [signVal_natAbs]
        have hje : (e.toNat : Int) = e := Int.toNat_of_nonneg he0
        push_cast
        rw [canon_exact hm0 (hcan.2 hm0) e.toNat 0]
        simp [hje]
    have hf64 : f64OfLex ((if m < 0 then ['-'] else []) ++ intD) = .finite ⟨m, e⟩ := by
      show (if decAtLeast (lexToDec ((if m < 0 then ['-'] else []) ++ intD)) f64Overflow
          then F64.inf
          else if decAtMost (lexToDec ((if m < 0 then ['-'] else []) ++ intD))
              (-f64Overflow) then F64.neginf
          else F64.finite (lexToDec ((if m < 0 then ['-'] else []) ++ intD))) =
        F64.finite ⟨m, e⟩
      rw [hlex, h1, h2]
      simp
    rw [hf64]
  · have hfeb : fracD.isEmpty = false := by
      cases fracD with
      | nil => exact absurd rfl hfe
      | cons a l => rfl
    simp only [hfeb, Bool.false_eq_true, if_false] at heq
    have hlenpos : 0 < fracD.length := List.length_pos.mpr hfe
    have hkpos : 0 < ((-e).toNat : Nat) := by omega
    have helt : e < 0 := by omega
    have het0 : e.toNat = 0 := by omega
    rw [het0, pow_zero, mul_one] at hval
    rw [heq]
    simp only [List.append_assoc, List.cons_append]
    have hrf := rf_frac hsg hne hdi hdf (suffOk_digit hs) (suffOk_exp hs)
    rw [pjn_ok hrf]
    have hm0 : m ≠ 0 := by
      intro h0
      have he' : e = 0 := hcan.1 h0
      omega
    have hlex : lexToDec ((if m < 0 then ['-'] else []) ++ (intD ++ '.' :: fracD)) =
        ⟨m, e⟩ := by
      rw [lexToDec_frac hsg hne hdi hdf, hval]
      have hsv : signVal (if m < 0 then ['-'] else []) m.natAbs = m := by
        have h' := signVal_natAbs m 1
        simpa using h'
      rw [hsv, hflen]
      have hneg : -(((-e).toNat : Int)) = e := by omega
      rw [hneg]
      exact canon_self hm0 (hcan.2 hm0) e
    have hf64 : f64OfLex ((if m < 0 then ['-'] else []) ++ (intD ++ '.' :: fracD)) =
        .finite ⟨m, e⟩ := by
      show (if decAtLeast (lexToDec ((if m < 0 then ['-'] else []) ++
            (intD ++ '.' :: fracD))) f64Overflow then F64.inf
          else if decAtMost (lexToDec ((if m < 0 then ['-'] else []) ++
              (intD ++ '.' :: fracD))) (-f64Overflow) then F64.neginf
          else F64.finite (lexToDec ((if m < 0 then ['-'] else []) ++
            (intD ++ '.' :: fracD)))) = F64.finite ⟨m, e⟩
      rw [hlex, h1, h2]
      simp
    rw [hf64]

theorem renderFinite_head (d : Dec10) :
    ∃ c rest, renderFinite d = c :: rest ∧ (c = '-' ∨ c.isDigit = true) := by
  obtain ⟨intD, fracD, hne, hdi, -, heq, -, -⟩ := renderFinite_form d
  by_cases hm : d.m < 0
  · rw [if_pos hm] at heq
    exact ⟨'-', _, by rw [heq]; rfl, Or.inl rfl⟩
  · rw [if_neg hm] at heq
    rcases intD with _ | ⟨c0, r0⟩
    · exact absurd rfl hne
    · refine ⟨c0, r0 ++ (if fracD.isEmpty then [] else '.' :: fracD), ?_,
        Or.inr (hdi c0 (by simp))⟩
      rw [heq]
      simp

/-! ## Renderability: the values whose rendering parses back -/

mutual

def sizeJ : JSONObject → Nat
  | .null => 1
  | .bool _ => 1
  | .number _ => 1
  | .str _ => 1
  | .array vs => sizeL vs + 1
  | .map es => sizeM es + 1

def sizeL : List JSONObject → Nat
  | [] => 0
  | v :: vs => sizeJ v + sizeL vs + 1

def sizeM : List (List Char × JSONObject) → Nat
  | [] => 0
  | (_, v) :: es => sizeJ v + sizeM es + 1

end

/-- A finite double strictly inside the overflow thresholds, canonically
represented. -/
def goodNumber : F64 → Bool
  | .finite d => decide d.canonical && !decAtLeast d f64Overflow &&
      !decAtMost d (-f64Overflow)
  | .inf => false
  | .neginf => false

/-- Pairwise-distinct keys (what the `HashMap` model guarantees anyway). -/
def keysDistinct : List (List Char × JSONObject) → Bool
  | [] => true
  | (k, _) :: es => !decide (k ∈ es.map Prod.fst) && keysDistinct es

mutual

/-- The renderable values: `render` emits text the parser maps back to the
same value.  Numbers are finite and in range, strings nonempty and made of
the escape alphabet the string grammar accepts, map keys distinct. -/
def renderableJ : JSONObject → Bool
  | .null => true
  | .bool _ => true
  | .number x => goodNumber x
  | .str s => !s.isEmpty && wellEscaped s
  | .array vs => renderableL vs
  | .map es => keysDistinct es && renderableM es

def renderableL : List JSONObject → Bool
  | [] => true
  | v :: vs => renderableJ v && renderableL vs

def renderableM : List (List Char × JSONObject) → Bool
  | [] => true
  | (k, v) :: es => (!k.isEmpty && wellEscaped k) && renderableJ v && renderableM es

end

theorem hmInsert_fresh {m : List (List Char × JSONObject)} {k : List Char}
    {v : JSONObject} (h : ¬ k ∈ m.map Prod.fst) : hmInsert m k v = m ++ [(k, v)] := by
  induction m with
  | nil => rfl
  | cons e rest ih =>
    rcases e with ⟨k0, v0⟩
    have hk0 : ¬ k0 = k := by
      intro he
      exact h (by simp [he])
    rw [hmInsert, if_neg hk0, ih (fun hm => h (by simp [hm]))]
    rfl

theorem buildMapGo_fresh : ∀ (es acc : List (List Char × JSONObject)),
    keysDistinct es = true →
    (∀ k, k ∈ es.map Prod.fst → ¬ k ∈ acc.map Prod.fst) →
    buildMapGo (es.map (fun p => (JSONObject.str p.1, p.2))) acc = some (acc ++ es) := by
  intro es
  induction es with
  | nil =>
    intro acc _ _
    simp [buildMapGo]
  | cons e rest ih =>
    intro acc hdist hfresh
    rcases e with ⟨k, v⟩
    rw [keysDistinct, Bool.and_eq_true] at hdist
    have hknotin : ¬ k ∈ rest.map Prod.fst := by
      have h1 := hdist.1
      rw [Bool.not_eq_true'] at h1
      exact of_decide_eq_false h1
    show buildMapGo ((JSONObject.str k, v) ::
      rest.map (fun p => (JSONObject.str p.1, p.2))) acc = _
    rw [show buildMapGo ((JSONObject.str k, v) ::
        rest.map (fun p => (JSONObject.str p.1, p.2))) acc
        = buildMapGo (rest.map (fun p => (JSONObject.str p.1, p.2)))
            (hmInsert acc k v) from rfl]
    rw [hmInsert_fresh (hfresh k (by simp))]
    have hfresh2 : ∀ k', k' ∈ rest.map Prod.fst →
        ¬ k' ∈ (acc ++ [(k, v)]).map Prod.fst := by
      intro k' hk' hmem
      rw [List.map_append] at hmem
      rcases List.mem_append.mp hmem with h | h
      · exact hfresh k' (by simp [hk']) h
      · simp at h
        subst h
        exact hknotin hk'
    rw [ih (acc ++ [(k, v)]) hdist.2 hfresh2]
    simp

theorem buildMap_strPairs {es : List (List Char × JSONObject)}
    (h : keysDistinct es = true) :
    buildMap (es.map (fun p => (JSONObject.str p.1, p.2))) = some es := by
  have hgo := buildMapGo_fresh es [] h (by simp)
  simpa [buildMap] using hgo

theorem altStep_first {x q : PResult JSONObject} {a : List Char × JSONObject}
    (h : x = .ok a) : altStep x q = .ok a := by
  rw [h]
  rfl

theorem altStep_next {x q : PResult JSONObject} (hx : x = .error .error) :
    altStep x q = q := by
  rw [hx]
  rfl

theorem valueF_dispatch_ok {g : Nat} {input rest : List Char} {v : JSONObject}
    (hws : ws input = input) (hwsr : ws rest = rest)
    (h : altStep (parse_json_null input) (altStep (parse_json_bool input)
      (altStep (parse_json_number input) (altStep (parse_json_string_value input)
        (altStep (parseArrayF g input) (parseMapF g input))))) = .ok (rest, v)) :
    parseValueF (g + 1) input = .ok (rest, v) := by
  rw [parseValueF_succ, hws, h]
  dsimp only
  rw [hwsr]

theorem digit_ne_letters {c : Char} (h : c.isDigit = true) :
    c ≠ 'n' ∧ c ≠ 't' ∧ c ≠ 'f' ∧ c ≠ '"' :=
  ⟨fun hc => by subst hc; exact absurd h (by decide),
   fun hc => by subst hc; exact absurd h (by decide),
   fun hc => by subst hc; exact absurd h (by decide),
   fun hc => by subst hc; exact absurd h (by decide)⟩

theorem value_null_rt {suffix : List Char} {f : Nat} (hs : SuffOk suffix) (hf : 1 ≤ f) :
    parseValueF f ("null".toList ++ suffix) = .ok (suffix, .null) := by
  obtain ⟨g, rfl⟩ : ∃ g, f = g + 1 := ⟨f - 1, by omega⟩
  have hnull : parse_json_null ("null".toList ++ suffix) = .ok (suffix, .null) := by
    unfold parse_json_null
    rw [litP_pref]
  exact valueF_dispatch_ok (ws_cons (by decide : isNomSpace 'n' = false))
    (suffOk_ws hs) (altStep_first hnull)

theorem value_true_rt {suffix : List Char} {f : Nat} (hs : SuffOk suffix) (hf : 1 ≤ f) :
    parseValueF f ("true".toList ++ suffix) = .ok (suffix, .bool true) := by
  obtain ⟨g, rfl⟩ : ∃ g, f = g + 1 := ⟨f - 1, by omega⟩
  have hn : parse_json_null ("true".toList ++ suffix) = .error .error :=
    null_head_err (by decide)
  have hbool : parse_json_bool ("true".toList ++ suffix) = .ok (suffix, .bool true) := by
    unfold parse_json_bool
    rw [litP_pref]
    dsimp only
    rw [show (decide ("true".toList = "true".toList)) = true from by decide]
  refine valueF_dispatch_ok (ws_cons (by decide : isNomSpace 't' = false))
    (suffOk_ws hs) ?_
  rw [altStep_next hn]
  exact altStep_first hbool

theorem value_false_rt {suffix : List Char} {f : Nat} (hs : SuffOk suffix) (hf : 1 ≤ f) :
    parseValueF f ("false".toList ++ suffix) = .ok (suffix, .bool false) := by
  obtain ⟨g, rfl⟩ : ∃ g, f = g + 1 := ⟨f - 1, by omega⟩
  have hn : parse_json_null ("false".toList ++ suffix) = .error .error :=
    null_head_err (by decide)
  have ht : litP "true".toList ("false".toList ++ suffix) = .error .error :=
    litP_head_err (by decide)
  have hbool : parse_json_bool ("false".toList ++ suffix) = .ok (suffix, .bool false) := by
    unfold parse_json_bool
    rw [ht, litP_pref]
    dsimp only
    rw [show (decide ("false".toList = "true".toList)) = false from by decide]
  refine valueF_dispatch_ok (ws_cons (by decide : isNomSpace 'f' = false))
    (suffOk_ws hs) ?_
  rw [altStep_next hn]
  exact altStep_first hbool

theorem value_number_rt {d : Dec10} (hcan : d.canonical)
    (h1 : decAtLeast d f64Overflow = false) (h2 : decAtMost d (-f64Overflow) = false)
    {suffix : List Char} {f : Nat} (hs : SuffOk suffix) (hf : 1 ≤ f) :
    parseValueF f (renderFinite d ++ suffix) = .ok (suffix, .number (.finite d)) := by
  obtain ⟨g, rfl⟩ : ∃ g, f = g + 1 := ⟨f - 1, by omega⟩
  obtain ⟨c, rest0, hrend, hcd⟩ := renderFinite_head d
  have hic : isNomSpace c = false := by
    rcases hcd with rfl | hd
    · decide
    · exact (digit_ne hd).2.2.2
  have hinput : renderFinite d ++ suffix = c :: (rest0 ++ suffix) := by
    rw [hrend]
    rfl
  rw [hinput]
  have hn : parse_json_null (c :: (rest0 ++ suffix)) = .error .error :=
    null_head_err (by rcases hcd with rfl | hd
                      · decide
                      · exact (digit_ne_letters hd).1)
  have hb : parse_json_bool (c :: (rest0 ++ suffix)) = .error .error :=
    bool_head_err (by rcases hcd with rfl | hd
                      · decide
                      · exact (digit_ne_letters hd).2.1)
      (by rcases hcd with rfl | hd
          · decide
          · exact (digit_ne_letters hd).2.2.1)
  have hnum : parse_json_number (c :: (rest0 ++ suffix)) =
      .ok (suffix, .number (.finite d)) := by
    rw [← hinput]
    exact renderFinite_rt hcan h1 h2 suffix hs
  refine valueF_dispatch_ok (ws_cons hic) (suffOk_ws hs) ?_
  rw [altStep_next hn, altStep_next hb]
  exact altStep_first hnum

theorem value_str_rt {s : List Char} (hne : s ≠ []) (hwe : wellEscaped s = true)
    {suffix : List Char} {f : Nat} (hs : SuffOk suffix) (hf : 1 ≤ f) :
    parseValueF f (('"' :: (s ++ ['"'])) ++ suffix) = .ok (suffix, .str s) := by
  obtain ⟨g, rfl⟩ : ∃ g, f = g + 1 := ⟨f - 1, by omega⟩
  have hinput : ('"' :: (s ++ ['"'])) ++ suffix = '"' :: (s ++ '"' :: suffix) := by
    simp
  rw [hinput]
  have hn : parse_json_null ('"' :: (s ++ '"' :: suffix)) = .error .error :=
    null_head_err (by decide)
  have hb : parse_json_bool ('"' :: (s ++ '"' :: suffix)) = .error .error :=
    bool_head_err (by decide) (by decide)
  have hnum : parse_json_number ('"' :: (s ++ '"' :: suffix)) = .error .error :=
    number_head_err (by decide) (by decide) (by decide)
  have hsv : parse_json_string_value ('"' :: (s ++ '"' :: suffix)) =
      .ok (suffix, .str s) := by
    unfold parse_json_string_value
    rw [pjs_wellEscaped s suffix hne hwe]
  refine valueF_dispatch_ok (ws_cons (by decide : isNomSpace '"' = false))
    (suffOk_ws hs) ?_
  rw [altStep_next hn, altStep_next hb, altStep_next hnum]
  exact altStep_first hsv

/-- Rendered text of one `"key": value` object entry. -/
def kvText (k : List Char) (v : JSONObject) : List Char :=
  '"' :: k ++ '"' :: ':' :: ' ' :: render v

/-- The rendered text that follows the first array element: `", "`-separated
renderings of the remaining elements. -/
def sepJoin : List JSONObject → List Char
  | [] => []
  | v :: vs => ',' :: ' ' :: (render v ++ sepJoin vs)

/-- The rendered text that follows the first object entry. -/
def sepJoinP : List (List Char × JSONObject) → List Char
  | [] => []
  | (k, v) :: es => ',' :: ' ' :: (kvText k v ++ sepJoinP es)

theorem joinSep_render : ∀ (vs : List JSONObject) (v : JSONObject),
    joinSep ", ".toList (renderList (v :: vs)) = render v ++ sepJoin vs := by
  intro vs
  induction vs with
  | nil =>
    intro v
    rw [renderList, renderList]
    simp [joinSep, sepJoin]
  | cons v2 vs ih =>
    intro v
    rw [renderList]
    rw [show joinSep ", ".toList (render v :: renderList (v2 :: vs))
        = render v ++ ", ".toList ++ joinSep ", ".toList (renderList (v2 :: vs)) from ?_]
    · rw [ih v2, sepJoin]
      simp
    · rw [renderList]
      rfl

theorem joinSep_renderP : ∀ (es : List (List Char × JSONObject)) (k : List Char)
    (v : JSONObject),
    joinSep ", ".toList (renderPairs ((k, v) :: es)) = kvText k v ++ sepJoinP es := by
  intro es
  induction es with
  | nil =>
    intro k v
    rw [renderPairs, renderPairs]
    simp [joinSep, sepJoinP, kvText]
  | cons e es ih =>
    intro k v
    rcases e with ⟨k2, v2⟩
    rw [renderPairs]
    rw [show joinSep ", ".toList (('"' :: k ++ '"' :: ':' :: ' ' :: render v) ::
          renderPairs ((k2, v2) :: es))
        = ('"' :: k ++ '"' :: ':' :: ' ' :: render v) ++ ", ".toList ++
          joinSep ", ".toList (renderPairs ((k2, v2) :: es)) from ?_]
    · rw [ih k2 v2, sepJoinP]
      simp [kvText]
    · rw [renderPairs]
      rfl

theorem render_head_not_space (v : JSONObject) :
    ∃ c r, render v = c :: r ∧ isNomSpace c = false := by
  cases v with
  | null => exact ⟨'n', _, rfl, by decide⟩
  | bool b =>
    cases b
    · exact ⟨'f', _, rfl, by decide⟩
    · exact ⟨'t', _, rfl, by decide⟩
  | number x =>
    cases x with
    | finite d =>
      obtain ⟨c, r, hr, hcd⟩ := renderFinite_head d
      refine ⟨c, r, ?_, ?_⟩
      · rw [render]
        exact hr
      · rcases hcd with rfl | hd
        · decide
        · exact (digit_ne hd).2.2.2
    | inf => exact ⟨'i', _, rfl, by decide⟩
    | neginf => exact ⟨'-', _, rfl, by decide⟩
  | str s => exact ⟨'"', _, rfl, by decide⟩
  | array vs => exact ⟨'[', _, rfl, by decide⟩
  | map es => exact ⟨'{', _, rfl, by decide⟩

theorem ws_render (v : JSONObject) (X : List Char) :
    ws (render v ++ X) = render v ++ X := by
  obtain ⟨c, r, hr, hsp⟩ := render_head_not_space v
  rw [hr, List.cons_append]
  exact ws_cons hsp

theorem sepComma_close {c : Char} {r : List Char} (hsp : isNomSpace c = false)
    (hc : c ≠ ',') : sepComma (c :: r) = .error .error := by
  unfold sepComma
  rw [ws_cons hsp]
  simp [hc]

theorem sepComma_at {X : List Char} (hX : ws X = X) :
    sepComma (',' :: ' ' :: X) = .ok (X, ()) := by
  unfold sepComma
  rw [ws_cons (by decide)]
  dsimp only
  rw [if_pos rfl]
  have h1 : ws (' ' :: X) = ws X := by
    show List.dropWhile isNomSpace (' ' :: X) = ws X
    rw [List.dropWhile_cons, if_pos (by decide : isNomSpace ' ' = true)]
    rfl
  rw [h1, hX]

theorem sepJoin_suffOk (vs : List JSONObject) {c : Char} (hc : c = ']' ∨ c = '}')
    (suffix : List Char) : SuffOk (sepJoin vs ++ c :: suffix) := by
  cases vs with
  | nil =>
    rw [sepJoin, List.nil_append]
    rcases hc with rfl | rfl
    · exact Or.inr (Or.inr (Or.inl ⟨suffix, rfl⟩))
    · exact Or.inr (Or.inr (Or.inr ⟨suffix, rfl⟩))
  | cons v vs =>
    rw [sepJoin, List.cons_append]
    exact Or.inr (Or.inl ⟨_, rfl⟩)

theorem sepJoinP_suffOk (es : List (List Char × JSONObject)) {c : Char}
    (hc : c = ']' ∨ c = '}') (suffix : List Char) :
    SuffOk (sepJoinP es ++ c :: suffix) := by
  cases es with
  | nil =>
    rw [sepJoinP, List.nil_append]
    rcases hc with rfl | rfl
    · exact Or.inr (Or.inr (Or.inl ⟨suffix, rfl⟩))
    · exact Or.inr (Or.inr (Or.inr ⟨suffix, rfl⟩))
  | cons e es =>
    rcases e with ⟨k, v⟩
    rw [sepJoinP, List.cons_append]
    exact Or.inr (Or.inl ⟨_, rfl⟩)

theorem sizeJ_pos (v : JSONObject) : 1 ≤ sizeJ v := by
  cases v <;> rw [sizeJ] <;> omega

theorem sizeL_mem {v : JSONObject} {vs : List JSONObject} (h : v ∈ vs) :
    sizeJ v ≤ sizeL vs := by
  induction vs with
  | nil => simp at h
  | cons v2 vs ih =>
    rw [sizeL]
    rcases List.mem_cons.mp h with rfl | h2
    · omega
    · have := ih h2
      omega

theorem sizeM_mem {k : List Char} {v : JSONObject}
    {es : List (List Char × JSONObject)} (h : (k, v) ∈ es) :
    sizeJ v ≤ sizeM es := by
  induction es with
  | nil => simp at h
  | cons e es ih =>
    rcases e with ⟨k2, v2⟩
    rw [sizeM]
    rcases List.mem_cons.mp h with he | h2
    · have : v = v2 := (Prod.mk.injEq _ _ _ _ ▸ he).2
      subst this
      omega
    · have := ih h2
      omega

theorem renderableL_mem {v : JSONObject} {vs : List JSONObject}
    (hall : renderableL vs = true) (h : v ∈ vs) : renderableJ v = true := by
  induction vs with
  | nil => simp at h
  | cons v2 vs ih =>
    rw [renderableL, Bool.and_eq_true] at hall
    rcases List.mem_cons.mp h with rfl | h2
    · exact hall.1
    · exact ih hall.2 h2

theorem renderableM_mem {k : List Char} {v : JSONObject}
    {es : List (List Char × JSONObject)} (hall : renderableM es = true)
    (h : (k, v) ∈ es) :
    (!k.isEmpty && wellEscaped k) = true ∧ renderableJ v = true := by
  induction es with
  | nil => simp at h
  | cons e es ih =>
    rcases e with ⟨k2, v2⟩
    rw [renderableM, Bool.and_eq_true, Bool.and_eq_true] at hall
    rcases List.mem_cons.mp h with he | h2
    · obtain ⟨hk, hv⟩ := Prod.mk.injEq _ _ _ _ ▸ he
      subst hk
      subst hv
      exact ⟨hall.1.1, hall.1.2⟩
    · exact ih hall.2 h2

theorem elemsLoop_rt : ∀ (vs : List JSONObject),
    (∀ v ∈ vs, ∀ (suffix : List Char) (f : Nat), SuffOk suffix →
      3 * (render v ++ suffix).length + 2 ≤ f →
      parseValueF f (render v ++ suffix) = .ok (suffix, v)) →
    ∀ (suffix : List Char) (f : Nat), SuffOk suffix →
      3 * (sepJoin vs ++ ']' :: suffix).length + 3 ≤ f →
      parseElemsLoop f (sepJoin vs ++ ']' :: suffix) = .ok (']' :: suffix, vs) := by
  intro vs
  induction vs with
  | nil =>
    intro H suffix f hs hf
    obtain ⟨g, rfl⟩ : ∃ g, f = g + 1 := ⟨f - 1, by omega⟩
    rw [sepJoin, List.nil_append, parseElemsLoop_succ]
    rw [sepComma_close (by decide) (by decide)]
  | cons v vs ih =>
    intro H suffix f hs hf
    obtain ⟨g, rfl⟩ : ∃ g, f = g + 1 := ⟨f - 1, by omega⟩
    rw [sepJoin] at hf ⊢
    simp only [List.length_append, List.length_cons] at hf
    rw [List.cons_append, List.cons_append, List.append_assoc, parseElemsLoop_succ]
    have hS : SuffOk (sepJoin vs ++ ']' :: suffix) :=
      sepJoin_suffOk vs (Or.inl rfl) suffix
    have hwsX : ws (render v ++ (sepJoin vs ++ ']' :: suffix)) =
        render v ++ (sepJoin vs ++ ']' :: suffix) := ws_render v _
    rw [sepComma_at hwsX]
    dsimp only
    have hval := H v (List.mem_cons_self v vs) (sepJoin vs ++ ']' :: suffix) g hS (by
      simp only [List.length_append, List.length_cons]
      omega)
    rw [hval]
    dsimp only
    rw [if_neg (by
      simp only [List.length_append, List.length_cons]
      omega)]
    rw [ih (fun v2 hv2 => H v2 (List.mem_cons_of_mem _ hv2)) suffix g hs (by
      simp only [List.length_append, List.length_cons]
      omega)]

theorem elems0_rt : ∀ (vs : List JSONObject),
    (∀ v ∈ vs, ∀ (suffix : List Char) (f : Nat), SuffOk suffix →
      3 * (render v ++ suffix).length + 2 ≤ f →
      parseValueF f (render v ++ suffix) = .ok (suffix, v)) →
    ∀ (suffix : List Char) (f : Nat), SuffOk suffix →
      3 * (joinSep ", ".toList (renderList vs) ++ ']' :: suffix).length + 3 ≤ f →
      parseElems0 f (joinSep ", ".toList (renderList vs) ++ ']' :: suffix) =
        .ok (']' :: suffix, vs) := by
  intro vs H suffix f hs hf
  obtain ⟨g, rfl⟩ : ∃ g, f = g + 1 := ⟨f - 1, by omega⟩
  cases vs with
  | nil =>
    have h0 : joinSep ", ".toList (renderList ([] : List JSONObject)) = [] := rfl
    rw [h0, List.nil_append] at hf ⊢
    rw [parseElems0_succ]
    rw [value_close_err (Or.inl rfl) (by
      simp only [List.length_cons] at hf
      omega)]
  | cons v vs' =>
    rw [joinSep_render, List.append_assoc] at hf ⊢
    simp only [List.length_append, List.length_cons] at hf
    rw [parseElems0_succ]
    have hS : SuffOk (sepJoin vs' ++ ']' :: suffix) :=
      sepJoin_suffOk vs' (Or.inl rfl) suffix
    rw [H v (List.mem_cons_self v vs') _ g hS (by
      simp only [List.length_append, List.length_cons]
      omega)]
    dsimp only
    obtain ⟨c0, r0, hr0, -⟩ := render_head_not_space v
    have hrlen : 1 ≤ (render v).length := by
      rw [hr0]
      simp
    rw [elemsLoop_rt vs' (fun v2 hv2 => H v2 (List.mem_cons_of_mem _ hv2)) suffix g hs (by
      simp only [List.length_append, List.length_cons]
      omega)]

theorem kv_rt {k : List Char} (hkne : k ≠ []) (hkwe : wellEscaped k = true)
    {v : JSONObject}
    (Hv : ∀ (suffix : List Char) (f : Nat), SuffOk suffix →
      3 * (render v ++ suffix).length + 2 ≤ f →
      parseValueF f (render v ++ suffix) = .ok (suffix, v))
    (X : List Char) (f : Nat) (hX : SuffOk X)
    (hf : 3 * (kvText k v ++ X).length + 2 ≤ f) :
    parseKV f (kvText k v ++ X) = .ok (X, (.str k, v)) := by
  obtain ⟨g, rfl⟩ : ∃ g, f = g + 1 := ⟨f - 1, by omega⟩
  rw [kvText] at hf
  simp only [List.length_append, List.length_cons] at hf
  rw [parseKV_succ]
  have hin : kvText k v ++ X = '"' :: (k ++ '"' :: (':' :: ' ' :: (render v ++ X))) := by
    rw [kvText]
    simp
  rw [hin]
  rw [ws_cons (by decide : isNomSpace '"' = false)]
  have hstr : parse_json_string_value ('"' :: (k ++ '"' :: (':' :: ' ' :: (render v ++ X)))) =
      .ok (':' :: ' ' :: (render v ++ X), .str k) := by
    unfold parse_json_string_value
    rw [pjs_wellEscaped k _ hkne hkwe]
  rw [hstr]
  dsimp only
  rw [ws_cons (by decide : isNomSpace ':' = false)]
  dsimp only
  rw [if_pos rfl]
  have hws3 : ws (' ' :: (render v ++ X)) = render v ++ X := by
    show List.dropWhile isNomSpace (' ' :: (render v ++ X)) = render v ++ X
    rw [List.dropWhile_cons, if_pos (by decide : isNomSpace ' ' = true)]
    exact ws_render v X
  rw [hws3]
  rw [Hv X g hX (by
    simp only [List.length_append]
    omega)]

theorem kv_close_err {c : Char} {r : List Char} {f : Nat}
    (hsp : isNomSpace c = false) (hc : c ≠ '"') (hf : 1 ≤ f) :
    parseKV f (c :: r) = .error .error := by
  obtain ⟨g, rfl⟩ : ∃ g, f = g + 1 := ⟨f - 1, by omega⟩
  rw [parseKV_succ, ws_cons hsp, string_head_err hc]

theorem pairsLoop_rt : ∀ (es : List (List Char × JSONObject)),
    (∀ p ∈ es, p.1 ≠ [] ∧ wellEscaped p.1 = true ∧
      ∀ (suffix : List Char) (f : Nat), SuffOk suffix →
        3 * (render p.2 ++ suffix).length + 2 ≤ f →
        parseValueF f (render p.2 ++ suffix) = .ok (suffix, p.2)) →
    ∀ (suffix : List Char) (f : Nat), SuffOk suffix →
      3 * (sepJoinP es ++ '}' :: suffix).length + 3 ≤ f →
      parsePairsLoop f (sepJoinP es ++ '}' :: suffix) =
        .ok ('}' :: suffix, es.map (fun p => (JSONObject.str p.1, p.2))) := by
  intro es
  induction es with
  | nil =>
    intro H suffix f hs hf
    obtain ⟨g, rfl⟩ : ∃ g, f = g + 1 := ⟨f - 1, by omega⟩
    rw [sepJoinP, List.nil_append, parsePairsLoop_succ]
    rw [sepComma_close (by decide) (by decide)]
    rfl
  | cons e es ih =>
    intro H suffix f hs hf
    obtain ⟨g, rfl⟩ : ∃ g, f = g + 1 := ⟨f - 1, by omega⟩
    rcases e with ⟨k, v⟩
    obtain ⟨hkne, hkwe, Hv⟩ := H (k, v) (List.mem_cons_self _ _)
    rw [sepJoinP] at hf ⊢
    rw [kvText] at hf
    simp only [List.length_append, List.length_cons] at hf
    rw [List.cons_append, List.cons_append, List.append_assoc, parsePairsLoop_succ]
    have hS : SuffOk (sepJoinP es ++ '}' :: suffix) :=
      sepJoinP_suffOk es (Or.inr rfl) suffix
    have hwsX : ws (kvText k v ++ (sepJoinP es ++ '}' :: suffix)) =
        kvText k v ++ (sepJoinP es ++ '}' :: suffix) := by
      rw [kvText, List.cons_append]
      exact ws_cons (by decide)
    rw [sepComma_at hwsX]
    dsimp only
    rw [kv_rt hkne hkwe Hv (sepJoinP es ++ '}' :: suffix) g hS (by
      rw [kvText]
      simp only [List.length_append, List.length_cons]
      omega)]
    dsimp only
    rw [if_neg (by
      rw [kvText]
      simp only [List.length_append, List.length_cons]
      omega)]
    rw [ih (fun p hp => H p (List.mem_cons_of_mem _ hp)) suffix g hs (by
      simp only [List.length_append, List.length_cons]
      omega)]
    rfl

theorem pairs0_rt : ∀ (es : List (List Char × JSONObject)),
    (∀ p ∈ es, p.1 ≠ [] ∧ wellEscaped p.1 = true ∧
      ∀ (suffix : List Char) (f : Nat), SuffOk suffix →
        3 * (render p.2 ++ suffix).length + 2 ≤ f →
        parseValueF f (render p.2 ++ suffix) = .ok (suffix, p.2)) →
    ∀ (suffix : List Char) (f : Nat), SuffOk suffix →
      3 * (joinSep ", ".toList (renderPairs es) ++ '}' :: suffix).length + 3 ≤ f →
      parsePairs0 f (joinSep ", ".toList (renderPairs es) ++ '}' :: suffix) =
        .ok ('}' :: suffix, es.map (fun p => (JSONObject.str p.1, p.2))) := by
  intro es H suffix f hs hf
  obtain ⟨g, rfl⟩ : ∃ g, f = g + 1 := ⟨f - 1, by omega⟩
  cases es with
  | nil =>
    have h0 : joinSep ", ".toList (renderPairs ([] : List (List Char × JSONObject))) =
        [] := rfl
    rw [h0, List.nil_append] at hf ⊢
    rw [parsePairs0_succ]
    rw [kv_close_err (by decide) (by decide) (by
      simp only [List.length_cons] at hf
      omega)]
    rfl
  | cons e es' =>
    rcases e with ⟨k, v⟩
    obtain ⟨hkne, hkwe, Hv⟩ := H (k, v) (List.mem_cons_self _ _)
    rw [joinSep_renderP, List.append_assoc] at hf ⊢
    rw [kvText] at hf
    simp only [List.length_append, List.length_cons] at hf
    rw [parsePairs0_succ]
    have hS : SuffOk (sepJoinP es' ++ '}' :: suffix) :=
      sepJoinP_suffOk es' (Or.inr rfl) suffix
    rw [kv_rt hkne hkwe Hv (sepJoinP es' ++ '}' :: suffix) g hS (by
      rw [kvText]
      simp only [List.length_append, List.length_cons]
      omega)]
    dsimp only
    rw [pairsLoop_rt es' (fun p hp => H p (List.mem_cons_of_mem _ hp)) suffix g hs (by
      simp only [List.length_append, List.length_cons]
      omega)]
    rfl

theorem value_array_rt (vs : List JSONObject)
    (H : ∀ v ∈ vs, ∀ (suffix : List Char) (f : Nat), SuffOk suffix →
      3 * (render v ++ suffix).length + 2 ≤ f →
      parseValueF f (render v ++ suffix) = .ok (suffix, v))
    (suffix : List Char) (f : Nat) (hs : SuffOk suffix)
    (hf : 3 * (render (.array vs) ++ suffix).length + 2 ≤ f) :
    parseValueF f (render (.array vs) ++ suffix) = .ok (suffix, .array vs) := by
  have hrl : (render (JSONObject.array vs)).length =
      (joinSep ", ".toList (renderList vs)).length + 2 := by
    rw [render]
    simp
  simp only [List.length_append] at hf
  obtain ⟨g, rfl⟩ : ∃ g, f = g + 1 + 1 := ⟨f - 2, by omega⟩
  have hin : render (.array vs) ++ suffix =
      '[' :: (joinSep ", ".toList (renderList vs) ++ ']' :: suffix) := by
    rw [render]
    simp
  rw [hin]
  have hn : parse_json_null ('[' :: (joinSep ", ".toList (renderList vs) ++
      ']' :: suffix)) = .error .error := null_head_err (by decide)
  have hb : parse_json_bool ('[' :: (joinSep ", ".toList (renderList vs) ++
      ']' :: suffix)) = .error .error := bool_head_err (by decide) (by decide)
  have hnum : parse_json_number ('[' :: (joinSep ", ".toList (renderList vs) ++
      ']' :: suffix)) = .error .error := number_head_err (by decide) (by decide) (by decide)
  have hstr : parse_json_string_value ('[' :: (joinSep ", ".toList (renderList vs) ++
      ']' :: suffix)) = .error .error := string_head_err (by decide)
  have hwsJ : ws (joinSep ", ".toList (renderList vs) ++ ']' :: suffix) =
      joinSep ", ".toList (renderList vs) ++ ']' :: suffix := by
    cases vs with
    | nil =>
      rw [show joinSep ", ".toList (renderList ([] : List JSONObject)) = [] from rfl,
        List.nil_append]
      exact ws_cons (by decide)
    | cons v vs' =>
      rw [joinSep_render, List.append_assoc]
      exact ws_render v _
  have harr : parseArrayF (g + 1) ('[' :: (joinSep ", ".toList (renderList vs) ++
      ']' :: suffix)) = .ok (suffix, .array vs) := by
    rw [parseArrayF_succ]
    rw [ws_cons (by decide : isNomSpace '[' = false)]
    dsimp only
    rw [if_pos rfl]
    rw [hwsJ]
    rw [elems0_rt vs H suffix g hs (by
      simp only [List.length_append, List.length_cons]
      omega)]
    dsimp only
    rw [ws_cons (by decide : isNomSpace ']' = false)]
    dsimp only
    rw [if_pos rfl, suffOk_ws hs]
  refine valueF_dispatch_ok (ws_cons (by decide : isNomSpace '[' = false))
    (suffOk_ws hs) ?_
  rw [altStep_next hn, altStep_next hb, altStep_next hnum, altStep_next hstr]
  exact altStep_first harr

theorem value_map_rt (es : List (List Char × JSONObject))
    (hkd : keysDistinct es = true)
    (H : ∀ p ∈ es, p.1 ≠ [] ∧ wellEscaped p.1 = true ∧
      ∀ (suffix : List Char) (f : Nat), SuffOk suffix →
        3 * (render p.2 ++ suffix).length + 2 ≤ f →
        parseValueF f (render p.2 ++ suffix) = .ok (suffix, p.2))
    (suffix : List Char) (f : Nat) (hs : SuffOk suffix)
    (hf : 3 * (render (.map es) ++ suffix).length + 2 ≤ f) :
    parseValueF f (render (.map es) ++ suffix) = .ok (suffix, .map es) := by
  have hrl : (render (JSONObject.map es)).length =
      (joinSep ", ".toList (renderPairs es)).length + 2 := by
    rw [render]
    simp
  simp only [List.length_append] at hf
  obtain ⟨g, rfl⟩ : ∃ g, f = g + 1 + 1 := ⟨f - 2, by omega⟩
  have hin : render (.map es) ++ suffix =
      '{' :: (joinSep ", ".toList (renderPairs es) ++ '}' :: suffix) := by
    rw [render]
    simp
  rw [hin]
  have hn : parse_json_null ('{' :: (joinSep ", ".toList (renderPairs es) ++
      '}' :: suffix)) = .error .error := null_head_err (by decide)
  have hb : parse_json_bool ('{' :: (joinSep ", ".toList (renderPairs es) ++
      '}' :: suffix)) = .error .error := bool_head_err (by decide) (by decide)
  have hnum : parse_json_number ('{' :: (joinSep ", ".toList (renderPairs es) ++
      '}' :: suffix)) = .error .error := number_head_err (by decide) (by decide) (by decide)
  have hstr : parse_json_string_value ('{' :: (joinSep ", ".toList (renderPairs es) ++
      '}' :: suffix)) = .error .error := string_head_err (by decide)
  have harrE : parseArrayF (g + 1) ('{' :: (joinSep ", ".toList (renderPairs es) ++
      '}' :: suffix)) = .error .error :=
    array_head_err (by decide) (by decide)
  have hwsJ : ws (joinSep ", ".toList (renderPairs es) ++ '}' :: suffix) =
      joinSep ", ".toList (renderPairs es) ++ '}' :: suffix := by
    cases es with
    | nil =>
      rw [show joinSep ", ".toList (renderPairs ([] : List (List Char × JSONObject))) =
        [] from rfl, List.nil_append]
      exact ws_cons (by decide)
    | cons e es' =>
      rcases e with ⟨k, v⟩
      rw [joinSep_renderP, List.append_assoc, kvText, List.cons_append]
      exact ws_cons (by decide)
  have hmap : parseMapF (g + 1) ('{' :: (joinSep ", ".toList (renderPairs es) ++
      '}' :: suffix)) = .ok (suffix, .map es) := by
    rw [parseMapF_succ]
    rw [ws_cons (by decide : isNomSpace '{' = false)]
    dsimp only
    rw [if_pos rfl]
    rw [hwsJ]
    rw [pairs0_rt es H suffix g hs (by
      simp only [List.length_append, List.length_cons]
      omega)]
    dsimp only
    rw [ws_cons (by decide : isNomSpace '}' = false)]
    dsimp only
    rw [if_pos rfl, buildMap_strPairs hkd]
    dsimp only
    rw [suffOk_ws hs]
  refine valueF_dispatch_ok (ws_cons (by decide : isNomSpace '{' = false))
    (suffOk_ws hs) ?_
  rw [altStep_next hn, altStep_next hb, altStep_next hnum, altStep_next hstr,
    altStep_next harrE]
  exact hmap

theorem renderRoundTrip : ∀ (n : Nat) (v : JSONObject), sizeJ v ≤ n →
    renderableJ v = true →
    ∀ (suffix : List Char) (f : Nat), SuffOk suffix →
      3 * (render v ++ suffix).length + 2 ≤ f →
      parseValueF f (render v ++ suffix) = .ok (suffix, v) := by
  intro n
  induction n with
  | zero =>
    intro v hsz hren suffix f hs hf
    have hp := sizeJ_pos v
    omega
  | succ n ihn =>
    intro v hsz hren suffix f hs hf
    cases v with
    | null =>
      rw [show render JSONObject.null = "null".toList from rfl]
      rw [show render JSONObject.null = "null".toList from rfl] at hf
      exact value_null_rt hs (by omega)
    | bool b =>
      cases b
      · rw [show render (JSONObject.bool false) = "false".toList from rfl] at hf ⊢
        exact value_false_rt hs (by omega)
      · rw [show render (JSONObject.bool true) = "true".toList from rfl] at hf ⊢
        exact value_true_rt hs (by omega)
    | number x =>
      cases x with
      | finite d =>
        rw [show render (JSONObject.number (F64.finite d)) = renderFinite d from rfl]
          at hf ⊢
        rw [show renderableJ (JSONObject.number (F64.finite d)) =
          (decide d.canonical && !decAtLeast d f64Overflow &&
            !decAtMost d (-f64Overflow)) from rfl] at hren
        rw [Bool.and_eq_true, Bool.and_eq_true] at hren
        have hcan : d.canonical := of_decide_eq_true hren.1.1
        have h1 : decAtLeast d f64Overflow = false := by
          have h := hren.1.2
          rwa [Bool.not_eq_true'] at h
        have h2 : decAtMost d (-f64Overflow) = false := by
          have h := hren.2
          rwa [Bool.not_eq_true'] at h
        exact value_number_rt hcan h1 h2 hs (by omega)
      | inf => exact absurd hren (by decide)
      | neginf => exact absurd hren (by decide)
    | str s =>
      rw [show render (JSONObject.str s) = '"' :: (s ++ ['"']) from rfl] at hf ⊢
      rw [show renderableJ (JSONObject.str s) = (!s.isEmpty && wellEscaped s) from rfl]
        at hren
      rw [Bool.and_eq_true] at hren
      have hne : s ≠ [] := by
        intro h0
        subst h0
        simp at hren
      exact value_str_rt hne hren.2 hs (by omega)
    | array vs =>
      have hszL : sizeL vs + 1 ≤ n + 1 := by
        rw [show sizeJ (JSONObject.array vs) = sizeL vs + 1 from rfl] at hsz
        exact hsz
      have hrenL : renderableL vs = true := by
        rw [show renderableJ (JSONObject.array vs) = renderableL vs from rfl] at hren
        exact hren
      refine value_array_rt vs ?_ suffix f hs hf
      intro v' hv'
      have hszv := sizeL_mem hv'
      exact ihn v' (by omega) (renderableL_mem hrenL hv')
    | map es =>
      have hszM : sizeM es + 1 ≤ n + 1 := by
        rw [show sizeJ (JSONObject.map es) = sizeM es + 1 from rfl] at hsz
        exact hsz
      rw [show renderableJ (JSONObject.map es) =
        (keysDistinct es && renderableM es) from rfl] at hren
      rw [Bool.and_eq_true] at hren
      refine value_map_rt es hren.1 ?_ suffix f hs hf
      intro p hp
      obtain ⟨k, v'⟩ := p
      obtain ⟨hk, hv⟩ := renderableM_mem hren.2 hp
      rw [Bool.and_eq_true] at hk
      refine ⟨?_, hk.2, ?_⟩
      · intro h0
        subst h0
        simp at hk
      · have hszv := sizeM_mem hp
        exact ihn v' (by omega) hv

theorem render_parse (v : JSONObject) (hren : renderableJ v = true) :
    parse_json_value (render v) = .ok ([], v) := by
  have h := renderRoundTrip (sizeJ v) v le_rfl hren [] (stdFuel (render v))
    (Or.inl rfl) (by
      unfold stdFuel
      simp)
  rw [List.append_nil] at h
  exact h

theorem pjs_raw_slice {input rest sv : List Char}
    (h : parse_json_string input = .ok (rest, sv)) :
    input = '"' :: (sv ++ '"' :: rest) := by
  obtain ⟨inner, rfl⟩ := pjs_head h
  rcases hgo : escapedGo inner 0 with e | n
  · simp [parse_json_string, hgo] at h
  simp only [parse_json_string, hgo, if_pos rfl] at h
  rcases hdrop : inner.drop n with _ | ⟨c2, r2⟩ <;> rw [hdrop] at h
  · simp at h
  by_cases hc2 : c2 = '"'
  · subst hc2
    simp at h
    obtain ⟨hr, hsv⟩ := h
    have hlen : n ≤ inner.length := by
      by_contra hgt
      push_neg at hgt
      rw [List.drop_eq_nil_of_le (le_of_lt hgt)] at hdrop
      exact List.noConfusion hdrop
    subst hr
    rw [← hsv]
    have htad := List.take_append_drop n inner
    rw [hdrop] at htad
    rw [htad]
  · simp [hc2] at h

/-! ## Error kinds of the alternatives, and what an abort implies -/

theorem litP_err_kind {t i : List Char} {e : PErr} (h : litP t i = .error e) :
    e = .error := by
  unfold litP at h
  split at h
  · exact Except.noConfusion h
  · exact (Except.error.inj h).symm

theorem null_err_kind {i : List Char} {e : PErr} (h : parse_json_null i = .error e) :
    e = .error := by
  unfold parse_json_null at h
  rcases hl : litP "null".toList i with e' | ⟨r, o⟩ <;> rw [hl] at h
  · have hk := litP_err_kind hl
    subst hk
    exact (Except.error.inj h).symm
  · exact Except.noConfusion h

theorem bool_err_kind {i : List Char} {e : PErr} (h : parse_json_bool i = .error e) :
    e = .error := by
  unfold parse_json_bool at h
  rcases hl : litP "true".toList i with e' | ⟨r, o⟩ <;> rw [hl] at h
  · have hk := litP_err_kind hl
    subst hk
    rcases hl2 : litP "false".toList i with e2 | ⟨r2, o2⟩ <;> rw [hl2] at h
    · have hk2 := litP_err_kind hl2
      subst hk2
      exact (Except.error.inj h).symm
    · exact Except.noConfusion h
  · exact Except.noConfusion h

theorem escapedGo_err_kind : ∀ (L : Nat) (s : List Char), s.length ≤ L →
    ∀ (n : Nat) (e : PErr), escapedGo s n = .error e → e = .error := by
  intro L
  induction L with
  | zero =>
    intro s hs n e h
    rcases s with _ | ⟨c, r⟩
    · exact Except.noConfusion h
    · simp at hs
  | succ L ih =>
    intro s hs n e h
    rcases s with _ | ⟨c, r⟩
    · exact Except.noConfusion h
    rw [escapedGo.eq_def] at h
    dsimp only at h
    by_cases hn : isStrNormal c = true
    · rw [if_pos hn] at h
      exact ih r (by simp at hs; omega) (n + 1) e h
    · rw [if_neg hn] at h
      by_cases hb : c = '\\'
      · rw [if_pos hb] at h
        rcases r with _ | ⟨c2, r2⟩
        · exact (Except.error.inj h).symm
        · by_cases hm : c2 ∈ escChars
          · simp only [hm, if_pos, ite_true] at h
            exact ih r2 (by simp at hs; omega) (n + 2) e h
          · simp only [hm, ite_false] at h
            exact (Except.error.inj h).symm
      · rw [if_neg hb] at h
        by_cases h0 : n = 0
        · rw [if_pos h0] at h
          exact (Except.error.inj h).symm
        · rw [if_neg h0] at h
          exact Except.noConfusion h

theorem pjs_err_kind {input : List Char} {e : PErr}
    (h : parse_json_string input = .error e) : e = .error := by
  unfold parse_json_string at h
  rcases input with _ | ⟨c, inner⟩
  · exact (Except.error.inj h).symm
  dsimp only at h
  by_cases hc : c = '"'
  · rw [if_pos hc] at h
    rcases hgo : escapedGo inner 0 with e' | n <;> rw [hgo] at h
    · have hk := escapedGo_err_kind inner.length inner le_rfl 0 e' hgo
      subst hk
      exact (Except.error.inj h).symm
    · dsimp only at h
      rcases hdrop : inner.drop n with _ | ⟨c2, r2⟩ <;> rw [hdrop] at h
      · exact (Except.error.inj h).symm
      · dsimp only at h
        by_cases hc2 : c2 = '"'
        · rw [if_pos hc2] at h
          exact Except.noConfusion h
        · rw [if_neg hc2] at h
          exact (Except.error.inj h).symm
  · rw [if_neg hc] at h
    exact (Except.error.inj h).symm

theorem pjsv_err_kind {input : List Char} {e : PErr}
    (h : parse_json_string_value input = .error e) : e = .error := by
  unfold parse_json_string_value at h
  rcases hl : parse_json_string input with e' | ⟨r, s⟩ <;> rw [hl] at h
  · have hk := pjs_err_kind hl
    subst hk
    exact (Except.error.inj h).symm
  · exact Except.noConfusion h

theorem rf_failure_head {input : List Char}
    (h : recognize_float input = .error .failure) :
    ∃ c r, input = c :: r ∧ (isSign c = true ∨ c.isDigit = true ∨ c = '.') := by
  rcases rf_err h with ⟨he, -⟩ | ⟨-, sg, b, c0, sg2, r2, hin, hsg, hb, -, -, -⟩
  · exact PErr.noConfusion he
  obtain ⟨cb, bb, hbeq, hcb⟩ := bodyShape_head hb
  rcases hsg with rfl | rfl | rfl
  · refine ⟨cb, bb ++ (c0 :: (sg2 ++ r2)), ?_, Or.inr hcb⟩
    rw [hin, hbeq]
    simp
  · exact ⟨'+', _, by rw [hin]; rfl, Or.inl (by decide)⟩
  · exact ⟨'-', _, by rw [hin]; rfl, Or.inl (by decide)⟩

theorem number_abort_head {input : List Char} {e : PErr}
    (h : parse_json_number input = .error e) (hne : e ≠ .error) :
    ∃ c r, input = c :: r ∧ (isSign c = true ∨ c.isDigit = true ∨ c = '.') := by
  unfold parse_json_number at h
  rcases hrf : recognize_float input with e' | ⟨rest, lex⟩ <;> rw [hrf] at h
  · have he' : e = e' := (Except.error.inj h).symm
    subst he'
    rcases rf_err_kind hrf with rfl | rfl
    · exact absurd rfl hne
    · exact rf_failure_head hrf
  · dsimp only at h
    rw [rf_accepts hrf] at h
    simp at h

theorem arrayF_abort_head {g : Nat} {t : List Char} {e : PErr}
    (h : parseArrayF (g + 1) t = .error e) (hne : e ≠ .error) :
    ∃ r, ws t = '[' :: r := by
  rw [parseArrayF_succ] at h
  rcases hws : ws t with _ | ⟨c, r1⟩ <;> rw [hws] at h
  · exact absurd (Except.error.inj h).symm hne
  dsimp only at h
  by_cases hc : c = '['
  · subst hc
    exact ⟨r1, rfl⟩
  · rw [if_neg hc] at h
    exact absurd (Except.error.inj h).symm hne

theorem sign_cases {c : Char} (h : isSign c = true) : c = '+' ∨ c = '-' := by
  simp only [isSign, Bool.or_eq_true, decide_eq_true_eq] at h
  exact h

theorem digit_ne_brackets {c : Char} (h : c.isDigit = true) :
    c ≠ '[' ∧ c ≠ '{' :=
  ⟨fun hc => by subst hc; exact absurd h (by decide),
   fun hc => by subst hc; exact absurd h (by decide)⟩

theorem value_err_no_success {input : List Char} {e : PErr}
    (h : parse_json_value input = .error e) :
    (∀ a, parse_json_null (ws input) ≠ .ok a) ∧
    (∀ a, parse_json_bool (ws input) ≠ .ok a) ∧
    (∀ a, parse_json_number (ws input) ≠ .ok a) ∧
    (∀ a, parse_json_string_value (ws input) ≠ .ok a) ∧
    (∀ a, parse_json_array (ws input) ≠ .ok a) ∧
    (∀ a, parse_json_map (ws input) ≠ .ok a) := by
  rw [parse_json_value_eq_alt] at h
  rcases hx1 : parse_json_null (ws input) with e1 | ⟨r1, v1⟩
  swap
  · rw [altStep_first hx1] at h
    exact Except.noConfusion h
  have hk1 := null_err_kind hx1
  subst hk1
  rw [altStep_next hx1] at h
  rcases hx2 : parse_json_bool (ws input) with e2 | ⟨r2, v2⟩
  swap
  · rw [altStep_first hx2] at h
    exact Except.noConfusion h
  have hk2 := bool_err_kind hx2
  subst hk2
  rw [altStep_next hx2] at h
  rcases hx3 : parse_json_number (ws input) with e3 | ⟨r3, v3⟩
  swap
  · rw [altStep_first hx3] at h
    exact Except.noConfusion h
  by_cases hk3 : e3 = .error
  case neg =>
    obtain ⟨c, r, hcr, hck⟩ := number_abort_head hx3 hk3
    have hsp : isNomSpace c = false := by
      rcases hck with hsgn | hd | rfl
      · rcases sign_cases hsgn with rfl | rfl <;> decide
      · exact (digit_ne hd).2.2.2
      · decide
    have hq : c ≠ '"' ∧ c ≠ '[' ∧ c ≠ '{' := by
      rcases hck with hsgn | hd | rfl
      · rcases sign_cases hsgn with rfl | rfl <;> exact ⟨by decide, by decide, by decide⟩
      · exact ⟨(digit_ne_letters hd).2.2.2, (digit_ne_brackets hd).1,
          (digit_ne_brackets hd).2⟩
      · exact ⟨by decide, by decide, by decide⟩
    refine ⟨fun a ha => Except.noConfusion ha,
            fun a ha => Except.noConfusion ha,
            fun a ha => Except.noConfusion ha,
            ?_, ?_, ?_⟩
    · intro a ha
      rw [hcr, string_head_err hq.1] at ha
      exact Except.noConfusion ha
    · intro a ha
      rw [hcr] at ha
      have harr : parse_json_array (c :: r) = .error .error := by
        show parseArrayF (stdFuel (c :: r)) (c :: r) = .error .error
        rw [show stdFuel (c :: r) = (3 * (c :: r).length + 1) + 1 from rfl]
        exact array_head_err hsp hq.2.1
      rw [harr] at ha
      exact Except.noConfusion ha
    · intro a ha
      rw [hcr] at ha
      have hmapE : parse_json_map (c :: r) = .error .error := by
        show parseMapF (stdFuel (c :: r)) (c :: r) = .error .error
        rw [show stdFuel (c :: r) = (3 * (c :: r).length + 1) + 1 from rfl]
        exact map_head_err hsp hq.2.2
      rw [hmapE] at ha
      exact Except.noConfusion ha
  case pos =>
    subst hk3
    rw [altStep_next hx3] at h
    rcases hx4 : parse_json_string_value (ws input) with e4 | ⟨r4, v4⟩
    swap
    · rw [altStep_first hx4] at h
      exact Except.noConfusion h
    have hk4 := pjsv_err_kind hx4
    subst hk4
    rw [altStep_next hx4] at h
    rcases hx5 : parse_json_array (ws input) with e5 | ⟨r5, v5⟩
    swap
    · rw [altStep_first hx5] at h
      exact Except.noConfusion h
    by_cases hk5 : e5 = .error
    case neg =>
      have hx5' : parseArrayF (3 * (ws input).length + 1 + 1) (ws input) =
          .error e5 := hx5
      obtain ⟨r, hr⟩ := arrayF_abort_head hx5' hk5
      rw [ws_idem] at hr
      refine ⟨fun a ha => Except.noConfusion ha,
              fun a ha => Except.noConfusion ha,
              fun a ha => Except.noConfusion ha,
              fun a ha => Except.noConfusion ha,
              fun a ha => Except.noConfusion ha,
              ?_⟩
      intro a ha
      rw [hr] at ha
      have hmapE : parse_json_map ('[' :: r) = .error .error := by
        show parseMapF (stdFuel ('[' :: r)) ('[' :: r) = .error .error
        rw [show stdFuel ('[' :: r) = (3 * ('[' :: r).length + 1) + 1 from rfl]
        exact map_head_err (by decide) (by decide)
      rw [hmapE] at ha
      exact Except.noConfusion ha
    case pos =>
      subst hk5
      rw [altStep_next hx5] at h
      rcases hx6 : parse_json_map (ws input) with e6 | ⟨r6, v6⟩
      swap
      · rw [hx6] at h
        exact Except.noConfusion h
      exact ⟨fun a ha => Except.noConfusion ha,
             fun a ha => Except.noConfusion ha,
             fun a ha => Except.noConfusion ha,
             fun a ha => Except.noConfusion ha,
             fun a ha => Except.noConfusion ha,
             fun a ha => Except.noConfusion ha⟩

theorem buildMap_lastWins {ps : List (JSONObject × JSONObject)}
    {m : List (List Char × JSONObject)} (h : buildMap ps = some m) :
    (m.map Prod.fst).Nodup ∧ ∀ k, alook m k = lastVal ps k := by
  obtain ⟨hnd, hlook⟩ := buildMapGo_spec ps [] m h
  refine ⟨hnd (by simp), fun k => ?_⟩
  rw [hlook k]
  rcases lastVal ps k with _ | w
  · rw [alook]
  · rfl

theorem pjn_ok_inv {input rest : List Char} {v : JSONObject}
    (h : parse_json_number input = .ok (rest, v)) :
    ∃ lex, recognize_float input = .ok (rest, lex) ∧ v = .number (f64OfLex lex) := by
  unfold parse_json_number at h
  rcases hrf : recognize_float input with e | ⟨r', lex⟩ <;> rw [hrf] at h
  · exact Except.noConfusion h
  · dsimp only at h
    by_cases ha : rustFloatAccepts lex = true
    · rw [if_pos ha] at h
      have h1 : r' = rest := (Prod.mk.injEq _ _ _ _ ▸ Except.ok.inj h).1
      have h2 : JSONObject.number (f64OfLex lex) = v :=
        (Prod.mk.injEq _ _ _ _ ▸ Except.ok.inj h).2
      subst h1
      exact ⟨lex, rfl, h2.symm⟩
    · rw [if_neg ha] at h
      exact Except.noConfusion h

/-! ## The claims

One theorem per claim of the specification, stated over the embedding
defined above. -/

/-- C1: the specification asserts that a parsed object retains every
duplicate key as a separate entry in source order.  The code folds the
parsed pairs into a `HashMap`, so a repeated key keeps only its last value:
parsing `{"a": 1, "a": 2}` yields a single-entry map.  This evaluation
documents the divergence between the code and the spec (whose
duplicate-preserving reading the repository's tests share). -/
theorem spec_c1_duplicate_keys_collapse :
    parse_json_value "\x7b\"a\": 1, \"a\": 2\x7d".toList =
      .ok ([], .map [("a".toList, .number (.finite ⟨2, 0⟩))]) := by
  decide

/-- C2 (corrected): for every well-formed quoted string input the string
parser returns the RAW body text between the quotes, escape sequences
included and undecoded; the accepted bodies are exactly the `wellEscaped`
ones (runs of characters other than `\` and `"`, interleaved with the
two-character escapes `\"`, `\n`, `\r`, `\t`, `\\`). -/
theorem spec_c2_strings_raw (s rest : List Char) (hne : s ≠ [])
    (hwe : wellEscaped s = true) :
    parse_json_string ('"' :: (s ++ '"' :: rest)) = .ok (rest, s) :=
  pjs_wellEscaped s rest hne hwe

/-- Witness for C2 at the spec's own example: the body `line\nbreak` is
returned raw (backslash and `n`), with nothing left over. -/
theorem spec_c2_strings_raw_witness :
    "line\\nbreak".toList ≠ [] ∧ wellEscaped "line\\nbreak".toList = true ∧
    parse_json_string ('"' :: ("line\\nbreak".toList ++ '"' :: [])) =
      .ok ([], "line\\nbreak".toList) :=
  ⟨by decide, by decide, spec_c2_strings_raw _ _ (by decide) (by decide)⟩

/-- Counterexample to C2 as stated: `"line\nbreak"` parses to the raw
eleven-character body (not a decoded newline), `\u` escapes are rejected,
and so is the empty string `""`. -/
theorem spec_c2_counterexample :
    parse_json_value "\"line\\nbreak\"".toList =
      .ok ([], .str "line\\nbreak".toList) ∧
    "line\\nbreak".toList ≠ "line\nbreak".toList ∧
    parse_json_string "\"\\u0041\"".toList = .error .error ∧
    parse_json_string "\"\"".toList = .error .error := by
  decide

/-- C3 (corrected): of the four spec examples, `--5` (number),
`{unterminated` (object) and `[1,2,]` (array) indeed fail with an error and
no value, but `.12` does NOT fail: the number grammar accepts a leading
decimal point, so it parses to the number 0.12 with no remainder. -/
theorem spec_c3_malformed_inputs :
    parse_json_number "--5".toList = .error .error ∧
    parse_json_map "\x7bunterminated".toList = .error .error ∧
    parse_json_array "[1,2,]".toList = .error .error ∧
    parse_json_number ".12".toList = .ok ([], .number (.finite ⟨12, -2⟩)) := by
  decide

/-- Counterexample to C3 as stated: the input `.12` succeeds (with an empty
remainder) instead of failing. -/
theorem spec_c3_counterexample :
    ∃ v, parse_json_number ".12".toList = .ok ([], v) :=
  ⟨.number (.finite ⟨12, -2⟩), by decide⟩

/-- C4 (corrected): on success the number parser consumes the maximal
prefix in `NumShape` — which is LARGER than the spec's grammar: an optional
`+` or `-` sign, then `digits ['.' digits?] | '.' digits`, then an optional
exponent — and leaves the rest; when it fails recoverably no prefix of the
input is in `NumShape` at all (so nothing numeric was consumable); and its
only failure modes are the recoverable `Error` and the non-recoverable
`Failure` that `cut` raises after an exponent marker without digits. -/
theorem spec_c4_number_lexing (input : List Char) :
    (∀ rest v, parse_json_number input = .ok (rest, v) →
      ∃ lex, input = lex ++ rest ∧ NumShape lex ∧ v = .number (f64OfLex lex) ∧
        ∀ p t, p ++ t = input → NumShape p → p.length ≤ lex.length) ∧
    (parse_json_number input = .error .error →
      ∀ p t, p ++ t = input → ¬ NumShape p) ∧
    (∀ e, parse_json_number input = .error e → e = .error ∨ e = .failure) := by
  refine ⟨?_, ?_, ?_⟩
  · intro rest v h
    obtain ⟨lex, hrf, hv⟩ := pjn_ok_inv h
    obtain ⟨hin, hshape⟩ := rf_lex_shape hrf
    exact ⟨lex, hin, hshape, hv, rf_maximal hrf⟩
  · intro h
    unfold parse_json_number at h
    rcases hrf : recognize_float input with e' | ⟨r', lex⟩ <;> rw [hrf] at h
    · have he : e' = .error := Except.error.inj h
      subst he
      exact rf_no_prefix hrf
    · dsimp only at h
      by_cases ha : rustFloatAccepts lex = true
      · rw [if_pos ha] at h
        exact Except.noConfusion h
      · rw [rf_accepts hrf] at ha
        exact absurd rfl ha
  · intro e h
    unfold parse_json_number at h
    rcases hrf : recognize_float input with e' | ⟨r', lex⟩ <;> rw [hrf] at h
    · have he : e = e' := (Except.error.inj h).symm
      subst he
      exact rf_err_kind hrf
    · dsimp only at h
      rw [rf_accepts hrf] at h
      simp at h

/-- Witness for C4 at the spec's example `12a`: the consumed lexeme is a
maximal numeric prefix and the remainder `a` is left unconsumed. -/
theorem spec_c4_witness :
    ∃ lex, "12a".toList = lex ++ "a".toList ∧ NumShape lex ∧
      JSONObject.number (F64.finite ⟨12, 0⟩) = .number (f64OfLex lex) ∧
      ∀ p t, p ++ t = "12a".toList → NumShape p → p.length ≤ lex.length :=
  (spec_c4_number_lexing "12a".toList).1 "a".toList
    (.number (.finite ⟨12, 0⟩)) (by decide)

/-- Counterexample to C4 as stated: `12e` does NOT consume `12` and leave
`e` — the exponent `cut` commits and the parser fails non-recoverably; and
the grammar is larger than claimed: `+5` and `12.` are both accepted
whole. -/
theorem spec_c4_counterexample :
    parse_json_number "12e".toList = .error .failure ∧
    parse_json_number "+5".toList = .ok ([], .number (.finite ⟨5, 0⟩)) ∧
    parse_json_number "12.".toList = .ok ([], .number (.finite ⟨12, 0⟩)) := by
  decide

/-- C5: the value dispatcher trims the input with `multispace0`, tries
Null, Bool, Number, String, Array, Object in that fixed order on the very
same trimmed cursor, returns the first success with trailing whitespace
trimmed, and when it fails no alternative would have succeeded (so no
partial value and no masked success, Failure aborts included). -/
theorem spec_c5_dispatcher (input : List Char) :
    (parse_json_value input =
      match altStep (parse_json_null (ws input)) (altStep (parse_json_bool (ws input))
        (altStep (parse_json_number (ws input)) (altStep (parse_json_string_value (ws input))
          (altStep (parse_json_array (ws input)) (parse_json_map (ws input)))))) with
      | .ok (rest, v) => .ok (ws rest, v)
      | .error e => .error e) ∧
    (∀ e, parse_json_value input = .error e →
      (∀ a, parse_json_null (ws input) ≠ .ok a) ∧
      (∀ a, parse_json_bool (ws input) ≠ .ok a) ∧
      (∀ a, parse_json_number (ws input) ≠ .ok a) ∧
      (∀ a, parse_json_string_value (ws input) ≠ .ok a) ∧
      (∀ a, parse_json_array (ws input) ≠ .ok a) ∧
      (∀ a, parse_json_map (ws input) ≠ .ok a)) :=
  ⟨parse_json_value_eq_alt input, fun _ h => value_err_no_success h⟩

/-- C6: the renderer is a function of the value alone (two renderings of
equal values agree), and an object value renders as `{`, its entries in
stored order as `"key": value` joined by comma-space, then `}`. -/
theorem spec_c6_render_shape (es es2 : List (List Char × JSONObject))
    (h : es2 = es) :
    render (.map es2) = render (.map es) ∧
    render (.map es) =
      '{' :: List.intercalate ", ".toList
        (es.map (fun p => '"' :: p.1 ++ '"' :: ':' :: ' ' :: render p.2)) ++ ['}'] :=
  ⟨by rw [h], render_map_eq es⟩

/-- Witness for C6 at a one-entry object. -/
theorem spec_c6_witness :
    render (.map [("a".toList, JSONObject.null)]) =
      render (.map [("a".toList, JSONObject.null)]) ∧
    render (.map [("a".toList, JSONObject.null)]) =
      '{' :: List.intercalate ", ".toList
        ([("a".toList, JSONObject.null)].map
          (fun p => '"' :: p.1 ++ '"' :: ':' :: ' ' :: render p.2)) ++ ['}'] :=
  spec_c6_render_shape [("a".toList, JSONObject.null)]
    [("a".toList, JSONObject.null)] rfl

/-- C7 (corrected): parsing the renderer's output reproduces the value
exactly — structure and order included — for every renderable value:
numbers finite, canonically represented and inside the overflow thresholds,
strings nonempty and made only of the escape alphabet the string grammar
accepts, object keys pairwise distinct.  Outside that set the round trip
genuinely fails (see the counterexample). -/
theorem spec_c7_roundtrip (v : JSONObject) (hren : renderableJ v = true) :
    parse_json_value (render v) = .ok ([], v) :=
  render_parse v hren

/-- Witness for C7 at a nested object. -/
theorem spec_c7_witness :
    renderableJ (.map [("a".toList, .array [.number (.finite ⟨25, -1⟩),
      .str "x".toList]), ("b".toList, JSONObject.null)]) = true ∧
    parse_json_value (render (.map [("a".toList, .array [.number (.finite ⟨25, -1⟩),
      .str "x".toList]), ("b".toList, JSONObject.null)])) =
      .ok ([], .map [("a".toList, .array [.number (.finite ⟨25, -1⟩),
        .str "x".toList]), ("b".toList, JSONObject.null)]) :=
  ⟨by decide, spec_c7_roundtrip _ (by decide)⟩

/-- Counterexample to C7 as stated: the array `[1e999]` parses to an array
holding an infinite number, which renders as `[inf]` and no longer parses;
an array holding the empty string renders as `[""]`, which the string
grammar rejects. -/
theorem spec_c7_counterexample :
    parse_json_value "[1e999]".toList = .ok ([], .array [.number .inf]) ∧
    parse_json_value (render (.array [.number .inf])) = .error .error ∧
    parse_json_value (render (.array [.str []])) = .error .error := by
  decide

/-- C8: the number parser never reaches the `expect` panic: every lexeme
`recognize_float` recognizes is accepted by `f64::from_str`'s grammar, so
conversion succeeds and every failure is returned as an error value. -/
theorem spec_c8_no_panic (input : List Char) :
    parse_json_number input ≠ .error .panicked ∧
    (∀ rest lex, recognize_float input = .ok (rest, lex) →
      rustFloatAccepts lex = true) :=
  ⟨pjn_no_panic input, fun _ _ h => rf_accepts h⟩

/-- C9: whenever the object parser succeeds, the resulting map comes from
folding the parsed pair list into the `HashMap`: its keys are pairwise
distinct and each key is bound to the value of its LAST occurrence in
source order. -/
theorem spec_c9_last_wins (input r : List Char) (v : JSONObject)
    (h : parse_json_map input = .ok (r, v)) :
    ∃ r1 r2 ps r3 m, ws input = '{' :: r1 ∧
      parsePairs0 (3 * input.length + 1) (ws r1) = .ok (r2, ps) ∧
      ws r2 = '}' :: r3 ∧ buildMap ps = some m ∧ r = ws r3 ∧ v = .map m ∧
      (m.map Prod.fst).Nodup ∧ ∀ k, alook m k = lastVal ps k := by
  have h' : parseMapF (3 * input.length + 1 + 1) input = .ok (r, v) := by
    rw [parseMapF_stable (by omega)]
    exact h
  obtain ⟨r1, r2, ps, r3, m, h1, h2, h3, h4, h5, h6⟩ := parseMapF_ok_inv h'
  obtain ⟨hnd, hlook⟩ := buildMap_lastWins h4
  exact ⟨r1, r2, ps, r3, m, h1, h2, h3, h4, h5, h6, hnd, hlook⟩

/-- Witness for C9 at `{"a": 1, "a": 2}`: one entry, bound to 2. -/
theorem spec_c9_witness :
    ∃ r1 r2 ps r3 m, ws "\x7b\"a\": 1, \"a\": 2\x7d".toList = '{' :: r1 ∧
      parsePairs0 (3 * "\x7b\"a\": 1, \"a\": 2\x7d".toList.length + 1) (ws r1) =
        .ok (r2, ps) ∧
      ws r2 = '}' :: r3 ∧ buildMap ps = some m ∧ ([] : List Char) = ws r3 ∧
      JSONObject.map [("a".toList, .number (.finite ⟨2, 0⟩))] = .map m ∧
      (m.map Prod.fst).Nodup ∧ ∀ k, alook m k = lastVal ps k :=
  spec_c9_last_wins "\x7b\"a\": 1, \"a\": 2\x7d".toList []
    (.map [("a".toList, .number (.finite ⟨2, 0⟩))]) (by decide)

/-- C10: the number parser accepts a leading plus sign, and `+` followed by
digits parses to the same number value as the digits alone, with an empty
remainder. -/
theorem spec_c10_leading_plus (d : List Char) (hne : d ≠ []) (hd : allDigits d) :
    parse_json_number ('+' :: d) = .ok ([], .number (f64OfLex ('+' :: d))) ∧
    parse_json_number d = .ok ([], .number (f64OfLex d)) ∧
    f64OfLex ('+' :: d) = f64OfLex d :=
  pjn_plus hne hd

/-- Witness for C10 at `+5`. -/
theorem spec_c10_witness :
    "5".toList ≠ [] ∧ allDigits "5".toList ∧
    (parse_json_number ('+' :: "5".toList) =
        .ok ([], .number (f64OfLex ('+' :: "5".toList))) ∧
      parse_json_number "5".toList = .ok ([], .number (f64OfLex "5".toList)) ∧
      f64OfLex ('+' :: "5".toList) = f64OfLex "5".toList) :=
  ⟨by decide, by decide, spec_c10_leading_plus "5".toList (by decide) (by decide)⟩

end JsonRs
